import Mathlib

set_option linter.unusedVariables false
set_option linter.dupNamespace false
set_option synthInstance.maxSize 4096

/-! Verification of the slot-arena doubly linked list and the chained hash table
of `src/single-header-impl/graph.h` (repository `alexpaniman/c-graphviz`).

The backing array `element<E>* elements` is modeled as a total function
`Int → element E`; `element_index_t` is C `int`, modeled as `Int`.  Allocation
(`calloc`/`realloc`) is modeled as always succeeding, and `calloc`-zeroed memory
reads as the `default` cell; `size_t` counters are modeled as `Nat` (no
operation sequence considered here approaches `2^64`, and the one theorem about
a `used` underflow is stated on a state with `used = 1`).  Fallible operations
return `Option`: `none` models a failure `stack_trace` result (or, where noted,
an `abort` through the `THROW` macro); the error message text is not modeled. -/

/-- One array cell of the arena; mirrors `struct element` (graph.h:173-180):
a value plus two neighbor slot indices and a free/used flag. -/
structure element (E : Type) where
  next_index : Int
  prev_index : Int
  is_free : Bool
  element : E
deriving DecidableEq

/-- Default cell: `calloc`-zeroed memory / the `(E) \x7b\x7d` value the C code
uses for vacated slots. -/
instance elementInhabited {E : Type} [Inhabited E] : Inhabited (element E) :=
  ⟨{ next_index := 0, prev_index := 0, is_free := false, element := default }⟩

/-- The arena header; mirrors `struct linked_list` (graph.h:182-189). -/
structure linked_list (E : Type) where
  elements : Int → element E
  capacity : Nat
  used : Nat
  free : Int
  is_linearized : Bool

/-- Whole-slot store: `list->elements[i] = e`. -/
def setSlot {E : Type} (f : Int → element E) (i : Int) (e : element E) :
    Int → element E :=
  fun j => if j = i then e else f j

/-- Single-field store: `list->elements[i].field = v`, expressed with a field
updater `g`. -/
def upd {E : Type} (f : Int → element E) (i : Int) (g : element E → element E) :
    Int → element E :=
  fun j => if j = i then g (f i) else f j

/-- The permanent sentinel slot index (graph.h:202). -/
def linked_list_end_index : Int := 0

variable {E : Type}

/-- `linked_list_head_index` (graph.h:211): the sentinel's `next_index`. -/
def linked_list_head_index (l : linked_list E) : Int :=
  (l.elements linked_list_end_index).next_index

/-- `linked_list_tail_index` (graph.h:222): the sentinel's `prev_index`. -/
def linked_list_tail_index (l : linked_list E) : Int :=
  (l.elements linked_list_end_index).prev_index

/-- `__linked_list_insert_after_in_place` (graph.h:358-384): splice a fresh cell
holding `value` between `prev_index` and its current successor.  The C routine
reads `prev_element->next_index` and `prev_element->is_free` through a pointer;
both fields are untouched by the two neighbor writes, so reading them up front
is equivalent. -/
def __linked_list_insert_after_in_place (l : linked_list E) (value : E)
    (prev_index place_for_new_element : Int) : linked_list E :=
  let prev_el := l.elements prev_index
  let next_index := prev_el.next_index
  let e1 := upd l.elements prev_index (fun e => { e with next_index := place_for_new_element })
  let e2 := upd e1 next_index (fun e => { e with prev_index := place_for_new_element })
  let e3 := setSlot e2 place_for_new_element
    { next_index := next_index, prev_index := prev_index,
      is_free := prev_el.is_free, element := value }
  { l with elements := e3 }

/-- `linked_list_create` (graph.h:245-273).  `calloc` zeroes every cell (so the
sentinel self-loops), slot 1 becomes a one-element free ring, and slots
`capacity+1` down to `2` are spliced after slot 1, producing the ascending free
ring `1, 2, ..., capacity+1`.  The C function never writes `list->used`; every
caller in the repository zero-initializes the struct first, which this model
reflects with `used := 0`. -/
def linked_list_create (E : Type) [Inhabited E] (capacity : Nat := 10) :
    linked_list E :=
  let l0 : linked_list E :=
    { elements := fun _ => default, capacity := capacity, used := 0,
      free := 1, is_linearized := true }
  let slot1 : element E :=
    { next_index := 1, prev_index := 1, is_free := true, element := default }
  let l1 : linked_list E := { l0 with elements := setSlot l0.elements 1 slot1 }
  ((List.range' 2 capacity).reverse).foldl
    (fun acc i => __linked_list_insert_after_in_place acc default 1 (Int.ofNat i)) l1

/-- `check_index` (graph.h:276-288): `true` means the index check succeeds;
indices above `capacity+1` or below `0` are rejected.  Note that index `0`
(the sentinel) passes. -/
def check_index (l : linked_list E) (index : Int) : Bool :=
  if index > (l.capacity : Int) + 1 then false
  else if index < 0 then false
  else true

/-- `add_free_element` (graph.h:346-349): splice a slot into the free ring
right after `list->free`. -/
def add_free_element [Inhabited E] (l : linked_list E) (element_index : Int) :
    linked_list E :=
  __linked_list_insert_after_in_place l default l.free element_index

/-- `linked_list_resize` (graph.h:291-308): grow the backing array (realloc is
modeled as always succeeding; the fresh cells are fully overwritten by
`add_free_element` before any read) and append slots `capacity+2 ..
new_capacity+1` to the free ring. -/
def linked_list_resize [Inhabited E] (l : linked_list E) (new_capacity : Nat) :
    linked_list E :=
  let l' := (List.range' (l.capacity + 2) (new_capacity - l.capacity)).foldl
    (fun acc i => add_free_element acc (Int.ofNat i)) l
  { l' with capacity := new_capacity }

/-- `free_elements_left` (graph.h:311-314): more than one slot remains on the
free ring exactly when `list->free` is not self-looped. -/
def free_elements_left (l : linked_list E) : Bool :=
  l.free != (l.elements l.free).next_index

/-- `is_free_element` (graph.h:351-355). -/
def is_free_element (l : linked_list E) (element_index : Int) : Bool :=
  (l.elements element_index).is_free

/-- `linked_list_unlink` (graph.h:440-458): detach a slot from whichever ring
it is on by relinking its two neighbors. -/
def linked_list_unlink (l : linked_list E) (actual_index : Int) :
    Option (linked_list E) :=
  if check_index l actual_index = false then none
  else
    let cur := l.elements actual_index
    let e1 := upd l.elements cur.prev_index (fun e => { e with next_index := cur.next_index })
    let e2 := upd e1 cur.next_index (fun e => { e with prev_index := cur.prev_index })
    some { l with elements := e2 }

/-- `get_free_element_on_place` (graph.h:317-336): claim one specific free slot;
fails if the slot is not free or is the last slot of its free ring.  On success
`list->free` is redirected to the slot's former successor. -/
def get_free_element_on_place (l : linked_list E) (place_index : Int) :
    Option (linked_list E) :=
  if is_free_element l place_index = false then none
  else
    let next := (l.elements place_index).next_index
    if next = place_index then none
    else
      match linked_list_unlink l place_index with
      | none => none
      | some l' => some { l' with free := next }

/-- `get_free_element` (graph.h:338-344): claim the slot `list->free` itself,
returning its index. -/
def get_free_element (l : linked_list E) : Option (linked_list E × Int) :=
  match get_free_element_on_place l l.free with
  | none => none
  | some l' => some (l', l.free)

/-- `linked_list_insert_after` (graph.h:386-421).  After the index check the
list is doubled (`GROW = 2.0`; exact in double precision for every reachable
capacity) when the free ring is down to one slot — the C code ignores
`linked_list_resize`'s result, and in this model resizing always succeeds.
If the raw successor slot `prev_index+1` is free it is used (keeping the list
linearized); otherwise the head of the free ring is used and `is_linearized`
is cleared.  Returns the new slot's index (`*actual_index`). -/
def linked_list_insert_after [Inhabited E] (l : linked_list E) (value : E)
    (prev_index : Int) : Option (linked_list E × Int) :=
  if check_index l prev_index = false then none
  else
    let l1 := if free_elements_left l = false
      then linked_list_resize l (l.capacity * 2) else l
    if prev_index ≤ (l1.capacity : Int) ∧ is_free_element l1 (prev_index + 1) = true then
      match get_free_element_on_place l1 (prev_index + 1) with
      | none => none
      | some l2 =>
        let l3 := __linked_list_insert_after_in_place l2 value prev_index (prev_index + 1)
        some ({ l3 with used := l3.used + 1 }, prev_index + 1)
    else
      match get_free_element l1 with
      | none => none
      | some (l2, place) =>
        let l2' := { l2 with is_linearized := false }
        let l3 := __linked_list_insert_after_in_place l2' value prev_index place
        some ({ l3 with used := l3.used + 1 }, place)

/-- `linked_list_push_front` (graph.h:423-429): insert after the sentinel. -/
def linked_list_push_front [Inhabited E] (l : linked_list E) (e : E) :
    Option (linked_list E × Int) :=
  linked_list_insert_after l e linked_list_end_index

/-- `linked_list_push_back` (graph.h:431-437): insert after the tail. -/
def linked_list_push_back [Inhabited E] (l : linked_list E) (e : E) :
    Option (linked_list E × Int) :=
  linked_list_insert_after l e (linked_list_tail_index l)

/-- `linked_list_delete` (graph.h:460-477): maybe clear `is_linearized`, unlink
the slot, return it to the free ring, decrement `used`.  The flag is cleared
exactly when neither neighbor index equals the current head's index (the C code
compares against `linked_list_head_index`, not against the sentinel index).
Note the slot's own `is_free` flag is never consulted. -/
def linked_list_delete [Inhabited E] (l : linked_list E) (actual_index : Int) :
    Option (linked_list E) :=
  if check_index l actual_index = false then none
  else
    let cur := l.elements actual_index
    let head_ind := linked_list_head_index l
    let la := if cur.next_index ≠ head_ind ∧ cur.prev_index ≠ head_ind
      then { l with is_linearized := false } else l
    match linked_list_unlink la actual_index with
    | none => none
    | some lb =>
      let lc := add_free_element lb actual_index
      some { lc with used := lc.used - 1 }

/-- `linked_list_pop_back` (graph.h:479-482): deletes the slot at
`linked_list_head_index` — the logical head, not the tail. -/
def linked_list_pop_back [Inhabited E] (l : linked_list E) :
    Option (linked_list E) :=
  linked_list_delete l (linked_list_head_index l)

/-- `linked_list_pop_front` (graph.h:484-487): also deletes the slot at
`linked_list_head_index`. -/
def linked_list_pop_front [Inhabited E] (l : linked_list E) :
    Option (linked_list E) :=
  linked_list_delete l (linked_list_head_index l)

/-- `linked_list_swap` (graph.h:501-549): exchange the physical contents of two
slots while rerouting both slots' neighbors, preserving the logical sequence.
The neighbor pointers are computed before any write; the four link writes then
happen in program order (the two halves of each C assignment chain commute
because they target distinct fields, and the later `snd`-side writes win on the
aliased slots, which the nesting order of `upd` reproduces); finally `swap`
exchanges the two cells wholesale. -/
def linked_list_swap (l : linked_list E) (fst_index snd_index : Int) :
    Option (linked_list E) :=
  if fst_index = snd_index then some l
  else if check_index l fst_index = false then none
  else if check_index l snd_index = false then none
  else
    let fst_prev := (l.elements fst_index).prev_index
    let fst_next := (l.elements fst_index).next_index
    let snd_prev := (l.elements snd_index).prev_index
    let snd_next := (l.elements snd_index).next_index
    let e1 := upd l.elements fst_prev (fun e => { e with next_index := snd_index })
    let e2 := upd e1 fst_next (fun e => { e with prev_index := snd_index })
    let e3 := upd e2 snd_prev (fun e => { e with next_index := fst_index })
    let e4 := upd e3 snd_next (fun e => { e with prev_index := fst_index })
    let a := e4 fst_index
    let b := e4 snd_index
    let e5 := setSlot e4 fst_index b
    let e6 := setSlot e5 snd_index a
    some { l with elements := e6 }

/-- One step of the `LINKED_LIST_TRAVERSE` walk (graph.h:552-555): collect the
slot indices reached by following `next_index` from `i` until the sentinel.
Fuel bounds the walk; `none` models the non-terminating walk a corrupted ring
would produce in C. -/
def traverse_from (l : linked_list E) (i : Int) : Nat → Option (List Int)
  | 0 => none
  | fuel + 1 =>
    if i = linked_list_end_index then some []
    else
      match traverse_from l (l.elements i).next_index fuel with
      | none => none
      | some rest => some (i :: rest)

/-- Slot indices of one full forward traversal, head to sentinel.  The fuel
`capacity + 2` covers any simple (duplicate-free) chain of slots. -/
def linked_list_traverse_indices (l : linked_list E) : Option (List Int) :=
  traverse_from l (linked_list_head_index l) (l.capacity + 2)

/-- Values of one full forward traversal: the list's logical contents. -/
def linked_list_traverse (l : linked_list E) : Option (List E) :=
  (linked_list_traverse_indices l).map (List.map fun i => (l.elements i).element)

/-- `linked_list_linearize`'s loop (graph.h:558-574): walk the live ring; at
logical position `logical_index` swap the visited slot into slot
`logical_index`, then continue from that slot's new successor.  Fuel exhaustion
(`none`) models the infinite loop a corrupted ring would produce. -/
def linearize_loop (l : linked_list E) (current logical_index : Int) :
    Nat → Option (linked_list E)
  | 0 => none
  | fuel + 1 =>
    if current = linked_list_end_index then some l
    else
      match linked_list_swap l current logical_index with
      | none => none
      | some l' =>
        linearize_loop l' ((l'.elements logical_index).next_index)
          (logical_index + 1) fuel

/-- `linked_list_linearize` (graph.h:558-574).  Note the function never writes
`list->is_linearized`. -/
def linked_list_linearize (l : linked_list E) : Option (linked_list E) :=
  linearize_loop l (linked_list_head_index l) 1 (l.used + 1)

/-- `linked_list_get_logical_index` (graph.h:577-593).  On a linearized list the
slot is `head + logical_index` directly; otherwise the list is walked.  When the
walk runs out of elements the C function falls off its end without returning —
undefined behavior, modeled as `none`. -/
def linked_list_get_logical_index (l : linked_list E) (logical_index : Int) :
    Option Int :=
  if l.is_linearized then some (linked_list_head_index l + logical_index)
  else
    match linked_list_traverse_indices l with
    | none => none
    | some idxs =>
      if h : logical_index.toNat < idxs.length ∧ 0 ≤ logical_index
      then some (idxs.get ⟨logical_index.toNat, h.1⟩)
      else none

/-- `linked_list_get_logical` (graph.h:595-607). -/
def linked_list_get_logical (l : linked_list E) (logical_index : Int) :
    Option E :=
  match linked_list_get_logical_index l logical_index with
  | none => none
  | some actual_index => some (l.elements actual_index).element

/-- A key/value pair; mirrors `struct hash_table_pair` (graph.h:739-743). -/
structure hash_table_pair (K V : Type) where
  key : K
  value : V
deriving DecidableEq

instance hashTablePairInhabited {K V : Type} [Inhabited K] [Inhabited V] :
    Inhabited (hash_table_pair K V) :=
  ⟨{ key := default, value := default }⟩

/-- `hash_table_pair_create` (graph.h:745-748). -/
def hash_table_pair_create {K V : Type} (key : K) (value : V) :
    hash_table_pair K V :=
  { key := key, value := value }

/-- One bucket; mirrors `struct hash_table_bucket` (graph.h:750-753). -/
structure hash_table_bucket where
  value_index : Int
  size : Nat
deriving DecidableEq

/-- The table; mirrors `struct hash_table` (graph.h:755-764).  The hash callback
returns `uint32_t`, modeled as `Nat`; the bucket array (C field `hash_table`)
is modeled as a total function from bucket position to bucket. -/
structure hash_table (K V : Type) where
  key_hash_function : K → Nat
  key_equals_function : K → K → Bool
  hash_table : Nat → hash_table_bucket
  values : linked_list (hash_table_pair K V)
  buckets_used : Nat
  buckets_capacity : Nat

/-- `hash_table_simple_key_equality` (graph.h:766-769): raw `==` equality. -/
def hash_table_simple_key_equality {K : Type} [DecidableEq K]
    (key_first key_second : K) : Bool :=
  key_first = key_second

/-- Ceiling of `log2`, by repeated halving with a structural fuel (the fuel `n`
always suffices); `ceil_log2 n = k` is the least `k` with `n ≤ 2 ^ k` for
`n ≥ 1`. -/
def clog2_fuel : Nat → Nat → Nat
  | 0, _ => 0
  | fuel + 1, n => if n ≤ 1 then 0 else clog2_fuel fuel ((n + 1) / 2) + 1

/-- `pow(2, (int) ceil(log2 n))` of graph.h:780 for a positive integer `n`
(exact in double precision for every capacity in scope). -/
def ceil_log2 (n : Nat) : Nat := clog2_fuel n n

/-- `hash_table_create` (graph.h:771-815).  The bucket capacity is rounded up to
a power of two via `pow(2, ceil(log2(n)))`, modeled as `2 ^ ceil_log2 n`; the
bucket array is `calloc`-zeroed.  Allocation is modeled as always succeeding
(the C failure path tears the pair arena down and propagates). -/
def hash_table_create (K V : Type) [Inhabited K] [Inhabited V]
    (key_hash_function : K → Nat) (bucket_capacity : Nat := 32)
    (value_list_size : Nat := 10)
    (key_equals_function : K → K → Bool) : hash_table K V :=
  let rounded := 2 ^ ceil_log2 bucket_capacity
  { key_hash_function := key_hash_function
    key_equals_function := key_equals_function
    hash_table := fun _ => { value_index := 0, size := 0 }
    values := linked_list_create (hash_table_pair K V) value_list_size
    buckets_used := 0
    buckets_capacity := rounded }

/-- `__hash_table_get_position` (graph.h:817-823): fast modulo by bitwise AND
with `buckets_capacity - 1`. -/
def __hash_table_get_position {K V : Type} (t : hash_table K V) (key : K) :
    Nat :=
  Nat.land (t.key_hash_function key) (t.buckets_capacity - 1)

/-- The chain walk inside `__hash_table_lookup_index` (graph.h:843-853): step
through at most `size` chain links starting at `current`, returning the slot
index of the first key that `key_equals_function` accepts, else the sentinel
index `0`. -/
def __hash_table_lookup_walk {K V : Type} (t : hash_table K V) (key : K) :
    Int → Nat → Int
  | _, 0 => linked_list_end_index
  | current, n + 1 =>
    if t.key_equals_function (t.values.elements current).element.key key
    then current
    else __hash_table_lookup_walk t key (t.values.elements current).next_index n

/-- `__hash_table_lookup_index` (graph.h:832-856): returns the matching pair's
slot index (or `0`) together with the bucket position (the C code passes the
bucket back through `key_bucket`). -/
def __hash_table_lookup_index {K V : Type} (t : hash_table K V) (key : K) :
    Int × Nat :=
  let position := __hash_table_get_position t key
  let bucket := t.hash_table position
  if bucket.size ≠ 0
  then (__hash_table_lookup_walk t key bucket.value_index bucket.size, position)
  else (linked_list_end_index, position)

/-- `hash_table_lookup` (graph.h:858-865); the C function returns a pointer to
the stored value, modeled as the value itself. -/
def hash_table_lookup {K V : Type} (t : hash_table K V) (key : K) : Option V :=
  let index := (__hash_table_lookup_index t key).1
  if index = linked_list_end_index then none
  else some (t.values.elements index).element.value

/-- `hash_table_contains` (graph.h:917-920). -/
def hash_table_contains {K V : Type} (t : hash_table K V) (key : K) : Bool :=
  (__hash_table_lookup_index t key).1 ≠ linked_list_end_index

/-- `hash_table_delete` (graph.h:899-915): look the key up, delete its arena
slot, decrement the bucket's `size`.  `none` models the `THROW` abort on a
failed arena deletion.  Note the bucket's `chain_head` (`value_index`) is left
untouched even when the deleted slot was the chain head, and `buckets_used` is
not decremented when a bucket empties. -/
def hash_table_delete {K V : Type} [Inhabited K] [Inhabited V]
    (t : hash_table K V) (key : K) : Option (hash_table K V × Bool) :=
  let found := __hash_table_lookup_index t key
  if found.1 = linked_list_end_index then some (t, false)
  else
    match linked_list_delete t.values found.1 with
    | none => none
    | some values' =>
      let bucket := t.hash_table found.2
      some ({ t with
              values := values',
              hash_table := fun p => if p = found.2
                then { bucket with size := bucket.size - 1 }
                else t.hash_table p }, true)

/-- The pairs currently stored in the table's arena, in arena traversal order
(`HASH_TABLE_TRAVERSE`, graph.h:870-871). -/
def hash_table_pairs {K V : Type} (t : hash_table K V) :
    Option (List (hash_table_pair K V)) :=
  linked_list_traverse t.values

/-- The chain walk of `__hash_table_lookup_index`, collecting the pairs it
visits: `n` successive chain links starting at `current`. -/
def __hash_table_bucket_walk {K V : Type} (t : hash_table K V) :
    Int → Nat → List (hash_table_pair K V)
  | _, 0 => []
  | current, n + 1 =>
    (t.values.elements current).element ::
      __hash_table_bucket_walk t (t.values.elements current).next_index n

/-- The re-insertion loop inside `hash_table_rehash` (graph.h:887-888): insert
every traversed pair into the fresh table with the supplied insertion routine,
ignoring each insertion's boolean result as the C code does. -/
def hash_table_reinsert_go {K V : Type}
    (ins : hash_table K V → K → V → Option (hash_table K V × Bool))
    (t : hash_table K V) :
    List (hash_table_pair K V) → Option (hash_table K V)
  | [] => some t
  | p :: rest =>
    match ins t p.key p.value with
    | none => none
    | some (t', _) => hash_table_reinsert_go ins t' rest

/-- The body of `hash_table_rehash` (graph.h:876-892), parameterized by the
insertion routine used for the re-insertions: build a fresh table of the new
sizes, re-insert every pair obtained by a full traversal of the old pair arena,
and replace the old table wholesale. -/
def hash_table_rehash_go {K V : Type} [Inhabited K] [Inhabited V]
    (ins : hash_table K V → K → V → Option (hash_table K V × Bool))
    (t : hash_table K V)
    (new_bucket_capacity new_values_capacity : Nat) :
    Option (hash_table K V) :=
  let new_table := hash_table_create K V t.key_hash_function
    new_bucket_capacity new_values_capacity t.key_equals_function
  match hash_table_pairs t with
  | none => none
  | some pairs => hash_table_reinsert_go ins new_table pairs

/-- The body of `hash_table_insert` (graph.h:922-948), parameterized by the
rehash routine invoked at the load-factor threshold.  Rejects a present key
with `false`; otherwise splices the pair after the bucket's chain head
(non-empty bucket) or pushes it to the arena's back and records the new chain
head (empty bucket), bumps `size` (and `buckets_used` for a fresh bucket), then
rehashes at double capacity when `buckets_used / buckets_capacity >= 0.5` (an
exact floating comparison, since the capacity is a power of two; modeled as
`2 * used ≥ capacity`).  `none` models a `THROW` abort on a failed arena
insertion, or a failure of the supplied rehash. -/
def hash_table_insert_body {K V : Type} [Inhabited K] [Inhabited V]
    (reh : hash_table K V → Nat → Nat → Option (hash_table K V))
    (t : hash_table K V) (key : K) (value : V) :
    Option (hash_table K V × Bool) :=
  let found := __hash_table_lookup_index t key
  if found.1 ≠ linked_list_end_index then some (t, false)
  else
    let position := found.2
    let bucket := t.hash_table position
    let step :=
      if bucket.size > 0 then
        match linked_list_insert_after t.values
            (hash_table_pair_create key value) bucket.value_index with
        | none => none
        | some (values', _) =>
          some { t with
            values := values',
            hash_table := fun p => if p = position
              then { bucket with size := bucket.size + 1 }
              else t.hash_table p }
      else
        match linked_list_push_back t.values
            (hash_table_pair_create key value) with
        | none => none
        | some (values', new_index) =>
          some { t with
            values := values',
            buckets_used := t.buckets_used + 1,
            hash_table := fun p => if p = position
              then { value_index := new_index, size := bucket.size + 1 }
              else t.hash_table p }
    match step with
    | none => none
    | some t1 =>
      if 2 * t1.buckets_used ≥ t1.buckets_capacity then
        match reh t1 (t1.buckets_capacity * 2) (t1.values.capacity * 2) with
        | none => none
        | some t2 => some (t2, true)
      else some (t1, true)

/-- `hash_table_insert` (graph.h:922-948) with fuel bounding the depth of the
mutual insert/rehash recursion; `none` at fuel 0.  Any successful result is the
result of the (deterministic) C recursion. -/
def hash_table_insert_fuel {K V : Type} [Inhabited K] [Inhabited V] :
    Nat → hash_table K V → K → V → Option (hash_table K V × Bool)
  | 0 => fun _ _ _ => none
  | fuel + 1 =>
    hash_table_insert_body (hash_table_rehash_go (hash_table_insert_fuel fuel))

/-- `hash_table_rehash` (graph.h:876-892) with fuel bounding the depth of the
mutual insert/rehash recursion. -/
def hash_table_rehash_fuel {K V : Type} [Inhabited K] [Inhabited V] :
    Nat → hash_table K V → Nat → Nat → Option (hash_table K V)
  | 0 => fun _ _ _ => none
  | fuel + 1 => hash_table_rehash_go (hash_table_insert_fuel fuel)

/-- `int_hash` (graph.h:1633-1648): the avalanche mix on `uint32_t`, modeled on
`Nat` with explicit reduction mod `2^32` where the C arithmetic wraps. -/
def int_hash (number : Int) : Nat :=
  let magic_number : Nat := 0x45D9F3B
  let bits_in_int : Nat := 16
  let hash0 : Nat := (number % (2 : Int) ^ 32).toNat
  let hash1 : Nat := ((hash0 >>> bits_in_int) ^^^ hash0) * magic_number % 2 ^ 32
  let hash2 : Nat := ((hash1 >>> bits_in_int) ^^^ hash1) * magic_number % 2 ^ 32
  (hash2 >>> bits_in_int) ^^^ hash2

/-- Constant hash function used in the collision scenarios: a caller-supplied
hash that sends every key to bucket 0 (the table accepts any hash callback). -/
def const_zero_hash : Int → Nat := fun _ => 0

/-- Scenario table for the bucket-collision theorems: `hash_table_create` with
the constant hash, bucket capacity 8 and pair-arena capacity 4. -/
def collision_table : hash_table Int Int :=
  hash_table_create Int Int const_zero_hash 8 4 hash_table_simple_key_equality

/-- The user-addressable slot indices `1 .. c+1`, as a list (membership in it
is the decidable in-range predicate used throughout). -/
def slotRange (c : Nat) : List Int :=
  (List.range (c + 1)).map fun j : Nat => (j : Int) + 1

/-- `links f x ys z`: in the slot array `f`, starting at slot `x` and following
`next_index` passes through exactly the slots `ys` and then reaches `z`, with
the matching `prev_index` back-link at every step. -/
def links {E : Type} (f : Int → element E) : Int → List Int → Int → Prop
  | x, [], z => (f x).next_index = z ∧ (f z).prev_index = x
  | x, y :: ys, z =>
    (f x).next_index = y ∧ (f y).prev_index = x ∧ links f y ys z

instance links.decidable {E : Type} (f : Int → element E) :
    (x : Int) → (ys : List Int) → (z : Int) → Decidable (links f x ys z)
  | x, [], z => inferInstanceAs (Decidable (_ ∧ _))
  | x, y :: ys, z =>
    have : Decidable (links f y ys z) := links.decidable f y ys z
    inferInstanceAs (Decidable (_ ∧ _ ∧ _))

/-- Arena well-formedness with live ring order `L`, stated against an explicit
slot budget `c` (normally `l.capacity`; the resize proof grows the budget slot
by slot before the capacity field is updated).  The live slots form the single
sentinel-anchored doubly linked cycle `0, L, 0`; every other in-budget slot is
free, and on the free slots `next_index` and `prev_index` are mutually inverse
maps into the free slots (the free rings). -/
structure WFat {E : Type} (l : linked_list E) (c : Nat) (L : List Int) : Prop where
  chain : links l.elements 0 L 0
  nodup : (0 :: L).Nodup
  range : ∀ i ∈ L, i ∈ slotRange c
  live_busy : ∀ i ∈ L, (l.elements i).is_free = false
  sentinel_busy : (l.elements 0).is_free = false
  used_eq : l.used = L.length
  free_flag : ∀ i ∈ slotRange c, i ∉ L → (l.elements i).is_free = true
  free_next : ∀ i ∈ slotRange c, i ∉ L →
    (l.elements i).next_index ∈ slotRange c ∧ (l.elements i).next_index ∉ L
  free_prev : ∀ i ∈ slotRange c, i ∉ L →
    (l.elements i).prev_index ∈ slotRange c ∧ (l.elements i).prev_index ∉ L
  free_inv : ∀ i ∈ slotRange c, i ∉ L →
    (l.elements ((l.elements i).next_index)).prev_index = i ∧
    (l.elements ((l.elements i).prev_index)).next_index = i

/-- Full arena well-formedness: `WFat` at the arena's own capacity plus a valid
free-ring entry point `list->free`. -/
structure WF {E : Type} (l : linked_list E) (L : List Int) : Prop where
  core : WFat l l.capacity L
  free_mem : l.free ∈ slotRange l.capacity
  free_not_live : l.free ∉ L

/-- The live ring order after splicing `q` right after `p` (`p` a live slot or
the sentinel `0`, in which case `q` becomes the new head). -/
def spliceAfter : List Int → Int → Int → List Int
  | [], _, q => [q]
  | x :: xs, p, q => if x = p then x :: q :: xs else x :: spliceAfter xs p q

/-- `spliceAfter` for the whole cycle: splicing after the sentinel prepends. -/
def spliceAfterL (L : List Int) (p q : Int) : List Int :=
  if p = 0 then q :: L else spliceAfter L p q

/-- The arena states reached from `linked_list_create` by successful
`linked_list_insert_after` calls whose `prev_index` is a live slot or the
sentinel, and successful `linked_list_delete` calls on live non-sentinel slots
(an `is_free = false` slot other than 0 is exactly such a slot). -/
inductive ArenaReached : linked_list Int → Prop
  | created (capacity : Nat) : ArenaReached (linked_list_create Int capacity)
  | inserted (l l' : linked_list Int) (v : Int) (p idx : Int) :
      ArenaReached l → (l.elements p).is_free = false →
      linked_list_insert_after l v p = some (l', idx) → ArenaReached l'
  | deleted (l l' : linked_list Int) (i : Int) :
      ArenaReached l → (l.elements i).is_free = false → i ≠ 0 →
      linked_list_delete l i = some l' → ArenaReached l'

/-- Push a whole list of values with `linked_list_push_back`, threading
failure. -/
def linked_list_push_back_all (l : linked_list Int) :
    List Int → Option (linked_list Int)
  | [] => some l
  | v :: vs =>
    match linked_list_push_back l v with
    | none => none
    | some (l', _) => linked_list_push_back_all l' vs

/-- The free-ring closure property over a set of slots `F` (given as a list):
every slot of `F` is flagged free, its neighbors are in `F`, and
`next_index`/`prev_index` are mutually inverse on `F`. -/
def FreeRingOn {E : Type} (l : linked_list E) (F : List Int) : Prop :=
  ∀ j ∈ F, (l.elements j).is_free = true ∧
    (l.elements j).next_index ∈ F ∧ (l.elements j).prev_index ∈ F ∧
    (l.elements ((l.elements j).next_index)).prev_index = j ∧
    (l.elements ((l.elements j).prev_index)).next_index = j

/-- The transposition of the two slot indices `a` and `b`. -/
def swapFn (a b x : Int) : Int :=
  if x = a then b else if x = b then a else x

/-- Caller obligations on the supplied hash/equality function pair (spec section
6: both pure; equality must be symmetric and hash must agree on equal keys for
the table to behave as a map). -/
structure HashFnsOK {K V : Type} (t : hash_table K V) : Prop where
  equals_symm : ∀ a b, t.key_equals_function a b = t.key_equals_function b a
  hash_congr : ∀ a b, t.key_equals_function a b = true →
    t.key_hash_function a = t.key_hash_function b

/-- Hash-table well-formedness.  `L` is the live ring order of the pair arena;
`blocks` partitions it into per-bucket chain segments, in ring order: bucket
`pb.1` owns the consecutive slots `pb.2`, its `chain_head` is the segment's
first slot and its `size` the segment's length; every pair of a segment hashes
to that bucket, unlisted buckets have size 0, `buckets_used` counts the
segments, and all stored keys are pairwise unequal. -/
structure HTWF {K V : Type} (t : hash_table K V) (L : List Int)
    (blocks : List (Nat × List Int)) : Prop where
  values_wf : WF t.values L
  cover : L = (blocks.map Prod.snd).flatten
  pos_nodup : (blocks.map Prod.fst).Nodup
  blocks_ne : ∀ pb ∈ blocks, pb.2 ≠ []
  bucket_eq : ∀ pb ∈ blocks, t.hash_table pb.1 =
    { value_index := pb.2.headI, size := pb.2.length }
  seg_pos : ∀ pb ∈ blocks, ∀ i ∈ pb.2,
    __hash_table_get_position t (t.values.elements i).element.key = pb.1
  empty_size : ∀ p : Nat, p ∉ blocks.map Prod.fst → (t.hash_table p).size = 0
  used_blocks : t.buckets_used = blocks.length
  keys_ne : L.Pairwise fun i j =>
    t.key_equals_function (t.values.elements i).element.key
      (t.values.elements j).element.key = false

/-- The hash tables reached from `hash_table_create` (with a well-behaved
hash/equality pair) by successful `hash_table_insert` calls. -/
inductive HTReached {K V : Type} [Inhabited K] [Inhabited V] :
    hash_table K V → Prop
  | created (key_hash : K → Nat) (key_equals : K → K → Bool)
      (bucket_capacity value_list_size : Nat)
      (hsymm : ∀ a b, key_equals a b = key_equals b a)
      (hcongr : ∀ a b, key_equals a b = true → key_hash a = key_hash b) :
      HTReached (hash_table_create K V key_hash bucket_capacity
        value_list_size key_equals)
  | inserted (t t' : hash_table K V) (k : K) (v : V) (fuel : Nat) (b : Bool) :
      HTReached t → hash_table_insert_fuel fuel t k v = some (t', b) →
      HTReached t'

/-- Soundness of an insertion routine with respect to the table invariant: a
successful call either rejects because an equal key is already stored, or
produces a well-formed table holding exactly the old pairs plus the new one,
with the hash and equality callbacks untouched. -/
def InsOK {K V : Type} [Inhabited K] [Inhabited V]
    (ins : hash_table K V → K → V → Option (hash_table K V × Bool)) : Prop :=
  ∀ (t : hash_table K V) (L : List Int) (blocks : List (Nat × List Int))
    (k : K) (v : V) (r : hash_table K V × Bool),
    HTWF t L blocks → HashFnsOK t → ins t k v = some r →
    (r = (t, false) ∧ ∃ i ∈ L,
      t.key_equals_function (t.values.elements i).element.key k = true) ∨
    (r.2 = true ∧ ∃ (L1 : List Int) (blocks1 : List (Nat × List Int)),
      HTWF r.1 L1 blocks1 ∧
      r.1.key_hash_function = t.key_hash_function ∧
      r.1.key_equals_function = t.key_equals_function ∧
      List.Perm (L1.map fun i => (r.1.values.elements i).element)
        (hash_table_pair_create k v ::
          L.map fun i => (t.values.elements i).element))

/-- Soundness of a rehash routine: a successful call yields a well-formed
table with the same pair multiset and the same callbacks. -/
def RehOK {K V : Type} [Inhabited K] [Inhabited V]
    (reh : hash_table K V → Nat → Nat → Option (hash_table K V)) : Prop :=
  ∀ (t : hash_table K V) (L : List Int) (blocks : List (Nat × List Int))
    (nb nv : Nat) (t2 : hash_table K V),
    HTWF t L blocks → HashFnsOK t → reh t nb nv = some t2 →
    ∃ (L2 : List Int) (blocks2 : List (Nat × List Int)),
      HTWF t2 L2 blocks2 ∧
      t2.key_hash_function = t.key_hash_function ∧
      t2.key_equals_function = t.key_equals_function ∧
      List.Perm (L2.map fun i => (t2.values.elements i).element)
        (L.map fun i => (t.values.elements i).element)

/-- Claim C1 (code bug witnessed at its failing input).  Insert keys 1 and 2
into the same bucket, then delete key 1 — the bucket's chain head.
`hash_table_delete` decrements the bucket's `size` but leaves `value_index`
pointing at the now-freed, zeroed arena slot, so the subsequent lookup of key 2
walks the freed slot and reports the key absent even though the pair (2, 20)
still sits live in the pair arena, contradicting the claim that deleting a
different key of the same bucket does not affect lookup of a surviving key. -/
theorem c1_delete_chain_head_breaks_lookup :
    (do
      let (t1, b1) ← hash_table_insert_fuel 5 collision_table 1 10
      let (t2, b2) ← hash_table_insert_fuel 5 t1 2 20
      let (t3, b3) ← hash_table_delete t2 1
      pure (b1, b2, hash_table_lookup t2 2, b3,
            hash_table_lookup t3 2, hash_table_contains t3 2, hash_table_pairs t3))
    = some (true, true, some 20, true, none, false, some [⟨2, 20⟩]) := by
  decide

/-- Claim C2 (code bug witnessed at its failing input).  The scenario runs as
claimed up to the last step: capacity 2 grows to 4 at the third `push_back`,
traversal yields 10, 20, 30, and deleting the middle slot leaves 10, 30.  But
`linked_list_delete` compares the deleted slot's neighbors against the head
slot's index instead of the sentinel index, and the middle slot's predecessor
is the head, so `is_linearized` stays `true` — the claim (and spec) say it
must be `false`.  The stale flag makes the linearized fast path of
`linked_list_get_logical` read freed slot 2, returning its zeroed value 0
instead of the logical element 30. -/
theorem c2_growth_and_middle_delete_scenario :
    (do
      let (l1, _) ← linked_list_push_back (linked_list_create Int 2) 10
      let (l2, _) ← linked_list_push_back l1 20
      let (l3, _) ← linked_list_push_back l2 30
      let t1 ← linked_list_traverse l3
      let l4 ← linked_list_delete l3 2
      let t2 ← linked_list_traverse l4
      pure (l2.capacity, l3.capacity, t1, t2, l4.is_linearized,
            linked_list_get_logical l4 1))
    = some (2, 4, [10, 20, 30], [10, 30], true, some 0) := by
  decide

/-- Claim C3, counterexample.  Three keys of one bucket are inserted in the
order 1, 2, 3, but walking `size` chain links from the bucket's chain head
visits their pairs in the order 1, 3, 2: `hash_table_insert` splices every
later pair immediately after the chain head, so within-bucket order is not
insertion order. -/
theorem c3_bucket_order_counterexample :
    ((do
      let (t1, _) ← hash_table_insert_fuel 5 collision_table 1 10
      let (t2, _) ← hash_table_insert_fuel 5 t1 2 20
      let (t3, _) ← hash_table_insert_fuel 5 t2 3 30
      pure (__hash_table_bucket_walk t3 (t3.hash_table 0).value_index
              (t3.hash_table 0).size))
    = some [⟨1, 10⟩, ⟨3, 30⟩, ⟨2, 20⟩])
    ∧ ([⟨1, 10⟩, ⟨3, 30⟩, ⟨2, 20⟩] : List (hash_table_pair Int Int))
      ≠ [⟨1, 10⟩, ⟨2, 20⟩, ⟨3, 30⟩] := by
  constructor
  · decide
  · decide

/-- Claim C4, counterexample.  Passing the sentinel index 0 to
`linked_list_delete` is not rejected: on a freshly created arena the call
returns success, and it does manipulate the sentinel — slot 0 ends up spliced
into the free ring with its `is_free` flag raised. -/
theorem c4_sentinel_index_accepted_counterexample :
    (linked_list_delete (linked_list_create Int 2) 0).isSome = true ∧
    ((linked_list_delete (linked_list_create Int 2) 0).map
      (fun l' => (l'.elements 0).is_free)) = some true := by
  constructor
  · decide
  · decide

/-- Claim C5, counterexample.  Build an arena whose `is_linearized` flag is
`false` (push 10 and 20, then delete the head slot), then run
`linked_list_linearize` to completion: the call succeeds and physically
linearizes the list, yet `is_linearized` is still `false`, because the function
never writes the flag. -/
theorem c5_linearize_flag_counterexample :
    (do
      let (l1, _) ← linked_list_push_back (linked_list_create Int 2) 10
      let (l2, _) ← linked_list_push_back l1 20
      let l3 ← linked_list_delete l2 1
      let l4 ← linked_list_linearize l3
      pure (l3.is_linearized, linked_list_traverse_indices l4, l4.is_linearized))
    = some (false, some [1], false) := by
  decide

/-- Claim C8, counterexample.  `linked_list_delete` never checks that the
doomed slot is live: after one `push_back` on a fresh arena, deleting the free
slot 2 succeeds, decrements `used` to 0, and leaves the single live element
still on the ring — one full forward traversal visits 1 element while `used`
is 0. -/
theorem c8_free_slot_delete_counterexample :
    (do
      let (l1, _) ← linked_list_push_back (linked_list_create Int 2) 10
      let l2 ← linked_list_delete l1 2
      let vs ← linked_list_traverse l2
      pure (l2.used, vs.length))
    = some (0, 1) := by
  decide

/-- `check_index` accepts the sentinel index 0 on every arena. -/
theorem check_index_zero {E : Type} (l : linked_list E) : check_index l 0 = true := by
  unfold check_index
  split_ifs with h1 h2
  · omega
  · omega
  · rfl

/-- Claim C4 (amended): mutation operations reject an index exactly when it is
negative or exceeds `capacity + 1`.  The sentinel index 0 is not rejected: it
passes `check_index`, `linked_list_insert_after` at `prev_index` 0 is exactly
`linked_list_push_front`, and `linked_list_delete` at index 0 returns success
on every arena (manipulating the sentinel instead of failing). -/
theorem c4_check_index_bounds_only (l : linked_list Int) (i : Int) :
    (check_index l i = false ↔ ((l.capacity : Int) + 1 < i ∨ i < 0)) ∧
    check_index l 0 = true ∧
    (∀ v : Int, linked_list_push_front l v = linked_list_insert_after l v 0) ∧
    (linked_list_delete l 0).isSome = true := by
  have h0 : ∀ m : linked_list Int, check_index m 0 = true := fun m => check_index_zero m
  refine ⟨?_, h0 l, fun v => rfl, ?_⟩
  · unfold check_index
    split_ifs with h1 h2
    · simp only [true_iff]
      omega
    · simp only [true_iff]
      omega
    · constructor
      · intro h
        exact absurd h (by simp)
      · intro h
        omega
  · simp only [linked_list_delete, linked_list_unlink, h0, Bool.true_eq_false,
      if_false]
    exact rfl

/-- `linked_list_swap` never changes the arena's administrative fields: on
success the flag, `used`, `capacity` and `free` are those of the input. -/
theorem linked_list_swap_admin {E : Type} (l l' : linked_list E) (a b : Int)
    (h : linked_list_swap l a b = some l') :
    l'.is_linearized = l.is_linearized ∧ l'.used = l.used ∧
    l'.capacity = l.capacity ∧ l'.free = l.free := by
  unfold linked_list_swap at h
  split_ifs at h with h1 h2 h3
  · cases h
    exact ⟨rfl, rfl, rfl, rfl⟩
  · cases h
    exact ⟨rfl, rfl, rfl, rfl⟩

/-- The linearize loop never changes `is_linearized`. -/
theorem linearize_loop_flag {E : Type} (fuel : Nat) :
    ∀ (l l' : linked_list E) (cur logi : Int),
    linearize_loop l cur logi fuel = some l' →
    l'.is_linearized = l.is_linearized := by
  induction fuel with
  | zero =>
    intro l l' cur logi h
    simp [linearize_loop] at h
  | succ n ih =>
    intro l l' cur logi h
    simp only [linearize_loop] at h
    split_ifs at h with hc
    · cases h
      rfl
    · cases hsw : linked_list_swap l cur logi with
      | none =>
        rw [hsw] at h
        simp at h
      | some lm =>
        rw [hsw] at h
        rw [ih lm l' _ _ h, (linked_list_swap_admin l lm cur logi hsw).1]

/-- Claim C5 (amended): a successful `linked_list_linearize` leaves
`is_linearized` exactly as it found it — the function never writes the flag,
so the flag is `true` after the call only if it already was before. -/
theorem c5_linearize_preserves_flag {E : Type} (l l' : linked_list E)
    (h : linked_list_linearize l = some l') :
    l'.is_linearized = l.is_linearized :=
  linearize_loop_flag _ _ _ _ _ h

/-- Witness for `c5_linearize_preserves_flag` at a concrete successful run. -/
theorem c5_linearize_preserves_flag_witness :
    ∃ l', linked_list_linearize (linked_list_create Int 2) = some l' ∧
      l'.is_linearized = (linked_list_create Int 2).is_linearized := by
  obtain ⟨l', hl'⟩ := Option.isSome_iff_exists.mp
    (show (linked_list_linearize (linked_list_create Int 2)).isSome = true by decide)
  exact ⟨l', hl', c5_linearize_preserves_flag _ _ hl'⟩

theorem mem_slotRange {c : Nat} {i : Int} :
    i ∈ slotRange c ↔ 1 ≤ i ∧ i ≤ (c : Int) + 1 := by
  constructor
  · intro h
    rw [slotRange] at h
    obtain ⟨j, hj, hji⟩ := List.mem_map.mp h
    rw [List.mem_range] at hj
    omega
  · intro h
    rw [slotRange]
    refine List.mem_map.mpr ⟨(i - 1).toNat, List.mem_range.mpr ?_, ?_⟩
    · omega
    · omega

theorem zero_not_mem_slotRange {c : Nat} : (0 : Int) ∉ slotRange c := by
  rw [mem_slotRange]
  omega

theorem slotRange_mono {c c' : Nat} (h : c ≤ c') {i : Int} :
    i ∈ slotRange c → i ∈ slotRange c' := by
  rw [mem_slotRange, mem_slotRange]
  omega

theorem upd_apply {E : Type} (f : Int → element E) (i : Int)
    (g : element E → element E) (j : Int) :
    upd f i g j = if j = i then g (f i) else f j := rfl

theorem setSlot_apply {E : Type} (f : Int → element E) (i : Int) (e : element E)
    (j : Int) :
    setSlot f i e j = if j = i then e else f j := rfl

theorem links_congr {E : Type} {f g : Int → element E} :
    ∀ (ys : List Int) (x z : Int),
    (∀ a ∈ x :: ys, (g a).next_index = (f a).next_index) →
    (∀ a ∈ ys ++ [z], (g a).prev_index = (f a).prev_index) →
    links f x ys z → links g x ys z := by
  intro ys
  induction ys with
  | nil =>
    intro x z hn hp h
    obtain ⟨h1, h2⟩ := h
    constructor
    · rw [hn x (List.mem_cons_self _ _)]
      exact h1
    · rw [hp z (List.mem_singleton_self _)]
      exact h2
  | cons y ys ih =>
    intro x z hn hp h
    obtain ⟨h1, h2, h3⟩ := h
    refine ⟨?_, ?_, ?_⟩
    · rw [hn x (List.mem_cons_self _ _)]
      exact h1
    · rw [hp y (by simp)]
      exact h2
    · refine ih y z (fun a ha => hn a ?_) (fun a ha => hp a ?_) h3
      · exact List.mem_cons_of_mem _ ha
      · rcases List.mem_append.mp ha with h | h
        · exact List.mem_append.mpr (Or.inl (List.mem_cons_of_mem _ h))
        · exact List.mem_append.mpr (Or.inr h)

theorem links_append {E : Type} (f : Int → element E) :
    ∀ (A : List Int) (x y z : Int) (B : List Int),
    links f x (A ++ y :: B) z ↔ links f x A y ∧ links f y B z := by
  intro A
  induction A with
  | nil =>
    intro x y z B
    constructor
    · rintro ⟨h1, h2, h3⟩
      exact ⟨⟨h1, h2⟩, h3⟩
    · rintro ⟨⟨h1, h2⟩, h3⟩
      exact ⟨h1, h2, h3⟩
  | cons a A ih =>
    intro x y z B
    constructor
    · rintro ⟨h1, h2, h3⟩
      have h4 := (ih a y z B).mp h3
      exact ⟨⟨h1, h2, h4.1⟩, h4.2⟩
    · rintro ⟨⟨h1, h2, h3⟩, h4⟩
      exact ⟨h1, h2, (ih a y z B).mpr ⟨h3, h4⟩⟩

theorem links_next_facts {E : Type} (f : Int → element E) :
    ∀ (ys : List Int) (x z : Int), links f x ys z →
    ∀ a ∈ x :: ys,
      (f ((f a).next_index)).prev_index = a ∧
      ((f a).next_index ∈ ys ∨ (f a).next_index = z) := by
  intro ys
  induction ys with
  | nil =>
    intro x z h a ha
    obtain ⟨h1, h2⟩ := h
    rcases List.mem_cons.mp ha with rfl | ha
    · rw [h1]
      exact ⟨h2, Or.inr rfl⟩
    · cases ha
  | cons y ys ih =>
    intro x z h a ha
    obtain ⟨h1, h2, h3⟩ := h
    rcases List.mem_cons.mp ha with rfl | ha
    · rw [h1]
      exact ⟨h2, Or.inl (List.mem_cons_self _ _)⟩
    · have h4 := ih y z h3 a ha
      refine ⟨h4.1, ?_⟩
      rcases h4.2 with h5 | h5
      · exact Or.inl (List.mem_cons_of_mem _ h5)
      · exact Or.inr h5

theorem links_prev_facts {E : Type} (f : Int → element E) :
    ∀ (ys : List Int) (x z : Int), links f x ys z →
    ∀ a ∈ ys ++ [z],
      (f ((f a).prev_index)).next_index = a ∧
      ((f a).prev_index ∈ ys ∨ (f a).prev_index = x) := by
  intro ys
  induction ys with
  | nil =>
    intro x z h a ha
    obtain ⟨h1, h2⟩ := h
    rcases List.mem_singleton.mp ha with rfl
    rw [h2]
    exact ⟨h1, Or.inr rfl⟩
  | cons y ys ih =>
    intro x z h a ha
    obtain ⟨h1, h2, h3⟩ := h
    rcases List.mem_cons.mp ha with rfl | ha'
    · rw [h2]
      exact ⟨h1, Or.inr rfl⟩
    · have h4 := ih y z h3 a ha'
      refine ⟨h4.1, ?_⟩
      rcases h4.2 with h5 | h5
      · exact Or.inl (List.mem_cons_of_mem _ h5)
      · exact Or.inl (h5 ▸ List.mem_cons_self _ _)

theorem traverse_from_of_links {E : Type} (l : linked_list E) :
    ∀ (B : List Int) (y : Int) (fuel : Nat), links l.elements y B 0 →
    0 ∉ B → B.length < fuel →
    traverse_from l (l.elements y).next_index fuel = some B := by
  intro B
  induction B with
  | nil =>
    intro y fuel h h0 hlen
    obtain ⟨h1, -⟩ := h
    match fuel, hlen with
    | fuel + 1, _ =>
      rw [h1]
      rfl
  | cons c B ih =>
    intro y fuel h h0 hlen
    obtain ⟨h1, h2, h3⟩ := h
    match fuel, hlen with
    | fuel + 1, hlen =>
      rw [h1]
      have hc : c ≠ linked_list_end_index := fun hc =>
        h0 (hc ▸ List.mem_cons_self _ _)
      have hrec := ih c fuel h3 (fun hm => h0 (List.mem_cons_of_mem _ hm))
        (by simpa using Nat.lt_of_succ_lt_succ hlen)
      simp only [traverse_from, if_neg hc, hrec]

theorem nodup_range_length {c : Nat} {L : List Int} (hn : L.Nodup)
    (hr : ∀ i ∈ L, i ∈ slotRange c) : L.length ≤ c + 1 := by
  have hnr : (slotRange c).Nodup := by
    rw [slotRange]
    refine List.Nodup.map ?_ (List.nodup_range _)
    intro a b hab
    have h : (a : Int) + 1 = (b : Int) + 1 := hab
    omega
  have h1 : L.toFinset.card = L.length := List.toFinset_card_of_nodup hn
  have h2 : (slotRange c).toFinset.card = (slotRange c).length :=
    List.toFinset_card_of_nodup hnr
  have h3 : L.toFinset ⊆ (slotRange c).toFinset := by
    intro a ha
    rw [List.mem_toFinset] at *
    exact hr a ha
  have h4 := Finset.card_le_card h3
  have h5 : (slotRange c).length = c + 1 := by
    rw [slotRange, List.length_map, List.length_range]
  omega

theorem WFat_nodup_L {E : Type} {l : linked_list E} {c : Nat} {L : List Int}
    (h : WFat l c L) : L.Nodup ∧ 0 ∉ L := by
  have := h.nodup
  rw [List.nodup_cons] at this
  exact ⟨this.2, this.1⟩

theorem WFat_traverse_indices {E : Type} {l : linked_list E} {L : List Int}
    (h : WFat l l.capacity L) :
    linked_list_traverse_indices l = some L := by
  obtain ⟨hnd, h0L⟩ := WFat_nodup_L h
  have hlen : L.length < l.capacity + 2 :=
    Nat.lt_succ_of_le (nodup_range_length hnd h.range)
  exact traverse_from_of_links l L 0 _ h.chain h0L hlen

theorem WFat_traverse {E : Type} {l : linked_list E} {L : List Int}
    (h : WFat l l.capacity L) :
    linked_list_traverse l = some (L.map fun i => (l.elements i).element) := by
  simp [linked_list_traverse, WFat_traverse_indices h]

theorem in_place_apply {E : Type} (l : linked_list E) (v : E) (p q j : Int) :
    (__linked_list_insert_after_in_place l v p q).elements j =
    if j = q then
      { next_index := (l.elements p).next_index, prev_index := p,
        is_free := (l.elements p).is_free, element := v }
    else if j = (l.elements p).next_index then
      { (if (l.elements p).next_index = p
          then { l.elements p with next_index := q }
          else l.elements ((l.elements p).next_index)) with prev_index := q }
    else if j = p then { l.elements p with next_index := q }
    else l.elements j := rfl

theorem in_place_admin {E : Type} (l : linked_list E) (v : E) (p q : Int) :
    (__linked_list_insert_after_in_place l v p q).capacity = l.capacity ∧
    (__linked_list_insert_after_in_place l v p q).used = l.used ∧
    (__linked_list_insert_after_in_place l v p q).free = l.free ∧
    (__linked_list_insert_after_in_place l v p q).is_linearized =
      l.is_linearized :=
  ⟨rfl, rfl, rfl, rfl⟩

theorem free_ring_splice {E : Type} (l : linked_list E) (F : List Int)
    (a i : Int) (v : E)
    (haF : a ∈ F) (hiF : i ∉ F)
    (hflag : ∀ j ∈ F, (l.elements j).is_free = true)
    (hnext : ∀ j ∈ F, (l.elements j).next_index ∈ F)
    (hprev : ∀ j ∈ F, (l.elements j).prev_index ∈ F)
    (hinv : ∀ j ∈ F,
      (l.elements ((l.elements j).next_index)).prev_index = j ∧
      (l.elements ((l.elements j).prev_index)).next_index = j) :
    (∀ j ∈ i :: F,
      (((__linked_list_insert_after_in_place l v a i).elements j).is_free = true) ∧
      ((__linked_list_insert_after_in_place l v a i).elements j).next_index ∈ i :: F ∧
      ((__linked_list_insert_after_in_place l v a i).elements j).prev_index ∈ i :: F ∧
      ((__linked_list_insert_after_in_place l v a i).elements
        (((__linked_list_insert_after_in_place l v a i).elements j).next_index)).prev_index = j ∧
      ((__linked_list_insert_after_in_place l v a i).elements
        (((__linked_list_insert_after_in_place l v a i).elements j).prev_index)).next_index = j) ∧
    (∀ j, j ∉ F → j ≠ i →
      (__linked_list_insert_after_in_place l v a i).elements j = l.elements j) := by
  have hai : a ≠ i := fun h => hiF (h ▸ haF)
  have hnaF : (l.elements a).next_index ∈ F := hnext a haF
  have hnai : (l.elements a).next_index ≠ i := fun h => hiF (h ▸ hnaF)
  have hprev_na : (l.elements ((l.elements a).next_index)).prev_index = a :=
    (hinv a haF).1
  have huniq_next : ∀ j ∈ F,
      (l.elements j).next_index = (l.elements a).next_index → j = a := by
    intro j hj h
    have h1 := (hinv j hj).1
    rw [h, hprev_na] at h1
    exact h1.symm
  have huniq_prev : ∀ j ∈ F,
      (l.elements j).prev_index = a → j = (l.elements a).next_index := by
    intro j hj h
    have h1 := (hinv j hj).2
    rw [h] at h1
    exact h1.symm
  have read_i : (__linked_list_insert_after_in_place l v a i).elements i =
      { next_index := (l.elements a).next_index, prev_index := a,
        is_free := (l.elements a).is_free, element := v } := by
    rw [in_place_apply, if_pos rfl]
  have read_other : ∀ j, j ≠ i → j ≠ (l.elements a).next_index → j ≠ a →
      (__linked_list_insert_after_in_place l v a i).elements j = l.elements j := by
    intro j h1 h2 h3
    rw [in_place_apply, if_neg h1, if_neg h2, if_neg h3]
  have read_a_self : (l.elements a).next_index = a →
      (__linked_list_insert_after_in_place l v a i).elements a =
      { l.elements a with next_index := i, prev_index := i } := by
    intro hself
    rw [in_place_apply, if_neg hai, if_pos hself.symm, if_pos hself]
  have read_a_nself : (l.elements a).next_index ≠ a →
      (__linked_list_insert_after_in_place l v a i).elements a =
      { l.elements a with next_index := i } := by
    intro hns
    rw [in_place_apply, if_neg hai, if_neg (fun h => hns h.symm), if_pos rfl]
  have read_na_nself : (l.elements a).next_index ≠ a →
      (__linked_list_insert_after_in_place l v a i).elements
        ((l.elements a).next_index) =
      { l.elements ((l.elements a).next_index) with prev_index := i } := by
    intro hns
    rw [in_place_apply, if_neg hnai, if_pos rfl, if_neg hns]
  refine ⟨?_, ?_⟩
  · intro j hj
    rcases List.mem_cons.mp hj with hji | hjF
    · -- the freshly spliced slot
      rw [hji, read_i]
      refine ⟨hflag a haF, List.mem_cons_of_mem _ hnaF,
        List.mem_cons_of_mem _ haF, ?_, ?_⟩
      · show ((__linked_list_insert_after_in_place l v a i).elements
          ((l.elements a).next_index)).prev_index = i
        by_cases hself : (l.elements a).next_index = a
        · rw [hself, read_a_self hself]
        · rw [read_na_nself hself]
      · show ((__linked_list_insert_after_in_place l v a i).elements a).next_index = i
        by_cases hself : (l.elements a).next_index = a
        · rw [read_a_self hself]
        · rw [read_a_nself hself]
    · by_cases hja : j = a
      · rw [hja]
        by_cases hself : (l.elements a).next_index = a
        · rw [read_a_self hself]
          refine ⟨hflag a haF, List.mem_cons_self _ _, List.mem_cons_self _ _, ?_, ?_⟩
          · show ((__linked_list_insert_after_in_place l v a i).elements i).prev_index = a
            rw [read_i]
          · show ((__linked_list_insert_after_in_place l v a i).elements i).next_index = a
            rw [read_i]
            exact hself
        · rw [read_a_nself hself]
          refine ⟨hflag a haF, List.mem_cons_self _ _,
            List.mem_cons_of_mem _ (hprev a haF), ?_, ?_⟩
          · show ((__linked_list_insert_after_in_place l v a i).elements i).prev_index = a
            rw [read_i]
          · show ((__linked_list_insert_after_in_place l v a i).elements
              ((l.elements a).prev_index)).next_index = a
            have hpF := hprev a haF
            have hpi : (l.elements a).prev_index ≠ i := fun h => hiF (h ▸ hpF)
            have hpa : (l.elements a).prev_index ≠ a := by
              intro h
              have h1 := (hinv a haF).2
              rw [h] at h1
              exact hself h1
            by_cases hpna : (l.elements a).prev_index = (l.elements a).next_index
            · rw [hpna, read_na_nself hself]
              show (l.elements ((l.elements a).next_index)).next_index = a
              have h1 := (hinv a haF).2
              rw [hpna] at h1
              exact h1
            · rw [read_other _ hpi hpna hpa]
              exact (hinv a haF).2
      · by_cases hjna : j = (l.elements a).next_index
        · have hns : (l.elements a).next_index ≠ a := fun h => hja (by rw [hjna, h])
          rw [hjna, read_na_nself hns]
          refine ⟨hflag _ hnaF, List.mem_cons_of_mem _ (hnext _ hnaF),
            List.mem_cons_self _ _, ?_, ?_⟩
          · show ((__linked_list_insert_after_in_place l v a i).elements
              ((l.elements ((l.elements a).next_index)).next_index)).prev_index =
              (l.elements a).next_index
            have hnn := hnext _ hnaF
            have hni : (l.elements ((l.elements a).next_index)).next_index ≠ i :=
              fun h => hiF (h ▸ hnn)
            have hnna : (l.elements ((l.elements a).next_index)).next_index ≠
                (l.elements a).next_index := by
              intro h
              have h1 := (hinv _ hnaF).1
              rw [h, hprev_na] at h1
              exact hns h1.symm
            by_cases hna' : (l.elements ((l.elements a).next_index)).next_index = a
            · rw [hna', read_a_nself hns]
              show (l.elements a).prev_index = (l.elements a).next_index
              have h1 := (hinv _ hnaF).1
              rw [hna'] at h1
              exact h1
            · rw [read_other _ hni hnna hna']
              exact (hinv _ hnaF).1
          · show ((__linked_list_insert_after_in_place l v a i).elements i).next_index =
              (l.elements a).next_index
            rw [read_i]
        · -- generic untouched free slot
          have hji : j ≠ i := fun h => hiF (h ▸ hjF)
          rw [read_other j hji hjna hja]
          refine ⟨hflag j hjF, List.mem_cons_of_mem _ (hnext j hjF),
            List.mem_cons_of_mem _ (hprev j hjF), ?_, ?_⟩
          · have hnn := hnext j hjF
            have h1 : (l.elements j).next_index ≠ i := fun h => hiF (h ▸ hnn)
            have h2 : (l.elements j).next_index ≠ (l.elements a).next_index :=
              fun h => hja (huniq_next j hjF h)
            by_cases h3 : (l.elements j).next_index = a
            · have h4 := (hinv j hjF).1
              rw [h3] at h4
              by_cases hself : (l.elements a).next_index = a
              · exact absurd (huniq_next j hjF (by rw [h3, hself])) hja
              · rw [h3, read_a_nself hself]
                exact h4
            · rw [read_other _ h1 h2 h3]
              exact (hinv j hjF).1
          · have hpp := hprev j hjF
            have h1 : (l.elements j).prev_index ≠ i := fun h => hiF (h ▸ hpp)
            have h2 : (l.elements j).prev_index ≠ a :=
              fun h => hjna (huniq_prev j hjF h)
            
            by_cases h3 : (l.elements j).prev_index = (l.elements a).next_index
            · by_cases hself : (l.elements a).next_index = a
              · exact absurd (h3.trans hself) h2
              · rw [h3, read_na_nself hself]
                show (l.elements ((l.elements a).next_index)).next_index = j
                have h4 := (hinv j hjF).2
                rw [h3] at h4
                exact h4
            · rw [read_other _ h1 h3 h2]
              exact (hinv j hjF).2
  · intro j hjF hji
    have hja : j ≠ a := fun h => hjF (h ▸ haF)
    have hjna : j ≠ (l.elements a).next_index := fun h => hjF (h ▸ hnaF)
    exact read_other j hji hjna hja

theorem FreeRingOn_congr {E : Type} {l : linked_list E} {F F' : List Int}
    (h : ∀ x, x ∈ F ↔ x ∈ F') (hw : FreeRingOn l F) : FreeRingOn l F' := by
  intro j hj
  obtain ⟨h1, h2, h3, h4, h5⟩ := hw j ((h j).mpr hj)
  exact ⟨h1, (h _).mp h2, (h _).mp h3, h4, h5⟩

theorem FreeRingOn_splice {E : Type} {l : linked_list E} {F : List Int}
    {a i : Int} (v : E)
    (hw : FreeRingOn l F) (haF : a ∈ F) (hiF : i ∉ F) :
    FreeRingOn (__linked_list_insert_after_in_place l v a i) (i :: F) ∧
    (∀ j, j ∉ F → j ≠ i →
      (__linked_list_insert_after_in_place l v a i).elements j = l.elements j) := by
  have h := free_ring_splice l F a i v haF hiF
    (fun j hj => (hw j hj).1) (fun j hj => (hw j hj).2.1)
    (fun j hj => (hw j hj).2.2.1) (fun j hj => (hw j hj).2.2.2)
  exact ⟨fun j hj => h.1 j hj, h.2⟩

theorem free_fold_splice {E : Type} (v : E) (a : Int) :
    ∀ (js : List Int) (l : linked_list E) (F : List Int),
    FreeRingOn l F → a ∈ F → (∀ j ∈ js, j ∉ F) → js.Nodup →
    FreeRingOn
      (js.foldl (fun acc j => __linked_list_insert_after_in_place acc v a j) l)
      (js ++ F) ∧
    (∀ x, x ∉ F → x ∉ js →
      (js.foldl (fun acc j => __linked_list_insert_after_in_place acc v a j)
        l).elements x = l.elements x) ∧
    (js.foldl (fun acc j => __linked_list_insert_after_in_place acc v a j)
      l).capacity = l.capacity ∧
    (js.foldl (fun acc j => __linked_list_insert_after_in_place acc v a j)
      l).used = l.used ∧
    (js.foldl (fun acc j => __linked_list_insert_after_in_place acc v a j)
      l).free = l.free ∧
    (js.foldl (fun acc j => __linked_list_insert_after_in_place acc v a j)
      l).is_linearized = l.is_linearized := by
  intro js
  induction js with
  | nil =>
    intro l F hw haF hdisj hnd
    exact ⟨hw, fun x _ _ => rfl, rfl, rfl, rfl, rfl⟩
  | cons j js ih =>
    intro l F hw haF hdisj hnd
    simp only [List.foldl_cons]
    have hjF : j ∉ F := hdisj j (List.mem_cons_self _ _)
    obtain ⟨hw1, huntouched⟩ := FreeRingOn_splice v hw haF hjF
    have hdisj1 : ∀ r ∈ js, r ∉ j :: F := by
      intro r hr hmem
      rcases List.mem_cons.mp hmem with rfl | hmem
      · exact (List.nodup_cons.mp hnd).1 hr
      · exact hdisj r (List.mem_cons_of_mem _ hr) hmem
    have hnd1 : js.Nodup := (List.nodup_cons.mp hnd).2
    have ha1 : a ∈ j :: F := List.mem_cons_of_mem _ haF
    obtain ⟨hw2, hu2, hc2, hus2, hf2, hl2⟩ :=
      ih (__linked_list_insert_after_in_place l v a j) (j :: F) hw1 ha1 hdisj1 hnd1
    refine ⟨?_, ?_, ?_, ?_, ?_, ?_⟩
    · refine FreeRingOn_congr ?_ hw2
      intro x
      constructor
      · intro hx
        rcases List.mem_append.mp hx with hx | hx
        · exact List.mem_cons.mpr (Or.inr (List.mem_append.mpr (Or.inl hx)))
        · rcases List.mem_cons.mp hx with rfl | hx
          · exact List.mem_cons.mpr (Or.inl rfl)
          · exact List.mem_cons.mpr (Or.inr (List.mem_append.mpr (Or.inr hx)))
      · intro hx
        rcases List.mem_cons.mp hx with rfl | hx
        · exact List.mem_append.mpr (Or.inr (List.mem_cons_self _ _))
        · rcases List.mem_append.mp hx with hx | hx
          · exact List.mem_append.mpr (Or.inl hx)
          · exact List.mem_append.mpr (Or.inr (List.mem_cons_of_mem _ hx))
    · intro x hxF hxjs
      have hxj : x ≠ j := fun h => hxjs (h ▸ List.mem_cons_self _ _)
      have hx1 : x ∉ j :: F := fun h => by
        rcases List.mem_cons.mp h with rfl | h
        · exact hxj rfl
        · exact hxF h
      rw [hu2 x hx1 (fun h => hxjs (List.mem_cons_of_mem _ h)),
        huntouched x hxF hxj]
    · rw [hc2]
      rfl
    · rw [hus2]
      rfl
    · rw [hf2]
      rfl
    · rw [hl2]
      rfl


theorem create_WF (E : Type) [Inhabited E] (cap : Nat) :
    WF (linked_list_create E cap) [] := by
  have hfold : linked_list_create E cap =
      (((List.range' 2 cap).reverse.map fun n : Nat => (n : Int)).foldl
        (fun acc j => __linked_list_insert_after_in_place acc default 1 j)
        { elements := setSlot (fun _ => default) 1
            { next_index := 1, prev_index := 1, is_free := true,
              element := default },
          capacity := cap, used := 0, free := 1, is_linearized := true }) := by
    rw [List.foldl_map]
    rfl
  set l1 : linked_list E :=
    { elements := setSlot (fun _ => default) 1
        { next_index := 1, prev_index := 1, is_free := true, element := default },
      capacity := cap, used := 0, free := 1, is_linearized := true } with hl1
  set js : List Int := (List.range' 2 cap).reverse.map fun n : Nat => (n : Int)
    with hjs
  have hmemjs : ∀ x : Int, x ∈ js ↔ 2 ≤ x ∧ x ≤ (cap : Int) + 1 := by
    intro x
    rw [hjs]
    constructor
    · intro hx
      obtain ⟨n, hn, rfl⟩ := List.mem_map.mp hx
      rw [List.mem_reverse, List.mem_range'_1] at hn
      omega
    · intro hx
      refine List.mem_map.mpr ⟨x.toNat, ?_, by omega⟩
      rw [List.mem_reverse, List.mem_range'_1]
      omega
  have hw1 : FreeRingOn l1 [1] := by
    intro j hj
    rcases List.mem_singleton.mp hj with rfl
    have h1 : l1.elements 1 =
        { next_index := 1, prev_index := 1, is_free := true,
          element := default } := rfl
    rw [h1]
    exact ⟨rfl, List.mem_singleton_self _, List.mem_singleton_self _,
      by rw [h1], by rw [h1]⟩
  have hdisj : ∀ j ∈ js, j ∉ ([1] : List Int) := by
    intro j hj hmem
    rcases List.mem_singleton.mp hmem with rfl
    have := (hmemjs 1).mp hj
    omega
  have hnd : js.Nodup := by
    rw [hjs]
    refine List.Nodup.map ?_ (List.nodup_reverse.mpr (List.nodup_range' 2 cap))
    intro x y hxy
    have h : (x : Int) = (y : Int) := hxy
    omega
  obtain ⟨hw, huntouched, hcap, hused, hfree, hlin⟩ :=
    free_fold_splice (default : E) 1 js l1 [1] hw1 (List.mem_singleton_self _)
      hdisj hnd
  rw [hfold]
  have h0 : (js.foldl
      (fun acc j => __linked_list_insert_after_in_place acc default 1 j)
      l1).elements 0 = l1.elements 0 := by
    refine huntouched 0 ?_ ?_
    · intro h
      rcases List.mem_singleton.mp h with h
      exact absurd h (by omega)
    · intro h
      have := (hmemjs 0).mp h
      omega
  have h0v : l1.elements 0 = (default : element E) := rfl
  have hmemF : ∀ x : Int, x ∈ js ++ [1] ↔ x ∈ slotRange cap := by
    intro x
    rw [List.mem_append, mem_slotRange, hmemjs, List.mem_singleton]
    omega
  have hwF : FreeRingOn (js.foldl
      (fun acc j => __linked_list_insert_after_in_place acc default 1 j) l1)
      (slotRange cap) := FreeRingOn_congr hmemF hw
  refine ⟨⟨?_, ?_, ?_, ?_, ?_, ?_, ?_, ?_, ?_, ?_⟩, ?_, ?_⟩
  · -- chain: the sentinel self-loops
    refine ⟨?_, ?_⟩
    · rw [h0, h0v]
      rfl
    · rw [h0, h0v]
      rfl
  · simp
  · intro i hi
    cases hi
  · intro i hi
    cases hi
  · rw [h0, h0v]
    rfl
  · rw [hused]
    rfl
  · rw [hcap]
    intro i hi _
    exact (hwF i hi).1
  · rw [hcap]
    intro i hi _
    exact ⟨(hwF i hi).2.1, fun h => absurd h (List.not_mem_nil _)⟩
  · rw [hcap]
    intro i hi _
    exact ⟨(hwF i hi).2.2.1, fun h => absurd h (List.not_mem_nil _)⟩
  · rw [hcap]
    intro i hi _
    exact ⟨(hwF i hi).2.2.2.1, (hwF i hi).2.2.2.2⟩
  · rw [hfree, hcap, mem_slotRange]
    show (1 : Int) ≤ 1 ∧ (1 : Int) ≤ (cap : Int) + 1
    omega
  · rw [hfree]
    exact fun h => absurd h (List.not_mem_nil _)

theorem foldl_add_free_eq_nat {E : Type} [Inhabited E] :
    ∀ (js : List Nat) (l : linked_list E),
    js.foldl (fun acc i => add_free_element acc (Int.ofNat i)) l =
    js.foldl (fun acc i =>
      __linked_list_insert_after_in_place acc default l.free (Int.ofNat i)) l := by
  intro js
  induction js with
  | nil => intro l; rfl
  | cons j js ih =>
    intro l
    simp only [List.foldl_cons]
    rw [show add_free_element l (Int.ofNat j) =
      __linked_list_insert_after_in_place l default l.free (Int.ofNat j) from rfl]
    rw [ih (__linked_list_insert_after_in_place l default l.free (Int.ofNat j))]
    simp only [show (__linked_list_insert_after_in_place l default l.free
      (Int.ofNat j)).free = l.free from rfl]

theorem resize_WF {E : Type} [Inhabited E] {l : linked_list E} {L : List Int}
    (hwf : WF l L) (n : Nat) (hn : l.capacity ≤ n) :
    WF (linked_list_resize l n) L ∧
    (∀ j ∈ 0 :: L, (linked_list_resize l n).elements j = l.elements j) ∧
    (linked_list_resize l n).capacity = n ∧
    (linked_list_resize l n).used = l.used ∧
    (linked_list_resize l n).is_linearized = l.is_linearized ∧
    (linked_list_resize l n).free = l.free := by
  classical
  obtain ⟨hcore, hfm, hfl⟩ := hwf
  set F0 : List Int := (slotRange l.capacity).filter (fun x => x ∉ L) with hF0
  have hmemF0 : ∀ x : Int, x ∈ F0 ↔ x ∈ slotRange l.capacity ∧ x ∉ L := by
    intro x
    rw [hF0, List.mem_filter]
    simp
  have hw0 : FreeRingOn l F0 := by
    intro j hj
    obtain ⟨hjr, hjL⟩ := (hmemF0 j).mp hj
    refine ⟨hcore.free_flag j hjr hjL, ?_, ?_, hcore.free_inv j hjr hjL⟩
    · exact (hmemF0 _).mpr (hcore.free_next j hjr hjL)
    · exact (hmemF0 _).mpr (hcore.free_prev j hjr hjL)
  set js : List Int := (List.range' (l.capacity + 2) (n - l.capacity)).map
    (fun m : Nat => (m : Int)) with hjs
  have hmemjs : ∀ x : Int, x ∈ js ↔
      (l.capacity : Int) + 2 ≤ x ∧ x ≤ (n : Int) + 1 := by
    intro x
    rw [hjs]
    constructor
    · intro hx
      obtain ⟨m, hm, rfl⟩ := List.mem_map.mp hx
      rw [List.mem_range'_1] at hm
      omega
    · intro hx
      refine List.mem_map.mpr ⟨x.toNat, ?_, by omega⟩
      rw [List.mem_range'_1]
      omega
  have hbase : (List.range' (l.capacity + 2) (n - l.capacity)).foldl
      (fun acc i => add_free_element acc (Int.ofNat i)) l =
      js.foldl (fun acc j => __linked_list_insert_after_in_place acc default l.free j) l := by
    rw [foldl_add_free_eq_nat, hjs, List.foldl_map]
    rfl
  have hfold : linked_list_resize l n =
      { js.foldl (fun acc j => __linked_list_insert_after_in_place acc default l.free j) l
        with capacity := n } := by
    rw [← hbase]
    rfl
  have hdisj : ∀ j ∈ js, j ∉ F0 := by
    intro j hj hmem
    have h1 := (hmemjs j).mp hj
    have h2 := mem_slotRange.mp ((hmemF0 j).mp hmem).1
    omega
  have hnd : js.Nodup := by
    rw [hjs]
    refine List.Nodup.map ?_ (List.nodup_range' _ _)
    intro x y hxy
    have h : (x : Int) = (y : Int) := hxy
    omega
  have hfF0 : l.free ∈ F0 := (hmemF0 _).mpr ⟨hfm, hfl⟩
  obtain ⟨hw, huntouched, hcap, hused, hfree, hlin⟩ :=
    free_fold_splice (default : E) l.free js l F0 hw0 hfF0 hdisj hnd
  have hLun : ∀ j ∈ 0 :: L, (js.foldl
      (fun acc j => __linked_list_insert_after_in_place acc default l.free j)
      l).elements j = l.elements j := by
    intro j hj
    rcases List.mem_cons.mp hj with rfl | hjL
    · refine huntouched 0 (fun h => ?_) (fun h => ?_)
      · exact absurd (mem_slotRange.mp ((hmemF0 0).mp h).1) (by omega)
      · exact absurd ((hmemjs 0).mp h) (by omega)
    · refine huntouched j (fun h => ((hmemF0 j).mp h).2 hjL) (fun h => ?_)
      have h1 := (hmemjs j).mp h
      have h2 := mem_slotRange.mp (hcore.range j hjL)
      omega
  have hmemN : ∀ x : Int, x ∈ js ++ F0 ↔ x ∈ slotRange n ∧ x ∉ L := by
    intro x
    rw [List.mem_append, hmemjs, hmemF0, mem_slotRange, mem_slotRange]
    constructor
    · rintro (h | ⟨h1, h2⟩)
      · refine ⟨by omega, fun hc => ?_⟩
        have := mem_slotRange.mp (hcore.range x hc)
        omega
      · exact ⟨by omega, h2⟩
    · rintro ⟨h1, h2⟩
      by_cases h3 : x ≤ (l.capacity : Int) + 1
      · exact Or.inr ⟨by omega, h2⟩
      · exact Or.inl (by omega)
  have hwN : FreeRingOn (js.foldl
      (fun acc j => __linked_list_insert_after_in_place acc default l.free j) l)
      (js ++ F0) := hw
  rw [hfold]
  refine ⟨⟨⟨?_, hcore.nodup, ?_, ?_, ?_, ?_, ?_, ?_, ?_, ?_⟩, ?_, ?_⟩,
    hLun, rfl, hused, hlin, hfree⟩
  · -- live chain untouched
    refine links_congr L 0 0 (fun a ha => ?_) (fun a ha => ?_) hcore.chain
    · rw [hLun a ha]
    · rcases List.mem_append.mp ha with ha | ha
      · rw [hLun a (List.mem_cons_of_mem _ ha)]
      · rcases List.mem_singleton.mp ha with rfl
        rw [hLun 0 (List.mem_cons_self _ _)]
  · intro i hi
    exact slotRange_mono hn (hcore.range i hi)
  · intro i hi
    rw [hLun i (List.mem_cons_of_mem _ hi)]
    exact hcore.live_busy i hi
  · rw [hLun 0 (List.mem_cons_self _ _)]
    exact hcore.sentinel_busy
  · show (js.foldl (fun acc j =>
      __linked_list_insert_after_in_place acc default l.free j) l).used = L.length
    rw [hused]
    exact hcore.used_eq
  · intro i hi hiL
    exact (hwN i ((hmemN i).mpr ⟨hi, hiL⟩)).1
  · intro i hi hiL
    have h := (hmemN _).mp (hwN i ((hmemN i).mpr ⟨hi, hiL⟩)).2.1
    exact h
  · intro i hi hiL
    have h := (hmemN _).mp (hwN i ((hmemN i).mpr ⟨hi, hiL⟩)).2.2.1
    exact h
  · intro i hi hiL
    exact ⟨(hwN i ((hmemN i).mpr ⟨hi, hiL⟩)).2.2.2.1,
      (hwN i ((hmemN i).mpr ⟨hi, hiL⟩)).2.2.2.2⟩
  · rw [hfree]
    exact slotRange_mono hn hfm
  · rw [hfree]
    exact hfl

theorem detach_free {E : Type} {l : linked_list E} {L : List Int} {q : Int}
    (hwf : WF l L)
    (hq_range : q ∈ slotRange l.capacity) (hq_notL : q ∉ L)
    (hne : (l.elements q).next_index ≠ q) :
    ∃ l2, get_free_element_on_place l q = some l2 ∧
      links l2.elements 0 L 0 ∧
      (∀ j ∈ 0 :: L, l2.elements j = l.elements j) ∧
      (∀ i ∈ slotRange l.capacity, i ∉ L → i ≠ q →
        (l2.elements i).is_free = true ∧
        ((l2.elements i).next_index ∈ slotRange l.capacity ∧
          (l2.elements i).next_index ∉ L ∧ (l2.elements i).next_index ≠ q) ∧
        ((l2.elements i).prev_index ∈ slotRange l.capacity ∧
          (l2.elements i).prev_index ∉ L ∧ (l2.elements i).prev_index ≠ q) ∧
        (l2.elements ((l2.elements i).next_index)).prev_index = i ∧
        (l2.elements ((l2.elements i).prev_index)).next_index = i) ∧
      (l2.free ∈ slotRange l.capacity ∧ l2.free ∉ L ∧ l2.free ≠ q) ∧
      l2.capacity = l.capacity ∧ l2.used = l.used ∧
      l2.is_linearized = l.is_linearized ∧
      (∀ j, (l2.elements j).is_free = (l.elements j).is_free) := by
  obtain ⟨hcore, hfm, hfl⟩ := hwf
  have hflagq : (l.elements q).is_free = true := hcore.free_flag q hq_range hq_notL
  have hq0 : q ≠ 0 := by
    have := mem_slotRange.mp hq_range
    omega
  -- the two neighbors of q on its free ring
  have hnqF := hcore.free_next q hq_range hq_notL
  have hpqF := hcore.free_prev q hq_range hq_notL
  have hinvq := hcore.free_inv q hq_range hq_notL
  have hpq_ne : (l.elements q).prev_index ≠ q := by
    intro h
    have h1 := hinvq.2
    rw [h] at h1
    exact hne h1
  -- the state after the unlink plus the free-pointer redirect
  have hchk : check_index l q = true := by
    unfold check_index
    have := mem_slotRange.mp hq_range
    split_ifs with h1 h2
    · omega
    · omega
    · rfl
  have hunlink : linked_list_unlink l q = some
      { l with elements :=
          (upd (upd l.elements (l.elements q).prev_index
            fun e => { e with next_index := (l.elements q).next_index })
            (l.elements q).next_index
            fun e => { e with prev_index := (l.elements q).prev_index }) } := by
    unfold linked_list_unlink
    rw [hchk]
    rfl
  -- now the properties of the detached state
  set pq := (l.elements q).prev_index with hpq
  set nq := (l.elements q).next_index with hnq
  set l2 : linked_list E :=
    { l with
      elements :=
        (upd (upd l.elements pq fun e => { e with next_index := nq }) nq
          fun e => { e with prev_index := pq }),
      free := nq } with hl2
  refine ⟨l2, ?_, ?_⟩
  · unfold get_free_element_on_place
    rw [show is_free_element l q = true from hflagq]
    simp only [Bool.true_eq_false, if_false, if_neg hne, hunlink]
  show links l2.elements 0 L 0 ∧ _
  have read_other : ∀ j, j ≠ pq → j ≠ nq → l2.elements j = l.elements j := by
    intro j h1 h2
    show upd (upd l.elements pq fun e => { e with next_index := nq }) nq
      (fun e => { e with prev_index := pq }) j = l.elements j
    rw [upd_apply, if_neg h2, upd_apply, if_neg h1]
  have read_pq_n : pq ≠ nq → l2.elements pq = { l.elements pq with next_index := nq } := by
    intro h
    show upd (upd l.elements pq fun e => { e with next_index := nq }) nq
      (fun e => { e with prev_index := pq }) pq = _
    rw [upd_apply, if_neg h, upd_apply, if_pos rfl]
  have read_nq_n : pq ≠ nq → l2.elements nq = { l.elements nq with prev_index := pq } := by
    intro h
    show upd (upd l.elements pq fun e => { e with next_index := nq }) nq
      (fun e => { e with prev_index := pq }) nq = _
    rw [upd_apply, if_pos rfl, upd_apply, if_neg (fun hc => h hc.symm)]
  have read_alias : pq = nq → l2.elements pq =
      { l.elements pq with next_index := nq, prev_index := pq } := by
    intro h
    show upd (upd l.elements pq fun e => { e with next_index := nq }) nq
      (fun e => { e with prev_index := pq }) pq = _
    rw [upd_apply, if_pos h, upd_apply, if_pos h.symm]
  have hflags : ∀ j, (l2.elements j).is_free = (l.elements j).is_free := by
    intro j
    show (upd (upd l.elements pq fun e => { e with next_index := nq }) nq
      (fun e => { e with prev_index := pq }) j).is_free = _
    simp only [upd_apply]
    split_ifs with h1 h2 h3
    · rw [h1, h2]
    · rw [h1]
    · rw [h3]
    · rfl
  have hpq_notlive : pq ∉ (0 : Int) :: L := by
    intro h
    rcases List.mem_cons.mp h with h | h
    · have := mem_slotRange.mp hpqF.1
      omega
    · exact hpqF.2 h
  have hnq_notlive : nq ∉ (0 : Int) :: L := by
    intro h
    rcases List.mem_cons.mp h with h | h
    · have := mem_slotRange.mp hnqF.1
      omega
    · exact hnqF.2 h
  have hLun : ∀ j ∈ (0 : Int) :: L, l2.elements j = l.elements j := by
    intro j hj
    exact read_other j (fun h => hpq_notlive (h ▸ hj)) (fun h => hnq_notlive (h ▸ hj))
  -- inverse facts around q
  have hprev_nq : (l.elements nq).prev_index = q := hinvq.1
  have hnext_pq : (l.elements pq).next_index = q := hinvq.2
  have huniq_next : ∀ i ∈ slotRange l.capacity, i ∉ L →
      (l.elements i).next_index = q → i = pq := by
    intro i hir hiL h
    have h1 := (hcore.free_inv i hir hiL).1
    rw [h] at h1
    exact (hpq.trans h1).symm
  have huniq_prev : ∀ i ∈ slotRange l.capacity, i ∉ L →
      (l.elements i).prev_index = q → i = nq := by
    intro i hir hiL h
    have h1 := (hcore.free_inv i hir hiL).2
    rw [h] at h1
    exact (hnq.trans h1).symm
  refine ⟨?_, hLun, ?_, ?_, rfl, rfl, rfl, hflags⟩
  · -- live chain untouched
    refine links_congr L 0 0 (fun a ha => ?_) (fun a ha => ?_) hcore.chain
    · rw [hLun a ha]
    · rcases List.mem_append.mp ha with ha | ha
      · rw [hLun a (List.mem_cons_of_mem _ ha)]
      · rcases List.mem_singleton.mp ha with rfl
        rw [hLun 0 (List.mem_cons_self _ _)]
  · -- free-ring closure away from q
    intro i hir hiL hiq
    by_cases hipq : i = pq
    · by_cases halias : pq = nq
      · rw [hipq, read_alias halias]
        refine ⟨hcore.free_flag pq hpqF.1 hpqF.2, ⟨hnqF.1, hnqF.2, hne⟩,
          ⟨hpqF.1, hpqF.2, hpq_ne⟩, ?_, ?_⟩
        · show (l2.elements nq).prev_index = pq
          rw [← halias, read_alias halias]
        · show (l2.elements pq).next_index = pq
          rw [read_alias halias, halias]
      · rw [hipq, read_pq_n halias]
        have hpp := hcore.free_prev pq hpqF.1 hpqF.2
        have hppne : (l.elements pq).prev_index ≠ q := by
          intro h
          exact halias (huniq_prev pq hpqF.1 hpqF.2 h)
        refine ⟨hcore.free_flag pq hpqF.1 hpqF.2, ⟨hnqF.1, hnqF.2, hne⟩,
          ⟨hpp.1, hpp.2, hppne⟩, ?_, ?_⟩
        · show (l2.elements nq).prev_index = pq
          rw [read_nq_n halias]
        · show (l2.elements ((l.elements pq).prev_index)).next_index = pq
          have hppq : (l.elements pq).prev_index ≠ pq := by
            intro h
            have h1 := (hcore.free_inv pq hpqF.1 hpqF.2).2
            rw [h] at h1
            exact hiq (by rw [hipq, ← h1, hnext_pq])
          by_cases hppnq : (l.elements pq).prev_index = nq
          · rw [hppnq, read_nq_n halias]
            show (l.elements nq).next_index = pq
            have h1 := (hcore.free_inv pq hpqF.1 hpqF.2).2
            rw [hppnq] at h1
            exact h1
          · rw [read_other _ hppq hppnq]
            exact (hcore.free_inv pq hpqF.1 hpqF.2).2
    · by_cases hinq : i = nq
      · have halias : pq ≠ nq := fun h => hipq (hinq.trans h.symm)
        rw [hinq, read_nq_n halias]
        have hnn := hcore.free_next nq hnqF.1 hnqF.2
        have hnnne : (l.elements nq).next_index ≠ q := by
          intro h
          exact halias (huniq_next nq hnqF.1 hnqF.2 h).symm
        refine ⟨hcore.free_flag nq hnqF.1 hnqF.2, ⟨hnn.1, hnn.2, hnnne⟩,
          ⟨hpqF.1, hpqF.2, hpq_ne⟩, ?_, ?_⟩
        · show (l2.elements ((l.elements nq).next_index)).prev_index = nq
          have hnnnq : (l.elements nq).next_index ≠ nq := by
            intro h
            have h1 := (hcore.free_inv nq hnqF.1 hnqF.2).1
            rw [h] at h1
            rw [h1] at hprev_nq
            exact hne (by rw [← hprev_nq, hnq])
          by_cases hnnpq : (l.elements nq).next_index = pq
          · rw [hnnpq, read_pq_n halias]
            show (l.elements pq).prev_index = nq
            have h1 := (hcore.free_inv nq hnqF.1 hnqF.2).1
            rw [hnnpq] at h1
            exact h1
          · rw [read_other _ hnnpq hnnnq]
            exact (hcore.free_inv nq hnqF.1 hnqF.2).1
        · show (l2.elements pq).next_index = nq
          rw [read_pq_n halias]
      · -- generic free slot, untouched
        rw [read_other i hipq hinq]
        have hni := hcore.free_next i hir hiL
        have hpi := hcore.free_prev i hir hiL
        have hnine : (l.elements i).next_index ≠ q :=
          fun h => hipq (huniq_next i hir hiL h)
        have hpine : (l.elements i).prev_index ≠ q :=
          fun h => hinq (huniq_prev i hir hiL h)
        refine ⟨hcore.free_flag i hir hiL, ⟨hni.1, hni.2, hnine⟩,
          ⟨hpi.1, hpi.2, hpine⟩, ?_, ?_⟩
        · have h1 : (l.elements i).next_index ≠ nq := by
            intro h
            have h2 := (hcore.free_inv i hir hiL).1
            rw [h, hprev_nq] at h2
            exact hiq h2.symm
          by_cases h3 : (l.elements i).next_index = pq
          · by_cases halias : pq = nq
            · exact absurd (h3.trans halias) h1
            · rw [h3, read_pq_n halias]
              show (l.elements pq).prev_index = i
              have h4 := (hcore.free_inv i hir hiL).1
              rw [h3] at h4
              exact h4
          · rw [read_other _ h3 h1]
            exact (hcore.free_inv i hir hiL).1
        · have h1 : (l.elements i).prev_index ≠ pq := by
            intro h
            have h2 := (hcore.free_inv i hir hiL).2
            rw [h, hnext_pq] at h2
            exact hiq h2.symm
          by_cases h3 : (l.elements i).prev_index = nq
          · by_cases halias : pq = nq
            · exact absurd (h3.trans halias.symm) h1
            · rw [h3, read_nq_n halias]
              show (l.elements nq).next_index = i
              have h4 := (hcore.free_inv i hir hiL).2
              rw [h3] at h4
              exact h4
          · rw [read_other _ h1 h3]
            exact (hcore.free_inv i hir hiL).2
  · -- the redirected free pointer
    exact ⟨hnqF.1, hnqF.2, hne⟩

theorem spliceAfter_of_not_mem : ∀ (A : List Int) (p q : Int) (B : List Int),
    p ∉ A → spliceAfter (A ++ p :: B) p q = A ++ p :: q :: B := by
  intro A
  induction A with
  | nil =>
    intro p q B _
    show spliceAfter (p :: B) p q = _
    rw [spliceAfter, if_pos rfl]
    rfl
  | cons a A ih =>
    intro p q B hp
    show spliceAfter (a :: (A ++ p :: B)) p q = _
    rw [spliceAfter, if_neg (fun h => hp (by rw [h]; exact List.mem_cons_self _ _)),
      ih p q B (fun h => hp (List.mem_cons_of_mem _ h))]
    rfl

theorem spliceAfterL_perm {L : List Int} {p : Int} (q : Int) (hp : p ∈ 0 :: L)
    (hnodup : (0 :: L).Nodup) :
    List.Perm (spliceAfterL L p q) (q :: L) := by
  rcases List.mem_cons.mp hp with rfl | hp
  · rw [spliceAfterL, if_pos rfl]
  · have hp0 : p ≠ 0 := by
      intro h
      exact (List.nodup_cons.mp hnodup).1 (h ▸ hp)
    obtain ⟨A, B, rfl⟩ := List.append_of_mem hp
    have hpA : p ∉ A := by
      have := (List.nodup_cons.mp hnodup).2
      rw [List.nodup_append] at this
      exact fun h => this.2.2 h (List.mem_cons_self _ _)
    rw [spliceAfterL, if_neg hp0, spliceAfter_of_not_mem A p q B hpA]
    have h1 : A ++ p :: q :: B = (A ++ [p]) ++ q :: B := by simp
    have h2 : List.Perm ((A ++ [p]) ++ q :: B) (q :: ((A ++ [p]) ++ B)) :=
      List.perm_middle
    have h3 : q :: ((A ++ [p]) ++ B) = q :: (A ++ p :: B) := by simp
    rw [h1, ← h3]
    exact h2


theorem live_splice {E : Type} (l : linked_list E) (L : List Int) (v : E)
    (p q : Int)
    (hchain : links l.elements 0 L 0)
    (hnodup : ((0 : Int) :: L).Nodup)
    (hp : p ∈ (0 : Int) :: L)
    (hq0 : q ≠ 0) (hqL : q ∉ L) :
    links (__linked_list_insert_after_in_place l v p q).elements 0
      (spliceAfterL L p q) 0 := by
  set g := (__linked_list_insert_after_in_place l v p q).elements with hg
  set np := (l.elements p).next_index with hnp
  have h0L : (0 : Int) ∉ L := (List.nodup_cons.mp hnodup).1
  have hqp : q ≠ p := by
    intro h
    rcases List.mem_cons.mp hp with h0 | hL
    · exact hq0 (h.trans h0)
    · exact hqL (h ▸ hL)
  have read_q : g q =
      { next_index := np, prev_index := p,
        is_free := (l.elements p).is_free, element := v } := by
    rw [hg, in_place_apply, if_pos rfl]
  have hgnext : ∀ a, a ≠ q → a ≠ p →
      (g a).next_index = (l.elements a).next_index := by
    intro a h1 h2
    rw [hg, in_place_apply, if_neg h1]
    by_cases h3 : a = np
    · rw [if_pos h3, if_neg (fun h : np = p => h2 (h3.trans h))]
      show (l.elements np).next_index = _
      rw [h3]
    · rw [if_neg h3, if_neg h2]
  have hgprev : ∀ a, a ≠ q → a ≠ np →
      (g a).prev_index = (l.elements a).prev_index := by
    intro a h1 h2
    rw [hg, in_place_apply, if_neg h1, if_neg h2]
    by_cases h3 : a = p
    · rw [if_pos h3]
      show (l.elements p).prev_index = _
      rw [h3]
    · rw [if_neg h3]
  have read_np_prev : (g np).prev_index = q := by
    have hnpq : np ≠ q := by
      intro h
      have := links_next_facts l.elements L 0 0 hchain p hp
      rcases this.2 with h5 | h5
      · exact hqL (by rw [← h]; exact h5)
      · exact hq0 (by rw [← h]; exact h5)
    rw [hg, in_place_apply, if_neg hnpq, if_pos rfl]
  rcases List.mem_cons.mp hp with rfl | hpL
  · -- insert after the sentinel: the new cell becomes the head
    rw [spliceAfterL, if_pos rfl]
    refine ⟨?_, ?_, ?_⟩
    · by_cases h0np : (0 : Int) = np
      · rw [hg, in_place_apply, if_neg (fun h : (0 : Int) = q => hq0 h.symm),
          if_pos h0np]
        by_cases hnpp : np = 0
        · rw [if_pos hnpp]
        · exact absurd h0np.symm hnpp
      · rw [hg, in_place_apply, if_neg (fun h : (0 : Int) = q => hq0 h.symm),
          if_neg h0np, if_pos rfl]
    · rw [read_q]
    · match L, hchain with
      | [], hch =>
        have hnp0 : np = 0 := hch.1
        refine ⟨?_, ?_⟩
        · rw [read_q]
          exact hnp0
        · rw [← hnp0]
          exact read_np_prev
      | b :: L', hch =>
        obtain ⟨hc1, hc2, hc3⟩ := hch
        have hnpb : np = b := hc1
        have hbL : b ∈ b :: L' := List.mem_cons_self _ _
        refine ⟨?_, ?_, ?_⟩
        · rw [read_q]
          exact hnpb
        · rw [← hnpb]
          exact read_np_prev
        · refine links_congr L' b 0 (fun a ha => ?_) (fun a ha => ?_) hc3
          · refine hgnext a (fun h => hqL (h ▸ ha)) (fun h => h0L (h ▸ ha))
          · have hbn := List.nodup_cons.mp (List.nodup_cons.mp hnodup).2
            rcases List.mem_append.mp ha with ha | ha
            · refine hgprev a
                (fun h => hqL (h ▸ List.mem_cons_of_mem _ ha))
                (fun h => hbn.1 (by rw [← hnpb, ← h]; exact ha))
            · rcases List.mem_singleton.mp ha with rfl
              refine hgprev 0 (fun h => hq0 h.symm)
                (fun h => h0L (by rw [show (0 : Int) = b from h.trans hnpb]; exact hbL))
  · -- insert after a live slot p
    have hp0 : p ≠ 0 := fun h => h0L (h ▸ hpL)
    obtain ⟨A, B, rfl⟩ := List.append_of_mem hpL
    have hnd := (List.nodup_cons.mp hnodup).2
    have hndAB := List.nodup_append.mp
      (List.nodup_cons.mp (List.nodup_middle.mp hnd)).2
    have hpA : p ∉ A := by
      rw [List.nodup_append] at hnd
      exact fun h => hnd.2.2 h (List.mem_cons_self _ _)
    have hpB : p ∉ B :=
      fun h => (List.nodup_cons.mp (List.nodup_middle.mp hnd)).1
        (List.mem_append.mpr (Or.inr h))
    rw [spliceAfterL, if_neg hp0, spliceAfter_of_not_mem A p q B hpA]
    obtain ⟨hA, hB⟩ := (links_append l.elements A 0 p 0 B).mp hchain
    have hnp_where : np = 0 ∨ np ∈ B := by
      match B, hB with
      | [], hB => exact Or.inl hB.1
      | b :: B', hB =>
        refine Or.inr ?_
        rw [show np = b from hB.1]
        exact List.mem_cons_self _ _
    refine (links_append g A 0 p 0 (q :: B)).mpr ⟨?_, ?_, ?_, ?_⟩
    · refine links_congr A 0 p (fun a ha => ?_) (fun a ha => ?_) hA
      · refine hgnext a ?_ ?_
        · rcases List.mem_cons.mp ha with rfl | ha
          · exact fun h => hq0 h.symm
          · exact fun h => hqL (h ▸ List.mem_append.mpr (Or.inl ha))
        · rcases List.mem_cons.mp ha with rfl | ha
          · exact fun h => hp0 h.symm
          · exact fun h => hpA (h ▸ ha)
      · refine hgprev a ?_ ?_
        · rcases List.mem_append.mp ha with ha | ha
          · exact fun h => hqL (h ▸ List.mem_append.mpr (Or.inl ha))
          · rcases List.mem_singleton.mp ha with rfl
            exact hqp.symm
        · rcases List.mem_append.mp ha with ha | ha
          · intro h
            rcases hnp_where with h5 | h5
            · have h0A : (0 : Int) ∉ A := fun hc =>
                h0L (List.mem_append.mpr (Or.inl hc))
              exact h0A (by rw [← h5, ← h]; exact ha)
            · exact hndAB.2.2 ha (by rw [h]; exact h5)
          · rcases List.mem_singleton.mp ha with rfl
            intro h
            rcases hnp_where with h5 | h5
            · exact hp0 (h.trans h5)
            · exact hpB (h ▸ h5)
    · rw [hg, in_place_apply, if_neg hqp.symm]
      have hpnp : p ≠ np := by
        intro h
        rcases hnp_where with h5 | h5
        · exact hp0 (h.trans h5)
        · exact hpB (h ▸ h5)
      rw [if_neg hpnp, if_pos rfl]
    · rw [read_q]
    · match B, hB with
      | [], hB =>
        have hnp0 : np = 0 := hB.1
        refine ⟨?_, ?_⟩
        · rw [read_q]
          exact hnp0
        · rw [← hnp0]
          exact read_np_prev
      | b :: B', hB =>
        obtain ⟨hB1, hB2, hB3⟩ := hB
        have hnpb : np = b := hB1
        have hbB : b ∈ b :: B' := List.mem_cons_self _ _
        refine ⟨?_, ?_, ?_⟩
        · rw [read_q]
          exact hnpb
        · rw [← hnpb]
          exact read_np_prev
        · refine links_congr B' b 0 (fun a ha => ?_) (fun a ha => ?_) hB3
          · refine hgnext a
              (fun h => hqL (h ▸ List.mem_append.mpr
                (Or.inr (List.mem_cons_of_mem _ ha))))
              (fun h => hpB (h ▸ ha))
          · have hbn := List.nodup_cons.mp hndAB.2.1
            rcases List.mem_append.mp ha with ha | ha
            · refine hgprev a
                (fun h => hqL (h ▸ List.mem_append.mpr
                  (Or.inr (List.mem_cons_of_mem _ (List.mem_cons_of_mem _ ha)))))
                (fun h => hbn.1 (by rw [← hnpb, ← h]; exact ha))
            · rcases List.mem_singleton.mp ha with rfl
              refine hgprev 0 (fun h => hq0 h.symm)
                (fun h => h0L (List.mem_append.mpr (Or.inr
                  (by rw [show (0 : Int) = b from h.trans hnpb]
                      exact List.mem_cons_of_mem _ hbB))))

theorem links_retarget {E : Type} (f g : Int → element E) :
    ∀ (A : List Int) (x y z : Int),
    links f x A y →
    y ∉ x :: A →
    (∀ a ∈ x :: A, (f a).next_index ≠ y → (g a).next_index = (f a).next_index) →
    (∀ a ∈ x :: A, (f a).next_index = y →
      (g a).next_index = z ∧ (g z).prev_index = a) →
    (∀ a ∈ A, (g a).prev_index = (f a).prev_index) →
    links g x A z := by
  intro A
  induction A with
  | nil =>
    intro x y z h hy hkeep hlast hprev
    obtain ⟨h1, h2⟩ := h
    have h3 := hlast x (List.mem_cons_self _ _) h1
    exact ⟨h3.1, h3.2⟩
  | cons a A ih =>
    intro x y z h hy hkeep hlast hprev
    obtain ⟨h1, h2, h3⟩ := h
    have hay : (f x).next_index ≠ y := by
      rw [h1]
      exact fun hc => hy (hc ▸ List.mem_cons_of_mem _ (List.mem_cons_self _ _))
    refine ⟨?_, ?_, ?_⟩
    · rw [hkeep x (List.mem_cons_self _ _) hay]
      exact h1
    · rw [hprev a (List.mem_cons_self _ _)]
      exact h2
    · refine ih a y z h3 (fun hc => hy (List.mem_cons_of_mem _ hc))
        (fun c hc => hkeep c (List.mem_cons_of_mem _ hc))
        (fun c hc => hlast c (List.mem_cons_of_mem _ hc))
        (fun c hc => hprev c (List.mem_cons_of_mem _ hc))

theorem live_unsplice {E : Type} (l : linked_list E) (A B : List Int) (i : Int)
    (hchain : links l.elements 0 (A ++ i :: B) 0)
    (hnodup : ((0 : Int) :: (A ++ i :: B)).Nodup) :
    links
      (upd (upd l.elements (l.elements i).prev_index
          fun e => { e with next_index := (l.elements i).next_index })
        (l.elements i).next_index
          fun e => { e with prev_index := (l.elements i).prev_index })
      0 (A ++ B) 0 := by
  set f := l.elements with hf
  set pi := (l.elements i).prev_index with hpi
  set ni := (l.elements i).next_index with hni
  set g := (upd (upd l.elements pi fun e => { e with next_index := ni }) ni
    fun e => { e with prev_index := pi }) with hg
  have h0L : (0 : Int) ∉ A ++ i :: B := (List.nodup_cons.mp hnodup).1
  have h0A : (0 : Int) ∉ A := fun h => h0L (List.mem_append.mpr (Or.inl h))
  have h0B : (0 : Int) ∉ B := fun h =>
    h0L (List.mem_append.mpr (Or.inr (List.mem_cons_of_mem _ h)))
  have hi0 : i ≠ 0 := fun h =>
    h0L (h ▸ List.mem_append.mpr (Or.inr (List.mem_cons_self _ _)))
  have hnd := (List.nodup_cons.mp hnodup).2
  have hiA : i ∉ A := by
    rw [List.nodup_append] at hnd
    exact fun h => hnd.2.2 h (List.mem_cons_self _ _)
  have hiB : i ∉ B :=
    fun h => (List.nodup_cons.mp (List.nodup_middle.mp hnd)).1
      (List.mem_append.mpr (Or.inr h))
  have hndAB := List.nodup_append.mp
    (List.nodup_cons.mp (List.nodup_middle.mp hnd)).2
  have huniq : ∀ a ∈ (0 : Int) :: (A ++ i :: B),
      (f a).next_index = i → a = pi := by
    intro a ha h
    have h1 := (links_next_facts f (A ++ i :: B) 0 0 hchain a ha).1
    rw [h] at h1
    exact (hpi.trans h1).symm
  have gread_next : ∀ a, a ≠ pi → (g a).next_index = (f a).next_index := by
    intro a h1
    rw [hg, upd_apply]
    by_cases h2 : a = ni
    · rw [if_pos h2]
      show (upd f pi _ ni).next_index = _
      rw [upd_apply, if_neg (fun h : ni = pi => h1 (h2.trans h)), h2]
    · rw [if_neg h2, upd_apply, if_neg h1]
  have gread_prev : ∀ a, a ≠ ni → (g a).prev_index = (f a).prev_index := by
    intro a h1
    rw [hg, upd_apply, if_neg h1, upd_apply]
    by_cases h2 : a = pi
    · rw [if_pos h2]
      show (f pi).prev_index = _
      rw [h2]
    · rw [if_neg h2]
  have gpi_next : (g pi).next_index = ni := by
    rw [hg, upd_apply]
    by_cases h2 : pi = ni
    · rw [if_pos h2]
      show (upd f pi _ ni).next_index = _
      rw [upd_apply, ← h2, if_pos rfl]
    · rw [if_neg h2, upd_apply, if_pos rfl]
  have gni_prev : (g ni).prev_index = pi := by
    rw [hg, upd_apply, if_pos rfl]
  obtain ⟨hA, hB⟩ := (links_append f A 0 i 0 B).mp hchain
  have hretarget : ∀ z : Int, z = ni → links g 0 A z := by
    intro z hzeq
    have hz : (g z).prev_index = pi := by rw [hzeq]; exact gni_prev
    refine links_retarget f g A 0 i z hA ?_ ?_ ?_ ?_
    · intro hc
      rcases List.mem_cons.mp hc with hc | hc
      · exact hi0 hc
      · exact hiA hc
    · intro a ha hne
      refine gread_next a (fun hc => hne ?_)
      have : (f pi).next_index = i :=
        (links_prev_facts f (A ++ i :: B) 0 0 hchain i
          (List.mem_append.mpr (Or.inl (List.mem_append.mpr
            (Or.inr (List.mem_cons_self _ _)))))).1
      rw [hc, this]
    · intro a ha hlast
      have hapi : a = pi := huniq a
        (by
          rcases List.mem_cons.mp ha with rfl | ha
          · exact List.mem_cons_self _ _
          · exact List.mem_cons_of_mem _ (List.mem_append.mpr (Or.inl ha)))
        hlast
    
      refine ⟨?_, ?_⟩
      · rw [hapi, hzeq]
        exact gpi_next
      · rw [hz, hapi]
    · intro a ha
      refine gread_prev a (fun hc => ?_)
      have : ni = 0 ∨ ni ∈ B := by
        match B, hB with
        | [], hB => exact Or.inl hB.1
        | b :: B', hB =>
          refine Or.inr ?_
          rw [show ni = b from hB.1]
          exact List.mem_cons_self _ _
      rcases this with h5 | h5
      · exact h0A (by rw [← h5, ← hc]; exact ha)
      · exact hndAB.2.2 ha (by rw [hc]; exact h5)
  match B, hB with
  | [], hB =>
    have hni0 : ni = 0 := hB.1
    rw [List.append_nil]
    exact hretarget 0 hni0.symm
  | b :: B', hB =>
    obtain ⟨hB1, hB2, hB3⟩ := hB
    have hnib : ni = b := hB1
    refine (links_append g A 0 b 0 B').mpr ⟨?_, ?_⟩
    · exact hretarget b hnib.symm
    · refine links_congr B' b 0 (fun a ha => ?_) (fun a ha => ?_) hB3
      · refine gread_next a (fun hc => ?_)
        have h7 : (f pi).next_index = i :=
          (links_prev_facts f (A ++ i :: b :: B') 0 0 hchain i
            (List.mem_append.mpr (Or.inl (List.mem_append.mpr
              (Or.inr (List.mem_cons_self _ _)))))).1
        have h8 : (f a).next_index = i := by rw [hc]; exact h7
        rcases (links_next_facts f B' b 0 hB3 a ha).2 with h9 | h9
        · rw [h8] at h9
          exact hiB (List.mem_cons_of_mem _ h9)
        · exact hi0 (h8.symm.trans h9)
      · refine gread_prev a (fun hc => ?_)
        have hbn := List.nodup_cons.mp hndAB.2.1
        rcases List.mem_append.mp ha with ha | ha
        · exact hbn.1 (by rw [show b = a from (hc.trans hnib).symm]; exact ha)
        · rcases List.mem_singleton.mp ha with rfl
          exact h0B (by rw [show (0 : Int) = b from hc.trans hnib]
                        exact List.mem_cons_self _ _)

theorem splice_assemble {E : Type} (l1 l2 : linked_list E) (L : List Int)
    (v : E) (p q : Int)
    (hwf1 : WF l1 L) (hp : p ∈ (0 : Int) :: L)
    (hq_range : q ∈ slotRange l1.capacity) (hq_notL : q ∉ L) (hq0 : q ≠ 0)
    (hcap : l2.capacity = l1.capacity)
    (hused : l2.used = l1.used)
    (hchain2 : links l2.elements 0 L 0)
    (hpres : ∀ j ∈ (0 : Int) :: L, l2.elements j = l1.elements j)
    (hfreeD : ∀ i ∈ slotRange l1.capacity, i ∉ L → i ≠ q →
      (l2.elements i).is_free = true ∧
      ((l2.elements i).next_index ∈ slotRange l1.capacity ∧
        (l2.elements i).next_index ∉ L ∧ (l2.elements i).next_index ≠ q) ∧
      ((l2.elements i).prev_index ∈ slotRange l1.capacity ∧
        (l2.elements i).prev_index ∉ L ∧ (l2.elements i).prev_index ≠ q) ∧
      (l2.elements ((l2.elements i).next_index)).prev_index = i ∧
      (l2.elements ((l2.elements i).prev_index)).next_index = i)
    (hfree2 : l2.free ∈ slotRange l1.capacity ∧ l2.free ∉ L ∧ l2.free ≠ q)
    (hflags2 : ∀ j, (l2.elements j).is_free = (l1.elements j).is_free) :
    WF { __linked_list_insert_after_in_place l2 v p q with
        used := (__linked_list_insert_after_in_place l2 v p q).used + 1 }
      (spliceAfterL L p q) ∧
    (∀ j ∈ (0 : Int) :: L,
      (({ __linked_list_insert_after_in_place l2 v p q with
          used := (__linked_list_insert_after_in_place l2 v p q).used + 1
        } : linked_list E).elements j).element = (l1.elements j).element) ∧
    (({ __linked_list_insert_after_in_place l2 v p q with
        used := (__linked_list_insert_after_in_place l2 v p q).used + 1
      } : linked_list E).elements q).element = v ∧
    ({ __linked_list_insert_after_in_place l2 v p q with
        used := (__linked_list_insert_after_in_place l2 v p q).used + 1
      } : linked_list E).used = l1.used + 1 := by
  obtain ⟨hcore1, hfm1, hfl1⟩ := hwf1
  set m := __linked_list_insert_after_in_place l2 v p q with hm
  set m' : linked_list E := { m with used := m.used + 1 } with hm'
  have h0L : (0 : Int) ∉ L := (List.nodup_cons.mp hcore1.nodup).1
  have hqp : q ≠ p := by
    intro h
    rcases List.mem_cons.mp hp with h0 | hL
    · exact hq0 (h.trans h0)
    · exact hq_notL (h ▸ hL)
  set np := (l2.elements p).next_index with hnp
  have hnp_live : np ∈ L ∨ np = 0 :=
    (links_next_facts l2.elements L 0 0 hchain2 p hp).2
  have flag_p : (l2.elements p).is_free = false := by
    rcases List.mem_cons.mp hp with rfl | hL
    · rw [hpres 0 (List.mem_cons_self _ _)]
      exact hcore1.sentinel_busy
    · rw [hpres p (List.mem_cons_of_mem _ hL)]
      exact hcore1.live_busy p hL
  have read_q : m'.elements q =
      { next_index := np, prev_index := p,
        is_free := (l2.elements p).is_free, element := v } := by
    show m.elements q = _
    rw [hm, in_place_apply, if_pos rfl]
  have mread : ∀ j, j ≠ p → j ≠ np → j ≠ q → m'.elements j = l2.elements j := by
    intro j h1 h2 h3
    show m.elements j = _
    rw [hm, in_place_apply, if_neg h3, if_neg h2, if_neg h1]
  have mflags : ∀ j, j ≠ q → (m'.elements j).is_free = (l2.elements j).is_free := by
    intro j h3
    show (m.elements j).is_free = _
    rw [hm, in_place_apply, if_neg h3]
    by_cases h2 : j = np
    · rw [if_pos h2]
      by_cases h4 : np = p
      · rw [if_pos h4]
        show (l2.elements p).is_free = _
        rw [← h4, ← h2]
      · rw [if_neg h4]
        show (l2.elements np).is_free = _
        rw [← h2]
    · rw [if_neg h2]
      by_cases h1 : j = p
      · rw [if_pos h1]
        show (l2.elements p).is_free = _
        rw [← h1]
      · rw [if_neg h1]
  have melem : ∀ j, j ≠ q → (m'.elements j).element = (l2.elements j).element := by
    intro j h3
    show (m.elements j).element = _
    rw [hm, in_place_apply, if_neg h3]
    by_cases h2 : j = np
    · rw [if_pos h2]
      by_cases h4 : np = p
      · rw [if_pos h4]
        show (l2.elements p).element = _
        rw [← h4, ← h2]
      · rw [if_neg h4]
        show (l2.elements np).element = _
        rw [← h2]
    · rw [if_neg h2]
      by_cases h1 : j = p
      · rw [if_pos h1]
        show (l2.elements p).element = _
        rw [← h1]
      · rw [if_neg h1]
  have hperm := spliceAfterL_perm q hp hcore1.nodup
  have memS : ∀ x, x ∈ spliceAfterL L p q ↔ x = q ∨ x ∈ L := by
    intro x
    rw [hperm.mem_iff, List.mem_cons]
  have hchain : links m'.elements 0 (spliceAfterL L p q) 0 :=
    live_splice l2 L v p q hchain2 hcore1.nodup hp hq0 hq_notL
  have hfreeS : ∀ i, i ∈ slotRange l1.capacity → i ∉ spliceAfterL L p q →
      i ∉ L ∧ i ≠ q ∧ i ≠ p ∧ i ≠ np := by
    intro i hir hiS
    have h1 : i ∉ L := fun h => hiS ((memS i).mpr (Or.inr h))
    have h2 : i ≠ q := fun h => hiS ((memS i).mpr (Or.inl h))
    have h3 : i ≠ p := by
      intro h
      rcases List.mem_cons.mp hp with h0 | hL
      · exact zero_not_mem_slotRange (by rw [← h0, ← h]; exact hir)
      · exact h1 (by rw [h]; exact hL)
    have h4 : i ≠ np := by
      intro h
      rcases hnp_live with h5 | h5
      · exact h1 (by rw [h]; exact h5)
      · exact zero_not_mem_slotRange (by rw [← h5, ← h]; exact hir)
    exact ⟨h1, h2, h3, h4⟩
  have hcapm : m'.capacity = l1.capacity := hcap
  have husedm : m'.used = l2.used + 1 := rfl
  refine ⟨⟨?_, ?_, ?_⟩, ?_, ?_, ?_⟩
  · rw [show m'.capacity = l1.capacity from hcapm]
    refine ⟨hchain, ?_, ?_, ?_, ?_, ?_, ?_, ?_, ?_, ?_⟩
    · -- nodup
      refine List.Nodup.cons ?_ (hperm.nodup_iff.mpr ?_)
      · intro h
        rcases (memS 0).mp h with h | h
        · exact hq0 h.symm
        · exact h0L h
      · exact List.Nodup.cons hq_notL (List.nodup_cons.mp hcore1.nodup).2
    · -- range
      intro i hi
      rcases (memS i).mp hi with rfl | hi
      · exact hq_range
      · exact hcore1.range i hi
    · -- live_busy
      intro i hi
      rcases (memS i).mp hi with rfl | hi
      · rw [read_q]
        exact flag_p
    
      · have hiq : i ≠ q := fun h => hq_notL (h ▸ hi)
        rw [mflags i hiq, hflags2 i]
        exact hcore1.live_busy i hi
    · -- sentinel_busy
      rw [mflags 0 (fun h => hq0 h.symm), hflags2 0]
      exact hcore1.sentinel_busy
    · -- used_eq
      rw [husedm, hused, hcore1.used_eq, hperm.length_eq]
      rfl
    · -- free_flag
      intro i hir hiS
      obtain ⟨h1, h2, h3, h4⟩ := hfreeS i hir hiS
      rw [mflags i h2]
      exact (hfreeD i hir h1 h2).1
    · -- free_next
      intro i hir hiS
      obtain ⟨h1, h2, h3, h4⟩ := hfreeS i hir hiS
      rw [mread i h3 h4 h2]
      obtain ⟨-, hn, -, -⟩ := hfreeD i hir h1 h2
      refine ⟨hn.1, fun h => ?_⟩
      rcases (memS _).mp h with h | h
      · exact hn.2.2 h
      · exact hn.2.1 h
    · -- free_prev
      intro i hir hiS
      obtain ⟨h1, h2, h3, h4⟩ := hfreeS i hir hiS
      rw [mread i h3 h4 h2]
      obtain ⟨-, -, hn, -⟩ := hfreeD i hir h1 h2
      refine ⟨hn.1, fun h => ?_⟩
      rcases (memS _).mp h with h | h
      · exact hn.2.2 h
      · exact hn.2.1 h
    · -- free_inv
      intro i hir hiS
      obtain ⟨h1, h2, h3, h4⟩ := hfreeS i hir hiS
      rw [mread i h3 h4 h2]
      obtain ⟨-, hn, hpv, hi1, hi2⟩ := hfreeD i hir h1 h2
      have hnS : (l2.elements i).next_index ∉ spliceAfterL L p q := fun h => by
        rcases (memS _).mp h with h | h
        · exact hn.2.2 h
        · exact hn.2.1 h
      have hpS : (l2.elements i).prev_index ∉ spliceAfterL L p q := fun h => by
        rcases (memS _).mp h with h | h
        · exact hpv.2.2 h
        · exact hpv.2.1 h
      obtain ⟨-, -, hn3, hn4⟩ := hfreeS _ hn.1 hnS
      obtain ⟨-, -, hp3, hp4⟩ := hfreeS _ hpv.1 hpS
      rw [mread _ hn3 hn4 hn.2.2, mread _ hp3 hp4 hpv.2.2]
      exact ⟨hi1, hi2⟩
  · -- free pointer
    show m.free ∈ slotRange m'.capacity
    rw [show m'.capacity = l1.capacity from hcapm]
    exact hfree2.1
  · show m.free ∉ spliceAfterL L p q
    intro h
    rcases (memS _).mp h with h | h
    · exact hfree2.2.2 h
    · exact hfree2.2.1 h
  · -- elements preserved on the old live cycle
    intro j hj
    have hjq : j ≠ q := by
      intro h
      rcases List.mem_cons.mp hj with h0 | hL
      · exact hq0 (h ▸ h0 : q = 0)
      · exact hq_notL (h ▸ hL)
    rw [melem j hjq]
    rw [hpres j hj]
  · rw [read_q]
  · rw [husedm, hused]

theorem insert_after_WF {E : Type} [Inhabited E] {l l' : linked_list E}
    {L : List Int} {v : E} {p q : Int}
    (hwf : WF l L) (hp : p ∈ (0 : Int) :: L)
    (hs : linked_list_insert_after l v p = some (l', q)) :
    WF l' (spliceAfterL L p q) ∧ q ∉ L ∧ q ≠ 0 ∧
    l'.used = l.used + 1 ∧
    (∀ j ∈ (0 : Int) :: L, (l'.elements j).element = (l.elements j).element) ∧
    (l'.elements q).element = v := by
  classical
  have hp_nonneg : 0 ≤ p := by
    rcases List.mem_cons.mp hp with rfl | hL
    · exact le_refl 0
    · have := mem_slotRange.mp (hwf.core.range p hL)
      omega
  have hp_ub : p ≤ (l.capacity : Int) + 1 := by
    rcases List.mem_cons.mp hp with rfl | hL
    · positivity
    · have := mem_slotRange.mp (hwf.core.range p hL)
      omega
  have hchk : check_index l p = true := by
    unfold check_index
    split_ifs with hc1 hc2
    · omega
    · omega
    · rfl
  rw [linked_list_insert_after] at hs
  rw [if_neg (by rw [hchk]; exact fun h => Bool.noConfusion h)] at hs
  set l1 := if free_elements_left l = false
    then linked_list_resize l (l.capacity * 2) else l with hl1
  have h1 : WF l1 L ∧ (∀ j ∈ (0 : Int) :: L, l1.elements j = l.elements j) ∧
      l1.used = l.used := by
    rw [hl1]
    split_ifs with hfe
    · have := resize_WF hwf (l.capacity * 2) (by omega)
      exact ⟨this.1, this.2.1, this.2.2.2.1⟩
    · exact ⟨hwf, fun j _ => rfl, rfl⟩
  obtain ⟨h1wf, h1pres, h1used⟩ := h1
  by_cases hcond : p ≤ (l1.capacity : Int) ∧ is_free_element l1 (p + 1) = true
  · -- raw successor slot is free: the place is p+1
    rw [if_pos hcond] at hs
    cases hOP : get_free_element_on_place l1 (p + 1) with
    | none =>
      rw [hOP] at hs
      cases hs
    | some l2 =>
      rw [hOP] at hs
      have hq_range : p + 1 ∈ slotRange l1.capacity := by
        rw [mem_slotRange]
        omega
      have hq_notL : p + 1 ∉ L := by
        intro h
        have := h1wf.core.live_busy _ h
        rw [show is_free_element l1 (p + 1) = (l1.elements (p + 1)).is_free
          from rfl, this] at hcond
        exact Bool.noConfusion hcond.2
      have hne : (l1.elements (p + 1)).next_index ≠ p + 1 := by
        intro h
        rw [get_free_element_on_place, hcond.2] at hOP
        simp only [Bool.true_eq_false, if_false, if_pos h] at hOP
        exact Option.noConfusion hOP
      obtain ⟨l2d, heq, hprops⟩ := detach_free h1wf hq_range hq_notL hne
      rw [hOP] at heq
      have hl2 : l2 = l2d := by
        injection heq
      subst hl2
      obtain ⟨hchain2, hpres2, hfreeD, hfree2, hcap2, hused2, hlin2, hflags2⟩ :=
        hprops
      have hq0 : p + 1 ≠ 0 := by omega
      have asm := splice_assemble l1 l2 L v p (p + 1) h1wf hp hq_range hq_notL
        hq0 hcap2 hused2 hchain2 hpres2 hfreeD hfree2 hflags2
      have hpair := hs
      rw [Option.some.injEq, Prod.mk.injEq] at hpair
      obtain ⟨hl'eq, hqeq⟩ := hpair
      subst hqeq
      rw [← hl'eq]
      refine ⟨asm.1, hq_notL, hq0, ?_, ?_, asm.2.2.1⟩
      · rw [asm.2.2.2, h1used]
      · intro j hj
        rw [asm.2.1 j hj, h1pres j hj]
  · -- take the head of the free ring
    rw [if_neg hcond] at hs
    cases hGF : get_free_element l1 with
    | none =>
      rw [hGF] at hs
      cases hs
    | some pr =>
      rw [hGF] at hs
      obtain ⟨l2, place⟩ := pr
      rw [get_free_element] at hGF
      cases hOP : get_free_element_on_place l1 l1.free with
      | none =>
        rw [hOP] at hGF
        cases hGF
      | some l2b =>
        rw [hOP] at hGF
        have hl2 : l2b = l2 ∧ l1.free = place := by
          constructor
          · injection hGF with h
            injection h
          · injection hGF with h
            injection h with ha hb
        obtain ⟨hl2b, hplace⟩ := hl2
        subst hl2b
        subst hplace
        have hq_range : l1.free ∈ slotRange l1.capacity := h1wf.free_mem
        have hq_notL : l1.free ∉ L := h1wf.free_not_live
        have hq0 : l1.free ≠ 0 := by
          have := mem_slotRange.mp hq_range
          omega
        have hflag : (l1.elements l1.free).is_free = true :=
          h1wf.core.free_flag _ hq_range hq_notL
        have hne : (l1.elements l1.free).next_index ≠ l1.free := by
          intro h
          rw [get_free_element_on_place,
            show is_free_element l1 l1.free = true from hflag] at hOP
          simp only [Bool.true_eq_false, if_false, if_pos h] at hOP
          exact Option.noConfusion hOP
        obtain ⟨l2d, heq, hprops⟩ := detach_free h1wf hq_range hq_notL hne
        rw [hOP] at heq
        have hl2 : l2b = l2d := by
          injection heq
        subst hl2
        obtain ⟨hchain2, hpres2, hfreeD, hfree2, hcap2, hused2, hlin2, hflags2⟩ :=
          hprops
        set l2' : linked_list E := { l2b with is_linearized := false } with hl2'
        have asm := splice_assemble l1 l2' L v p l1.free h1wf hp hq_range
          hq_notL hq0 hcap2 hused2 hchain2 hpres2 hfreeD hfree2 hflags2
        have hpair := hs
        rw [Option.some.injEq, Prod.mk.injEq] at hpair
        obtain ⟨hl'eq, hqeq⟩ := hpair
        subst hqeq
        rw [← hl'eq]
        refine ⟨asm.1, hq_notL, hq0, ?_, ?_, asm.2.2.1⟩
        · rw [asm.2.2.2, h1used]
        · intro j hj
          rw [asm.2.1 j hj, h1pres j hj]

theorem delete_WF {E : Type} [Inhabited E] {l : linked_list E} {L : List Int}
    {i : Int} (hwf : WF l L) (hi : i ∈ L) :
    ∃ l', linked_list_delete l i = some l' ∧
      WF l' (L.erase i) ∧
      l'.used = l.used - 1 ∧
      (∀ j ∈ (0 : Int) :: L.erase i,
        (l'.elements j).element = (l.elements j).element) := by
  classical
  obtain ⟨hcore, hfm, hfl⟩ := hwf
  have hir : i ∈ slotRange l.capacity := hcore.range i hi
  have hi0 : i ≠ 0 := by
    have := mem_slotRange.mp hir
    omega
  have hchk : check_index l i = true := by
    unfold check_index
    have := mem_slotRange.mp hir
    split_ifs with h1 h2
    · omega
    · omega
    · rfl
  set la : linked_list E :=
    if (l.elements i).next_index ≠ linked_list_head_index l ∧
        (l.elements i).prev_index ≠ linked_list_head_index l
      then { l with is_linearized := false } else l with hla
  have hlae : la.elements = l.elements := by
    rw [hla]
    split_ifs <;> rfl
  have hlac : la.capacity = l.capacity := by
    rw [hla]
    split_ifs <;> rfl
  have hlau : la.used = l.used := by
    rw [hla]
    split_ifs <;> rfl
  have hlaf : la.free = l.free := by
    rw [hla]
    split_ifs <;> rfl
  have hchkla : check_index la i = true := by
    unfold check_index
    rw [hlac]
    unfold check_index at hchk
    exact hchk
  set lb : linked_list E :=
    { la with
      elements :=
        (upd (upd la.elements (la.elements i).prev_index
          fun e => { e with next_index := (la.elements i).next_index })
          (la.elements i).next_index
          fun e => { e with prev_index := (la.elements i).prev_index }) } with hlb
  have hunlink : linked_list_unlink la i = some lb := by
    rw [linked_list_unlink,
      if_neg (by rw [hchkla]; exact fun h => Bool.noConfusion h)]
  have hdel : linked_list_delete l i =
      some { add_free_element lb i with
        used := (add_free_element lb i).used - 1 } := by
    rw [linked_list_delete,
      if_neg (by rw [hchk]; exact fun h => Bool.noConfusion h)]
    simp only []
    rw [← hla, hunlink]
  refine ⟨_, hdel, ?_⟩
  -- decompose the live cycle around i
  obtain ⟨A, B, rfl⟩ := List.append_of_mem hi
  have hnodup := hcore.nodup
  have h0L : (0 : Int) ∉ A ++ i :: B := (List.nodup_cons.mp hnodup).1
  have hnd := (List.nodup_cons.mp hnodup).2
  have hiA : i ∉ A := by
    rw [List.nodup_append] at hnd
    exact fun h => hnd.2.2 h (List.mem_cons_self _ _)
  have hiB : i ∉ B :=
    fun h => (List.nodup_cons.mp (List.nodup_middle.mp hnd)).1
      (List.mem_append.mpr (Or.inr h))
  have herase : (A ++ i :: B).erase i = A ++ B := by
    rw [List.erase_append_right _ hiA, List.erase_cons_head]
  have hlbe : lb.elements =
      (upd (upd l.elements (l.elements i).prev_index
        fun e => { e with next_index := (l.elements i).next_index })
        (l.elements i).next_index
        fun e => { e with prev_index := (l.elements i).prev_index }) := by
    show (upd (upd la.elements (la.elements i).prev_index
      fun e => { e with next_index := (la.elements i).next_index })
      (la.elements i).next_index
      fun e => { e with prev_index := (la.elements i).prev_index }) = _
    rw [hlae]
  have hchainb : links lb.elements 0 (A ++ B) 0 := by
    rw [hlbe]
    exact live_unsplice l A B i hcore.chain hnodup
  set pi := (l.elements i).prev_index with hpi
  set ni := (l.elements i).next_index with hni
  have hpi_where : pi ∈ A ++ i :: B ∨ pi = 0 :=
    (links_prev_facts l.elements (A ++ i :: B) 0 0 hcore.chain i
      (List.mem_append.mpr (Or.inl (List.mem_append.mpr
        (Or.inr (List.mem_cons_self _ _)))))).2
  have hni_where : ni ∈ A ++ i :: B ∨ ni = 0 :=
    (links_next_facts l.elements (A ++ i :: B) 0 0 hcore.chain i
      (List.mem_cons_of_mem _ hi)).2
  have hlb_read : ∀ j, j ≠ pi → j ≠ ni → lb.elements j = l.elements j := by
    intro j h1 h2
    rw [hlbe, upd_apply, if_neg h2, upd_apply, if_neg h1]
  have hlb_flags : ∀ j, (lb.elements j).is_free = (l.elements j).is_free := by
    intro j
    rw [hlbe]
    show (upd _ ni _ j).is_free = _
    simp only [upd_apply]
    split_ifs with h1 h2 h3
    · rw [h1, h2]
    · rw [h1]
    · rw [h3]
    · rfl
  have hlb_elem : ∀ j, (lb.elements j).element = (l.elements j).element := by
    intro j
    rw [hlbe]
    show (upd _ ni _ j).element = _
    simp only [upd_apply]
    split_ifs with h1 h2 h3
    · rw [h1, h2]
    · rw [h1]
    · rw [h3]
    · rfl
  -- the free set of l, untouched by the unlink
  set F0 : List Int := (slotRange l.capacity).filter
    (fun x => x ∉ A ++ i :: B) with hF0
  have hmemF0 : ∀ x : Int, x ∈ F0 ↔
      x ∈ slotRange l.capacity ∧ x ∉ A ++ i :: B := by
    intro x
    rw [hF0, List.mem_filter]
    simp
  have hnotF0 : ∀ x, x ∈ A ++ i :: B ∨ x = 0 → x ∉ F0 := by
    intro x hx hmem
    obtain ⟨h1, h2⟩ := (hmemF0 x).mp hmem
    rcases hx with hx | hx
    · exact h2 hx
    · exact zero_not_mem_slotRange (hx ▸ h1)
  have hFRlb : FreeRingOn lb F0 := by
    intro j hj
    obtain ⟨hjr, hjL⟩ := (hmemF0 j).mp hj
    have hjpi : j ≠ pi := by
      intro h
      exact hnotF0 pi hpi_where (h ▸ hj)
    have hjni : j ≠ ni := by
      intro h
      exact hnotF0 ni hni_where (h ▸ hj)
    rw [hlb_read j hjpi hjni]
    have hn := hcore.free_next j hjr hjL
    have hp := hcore.free_prev j hjr hjL
    have hnF0 : (l.elements j).next_index ∈ F0 := (hmemF0 _).mpr hn
    have hpF0 : (l.elements j).prev_index ∈ F0 := (hmemF0 _).mpr hp
    refine ⟨hcore.free_flag j hjr hjL, hnF0, hpF0, ?_, ?_⟩
    · rw [hlb_read _ (fun h => hnotF0 pi hpi_where (h ▸ hnF0))
        (fun h => hnotF0 ni hni_where (h ▸ hnF0))]
      exact (hcore.free_inv j hjr hjL).1
    · rw [hlb_read _ (fun h => hnotF0 pi hpi_where (h ▸ hpF0))
        (fun h => hnotF0 ni hni_where (h ▸ hpF0))]
      exact (hcore.free_inv j hjr hjL).2
  have hfreeF0 : lb.free ∈ F0 := by
    have : lb.free = l.free := hlaf
    rw [this]
    exact (hmemF0 _).mpr ⟨hfm, hfl⟩
  have hiF0 : i ∉ F0 := hnotF0 i (Or.inl hi)
  have hsplice := FreeRingOn_splice (l := lb) (default : E) hFRlb hfreeF0 hiF0
  set lc := add_free_element lb i with hlc
  have hFRc : FreeRingOn lc (i :: F0) := hsplice.1
  have huntouched : ∀ j, j ∉ F0 → j ≠ i → lc.elements j = lb.elements j :=
    hsplice.2
  have hlive_untouched : ∀ j, j ∈ (0 : Int) :: (A ++ B) →
      lc.elements j = lb.elements j := by
    intro j hj
    rcases List.mem_cons.mp hj with rfl | hj
    · exact huntouched 0 (hnotF0 0 (Or.inr rfl)) hi0.symm
    · rcases List.mem_append.mp hj with hj | hj
      · exact huntouched j
          (hnotF0 j (Or.inl (List.mem_append.mpr (Or.inl hj))))
          (fun h => hiA (h ▸ hj))
      · exact huntouched j
          (hnotF0 j (Or.inl (List.mem_append.mpr
            (Or.inr (List.mem_cons_of_mem _ hj)))))
          (fun h => hiB (h ▸ hj))
  have hcapeq : ({ lc with used := lc.used - 1 } : linked_list E).capacity
      = l.capacity := hlac
  have hfreeeq : ({ lc with used := lc.used - 1 } : linked_list E).free
      = l.free := hlaf
  have hiAB : i ∉ A ++ B := by
    intro h
    rcases List.mem_append.mp h with h | h
    · exact hiA h
    · exact hiB h
  have hmem_sub : ∀ x : Int, x ∈ A ++ B → x ∈ A ++ i :: B := by
    intro x hx
    rcases List.mem_append.mp hx with hx | hx
    · exact List.mem_append.mpr (Or.inl hx)
    · exact List.mem_append.mpr (Or.inr (List.mem_cons_of_mem _ hx))
  have hback : ∀ y : Int, y ∈ i :: F0 →
      y ∈ slotRange l.capacity ∧ y ∉ A ++ B := by
    intro y hy
    rcases List.mem_cons.mp hy with rfl | hy
    · exact ⟨hir, hiAB⟩
    · obtain ⟨h1, h2⟩ := (hmemF0 y).mp hy
      exact ⟨h1, fun h => h2 (hmem_sub y h)⟩
  have hfwd : ∀ x : Int, x ∈ slotRange l.capacity → x ∉ A ++ B →
      x ∈ i :: F0 := by
    intro x h1 h2
    by_cases hx : x = i
    · rw [hx]
      exact List.mem_cons_self _ _
    · refine List.mem_cons_of_mem _ ((hmemF0 x).mpr ⟨h1, ?_⟩)
      intro h
      rcases List.mem_append.mp h with h | h
      · exact h2 (List.mem_append.mpr (Or.inl h))
      · rcases List.mem_cons.mp h with h | h
        · exact hx h
        · exact h2 (List.mem_append.mpr (Or.inr h))
  rw [herase]
  refine ⟨⟨?_, ?_, ?_⟩, ?_, ?_⟩
  · rw [hcapeq]
    refine ⟨?_, ?_, ?_, ?_, ?_, ?_, ?_, ?_, ?_, ?_⟩
    · -- chain
      refine links_congr (A ++ B) 0 0 (fun a ha => ?_) (fun a ha => ?_)
        hchainb
      · rw [hlive_untouched a ha]
      · rcases List.mem_append.mp ha with ha | ha
        · rw [hlive_untouched a (List.mem_cons_of_mem _ ha)]
        · rcases List.mem_singleton.mp ha with rfl
          rw [hlive_untouched 0 (List.mem_cons_self _ _)]
    · -- nodup
      have hsub : List.Sublist ((0 : Int) :: (A ++ B))
          ((0 : Int) :: (A ++ i :: B)) :=
        List.Sublist.cons₂ 0 (List.Sublist.append_left (List.sublist_cons_self i B) A)
      exact List.Nodup.sublist hsub hnodup
    · -- range
      intro x hx
      exact hcore.range x (hmem_sub x hx)
    · -- live_busy
      intro x hx
      show (lc.elements x).is_free = false
      rw [hlive_untouched x (List.mem_cons_of_mem _ hx), hlb_flags]
      exact hcore.live_busy x (hmem_sub x hx)
    · -- sentinel_busy
      show (lc.elements 0).is_free = false
      rw [hlive_untouched 0 (List.mem_cons_self _ _), hlb_flags]
      exact hcore.sentinel_busy
    · -- used_eq
      show la.used - 1 = (A ++ B).length
      rw [hlau, hcore.used_eq]
      simp [List.length_append]
    · -- free_flag
      intro x h1 h2
      exact (hFRc x (hfwd x h1 h2)).1
    · -- free_next
      intro x h1 h2
      have h := hFRc x (hfwd x h1 h2)
      exact hback _ h.2.1
    · -- free_prev
      intro x h1 h2
      have h := hFRc x (hfwd x h1 h2)
      exact hback _ h.2.2.1
    · -- free_inv
      intro x h1 h2
      have h := hFRc x (hfwd x h1 h2)
      exact ⟨h.2.2.2.1, h.2.2.2.2⟩
  · -- free pointer in range
    rw [hfreeeq, hcapeq]
    exact hfm
  · -- free pointer not live
    rw [hfreeeq]
    intro h
    exact hfl (hmem_sub _ h)
  · -- used decremented
    show la.used - 1 = l.used - 1
    rw [hlau]
  · -- element payloads preserved
    intro j hj
    show (lc.elements j).element = _
    rw [hlive_untouched j hj, hlb_elem]

theorem ArenaReached_WF {l : linked_list Int} (h : ArenaReached l) :
    ∃ L, WF l L := by
  induction h with
  | created capacity => exact ⟨[], create_WF Int capacity⟩
  | inserted l l' v p idx hr hlive hs ih =>
    obtain ⟨L, hwf⟩ := ih
    have hchk : check_index l p = true := by
      by_contra hc
      rw [Bool.not_eq_true] at hc
      rw [linked_list_insert_after, if_pos hc] at hs
      exact Option.noConfusion hs
    have hp : p ∈ (0 : Int) :: L := by
      unfold check_index at hchk
      by_cases hp0 : p = 0
      · rw [hp0]
        exact List.mem_cons_self _ _
      · have hbounds : p ≤ (l.capacity : Int) + 1 ∧ 0 ≤ p := by
          split_ifs at hchk with h1 h2
          omega
        have hpr : p ∈ slotRange l.capacity := by
          rw [mem_slotRange]
          omega
        by_cases hpL : p ∈ L
        · exact List.mem_cons_of_mem _ hpL
        · rw [hwf.core.free_flag p hpr hpL] at hlive
          exact Bool.noConfusion hlive
    exact ⟨spliceAfterL L p idx, (insert_after_WF hwf hp hs).1⟩
  | deleted l l' i hr hlive hi0 hs ih =>
    obtain ⟨L, hwf⟩ := ih
    have hchk : check_index l i = true := by
      by_contra hc
      rw [Bool.not_eq_true] at hc
      rw [linked_list_delete, if_pos hc] at hs
      exact Option.noConfusion hs
    have hiL : i ∈ L := by
      unfold check_index at hchk
      have hbounds : i ≤ (l.capacity : Int) + 1 ∧ 0 ≤ i := by
        split_ifs at hchk with h1 h2
        omega
      have hir : i ∈ slotRange l.capacity := by
        rw [mem_slotRange]
        omega
      by_cases hiL : i ∈ L
      · exact hiL
      · rw [hwf.core.free_flag i hir hiL] at hlive
        exact Bool.noConfusion hlive
    obtain ⟨l'', hdel, hwf', -, -⟩ := delete_WF hwf hiL
    rw [hs] at hdel
    have : l' = l'' := by injection hdel
    exact ⟨L.erase i, this ▸ hwf'⟩

/-- C8 (amended): for every arena reached from `linked_list_create` by
successful `linked_list_insert_after` calls whose `prev_index` is a live slot
or the sentinel, and successful `linked_list_delete` calls on live non-sentinel
slots, one full forward traversal succeeds and visits exactly `used`
elements.  (The original claim over all sequences fails:
`linked_list_delete` never checks `is_free`, so deleting a free slot also
"succeeds" and breaks the equality — see the counterexample.) -/
theorem c8_live_discipline_used_eq_traversal (l : linked_list Int)
    (h : ArenaReached l) :
    ∃ vs : List Int, linked_list_traverse l = some vs ∧ vs.length = l.used := by
  obtain ⟨L, hwf⟩ := ArenaReached_WF h
  refine ⟨L.map fun i => (l.elements i).element, WFat_traverse hwf.core, ?_⟩
  rw [List.length_map, hwf.core.used_eq]

theorem c8_live_discipline_used_eq_traversal_witness :
    ∃ vs : List Int, linked_list_traverse (linked_list_create Int 4) = some vs ∧
      vs.length = (linked_list_create Int 4).used :=
  c8_live_discipline_used_eq_traversal (linked_list_create Int 4)
    (ArenaReached.created 4)

theorem links_last_prev {E : Type} (f : Int → element E) :
    ∀ (ys : List Int) (x z : Int), links f x ys z →
    (f z).prev_index = (x :: ys).getLast (List.cons_ne_nil x ys) := by
  intro ys
  induction ys with
  | nil =>
    intro x z h
    exact h.2
  | cons y ys ih =>
    intro x z h
    obtain ⟨h1, h2, h3⟩ := h
    rw [List.getLast_cons (List.cons_ne_nil y ys)]
    exact ih y z h3

theorem spliceAfter_getLast (q : Int) :
    ∀ (L : List Int), L.Nodup → (h : L ≠ []) →
    spliceAfter L (L.getLast h) q = L ++ [q] := by
  intro L
  induction L with
  | nil =>
    intro _ h
    exact absurd rfl h
  | cons x xs ih =>
    intro hnd h
    match xs, hnd, ih with
    | [], _, _ =>
      show spliceAfter [x] x q = _
      rw [spliceAfter, if_pos rfl]
      rfl
    | y :: ys, hnd, ih =>
      have hne : x ≠ (y :: ys).getLast (List.cons_ne_nil y ys) := by
        intro hc
        exact (List.nodup_cons.mp hnd).1
          (hc ▸ List.getLast_mem (List.cons_ne_nil y ys))
      rw [show (x :: y :: ys).getLast (List.cons_ne_nil x (y :: ys)) =
        (y :: ys).getLast (List.cons_ne_nil y ys) from
          List.getLast_cons (List.cons_ne_nil y ys)]
      rw [spliceAfter, if_neg hne,
        ih (List.nodup_cons.mp hnd).2 (List.cons_ne_nil y ys)]
      rfl

theorem spliceAfterL_getLast (q : Int) (L : List Int)
    (hnd : ((0 : Int) :: L).Nodup) :
    spliceAfterL L (((0 : Int) :: L).getLast (List.cons_ne_nil 0 L)) q =
      L ++ [q] := by
  match L, hnd with
  | [], _ =>
    show spliceAfterL [] 0 q = _
    rw [spliceAfterL, if_pos rfl]
    rfl
  | x :: xs, hnd =>
    have hlast : ((0 : Int) :: x :: xs).getLast (List.cons_ne_nil 0 (x :: xs)) =
        (x :: xs).getLast (List.cons_ne_nil x xs) :=
      List.getLast_cons (List.cons_ne_nil x xs)
    rw [hlast]
    have hmem : (x :: xs).getLast (List.cons_ne_nil x xs) ∈ x :: xs :=
      List.getLast_mem (List.cons_ne_nil x xs)
    have hne0 : (x :: xs).getLast (List.cons_ne_nil x xs) ≠ 0 := by
      intro hc
      exact (List.nodup_cons.mp hnd).1 (hc ▸ hmem)
    rw [spliceAfterL, if_neg hne0]
    exact spliceAfter_getLast q (x :: xs) (List.nodup_cons.mp hnd).2
      (List.cons_ne_nil x xs)

theorem push_back_all_WF :
    ∀ (vs : List Int) (l : linked_list Int) (L : List Int)
      (l' : linked_list Int),
    WF l L → linked_list_push_back_all l vs = some l' →
    ∃ L', WF l' L' ∧
      (L'.map fun i => (l'.elements i).element) =
        (L.map fun i => (l.elements i).element) ++ vs := by
  intro vs
  induction vs with
  | nil =>
    intro l L l' hwf hs
    have : l = l' := by
      injection hs
    subst this
    exact ⟨L, hwf, by rw [List.append_nil]⟩
  | cons v vs ih =>
    intro l L l' hwf hs
    rw [linked_list_push_back_all] at hs
    cases hpb : linked_list_push_back l v with
    | none =>
      rw [hpb] at hs
      exact Option.noConfusion hs
    | some pr =>
      rw [hpb] at hs
      obtain ⟨l1, idx⟩ := pr
      have htail : linked_list_tail_index l =
          ((0 : Int) :: L).getLast (List.cons_ne_nil 0 L) := by
        show (l.elements linked_list_end_index).prev_index = _
        exact links_last_prev l.elements L 0 0 hwf.core.chain
      have hp : linked_list_tail_index l ∈ (0 : Int) :: L := by
        rw [htail]
        exact List.getLast_mem (List.cons_ne_nil 0 L)
      have hins := insert_after_WF hwf hp hpb
      obtain ⟨hwf1, hqL, hq0, hused1, hpres1, helem1⟩ := hins
      have hsplice : spliceAfterL L (linked_list_tail_index l) idx =
          L ++ [idx] := by
        rw [htail]
        exact spliceAfterL_getLast idx L hwf.core.nodup
      rw [hsplice] at hwf1
      obtain ⟨L', hwf', hmap⟩ := ih l1 (L ++ [idx]) l' hwf1 hs
      refine ⟨L', hwf', ?_⟩
      rw [hmap, List.map_append, List.append_assoc]
      congr 1
      · refine List.map_congr_left ?_
        intro a ha
        exact hpres1 a (List.mem_cons_of_mem _ ha)
      · show [(l1.elements idx).element] ++ vs = v :: vs
        rw [helem1]
        rfl

/-- C10: `linked_list_pop_back` deletes the slot at `linked_list_head_index`
— the logical head, exactly like `linked_list_pop_front` (the two functions
are identical) — so after pushing `v1 :: vs` with `push_back` onto a fresh
arena, one `pop_back` removes `v1` and the traversal yields `vs`. -/
theorem c10_pop_back_deletes_logical_head :
    (∀ l : linked_list Int, linked_list_pop_back l = linked_list_pop_front l) ∧
    ∀ (cap : Nat) (v1 : Int) (vs : List Int) (l' : linked_list Int),
      linked_list_push_back_all (linked_list_create Int cap) (v1 :: vs) =
        some l' →
      linked_list_traverse l' = some (v1 :: vs) ∧
      ∃ l'', linked_list_pop_back l' = some l'' ∧
        linked_list_traverse l'' = some vs := by
  refine ⟨fun l => rfl, ?_⟩
  intro cap v1 vs l' hpush
  obtain ⟨L', hwf', hmap⟩ :=
    push_back_all_WF (v1 :: vs) _ [] l' (create_WF Int cap) hpush
  rw [List.map_nil, List.nil_append] at hmap
  have htrav : linked_list_traverse l' = some (v1 :: vs) := by
    rw [WFat_traverse hwf'.core, hmap]
  refine ⟨htrav, ?_⟩
  match L', hwf', hmap with
  | [], _, hmap => exact absurd hmap (by simp)
  | w :: ws, hwf', hmap =>
    rw [List.map_cons] at hmap
    have hv1 : (l'.elements w).element = v1 := (List.cons.injEq _ _ _ _ ▸ hmap).1
    have hvs : (ws.map fun i => (l'.elements i).element) = vs :=
      (List.cons.injEq _ _ _ _ ▸ hmap).2
    obtain ⟨l'', hdel, hwf'', hused'', helem''⟩ :=
      delete_WF hwf' (List.mem_cons_self w ws)
    have hhead : linked_list_head_index l' = w := hwf'.core.chain.1
    have herase : (w :: ws).erase w = ws := List.erase_cons_head w ws
    refine ⟨l'', ?_, ?_⟩
    · show linked_list_delete l' (linked_list_head_index l') = some l''
      rw [hhead]
      exact hdel
    · rw [herase] at hwf'' helem''
      rw [WFat_traverse hwf''.core]
      rw [show (ws.map fun i => (l''.elements i).element) = vs from ?_]
      rw [← hvs]
      refine List.map_congr_left ?_
      intro a ha
      exact helem'' a (List.mem_cons_of_mem _ ha)

theorem c10_pop_back_deletes_logical_head_witness :
    (linked_list_pop_back (linked_list_create Int 1) =
      linked_list_pop_front (linked_list_create Int 1)) ∧
    (∃ l' : linked_list Int,
      linked_list_push_back_all (linked_list_create Int 2) [10, 20] = some l' ∧
      linked_list_traverse l' = some [10, 20] ∧
      ∃ l'', linked_list_pop_back l' = some l'' ∧
        linked_list_traverse l'' = some [20]) := by
  constructor
  · exact c10_pop_back_deletes_logical_head.1 (linked_list_create Int 1)
  · have hsome : (linked_list_push_back_all (linked_list_create Int 2)
        [10, 20]).isSome = true := by decide
    have hpush := (Option.some_get hsome).symm
    have h := c10_pop_back_deletes_logical_head.2 2 10 [20] _ hpush
    exact ⟨_, hpush, h.1, h.2⟩

theorem swapFn_invol (a b x : Int) : swapFn a b (swapFn a b x) = x := by
  rw [swapFn, swapFn]
  split_ifs with h1 h2 h3 h4 h5 h6 <;> omega

theorem swapFn_injective (a b : Int) : Function.Injective (swapFn a b) :=
  Function.LeftInverse.injective (g := swapFn a b) (swapFn_invol a b)

theorem links_relabel {E : Type} (f g : Int → element E) (σ : Int → Int) :
    ∀ (ys : List Int) (x z : Int), links f x ys z →
    (∀ c ∈ x :: ys, (g (σ c)).next_index = σ ((f c).next_index)) →
    (∀ c ∈ ys ++ [z], (g (σ c)).prev_index = σ ((f c).prev_index)) →
    links g (σ x) (ys.map σ) (σ z) := by
  intro ys
  induction ys with
  | nil =>
    intro x z h hn hp
    obtain ⟨h1, h2⟩ := h
    refine ⟨?_, ?_⟩
    · rw [hn x (List.mem_cons_self _ _), h1]
    · rw [hp z (List.mem_singleton_self _), h2]
  | cons y ys ih =>
    intro x z h hn hp
    obtain ⟨h1, h2, h3⟩ := h
    refine ⟨?_, ?_, ?_⟩
    · rw [hn x (List.mem_cons_self _ _), h1]
    · rw [hp y (by simp), h2]
    · refine ih y z h3 (fun c hc => hn c (List.mem_cons_of_mem _ hc))
        (fun c hc => hp c ?_)
      rcases List.mem_append.mp hc with hc | hc
      · exact List.mem_append.mpr (Or.inl (List.mem_cons_of_mem _ hc))
      · exact List.mem_append.mpr (Or.inr hc)

set_option maxHeartbeats 1000000 in
theorem swap_live_WF {l : linked_list Int} {L : List Int}
    (hwf : WF l L) {a b : Int} (ha : a ∈ L) (hb : b ∈ L) (hab : a ≠ b) :
    ∃ l2, linked_list_swap l a b = some l2 ∧
      WFat l2 l2.capacity (L.map (swapFn a b)) ∧
      (∀ c, (l2.elements (swapFn a b c)).is_free = (l.elements c).is_free ∧
        (l2.elements (swapFn a b c)).element = (l.elements c).element) ∧
      l2.used = l.used ∧ l2.capacity = l.capacity := by
  classical
  obtain ⟨hcore, hfm, hfl⟩ := hwf
  set f := l.elements with hf
  have h0L : (0 : Int) ∉ L := (List.nodup_cons.mp hcore.nodup).1
  have ha0 : a ≠ 0 := fun h => h0L (h ▸ ha)
  have hb0 : b ≠ 0 := fun h => h0L (h ▸ hb)
  have har : a ∈ slotRange l.capacity := hcore.range a ha
  have hbr : b ∈ slotRange l.capacity := hcore.range b hb
  have hchka : check_index l a = true := by
    unfold check_index
    have := mem_slotRange.mp har
    split_ifs with h1 h2
    · omega
    · omega
    · rfl
  have hchkb : check_index l b = true := by
    unfold check_index
    have := mem_slotRange.mp hbr
    split_ifs with h1 h2
    · omega
    · omega
    · rfl
  set pa := (f a).prev_index with hpa
  set na := (f a).next_index with hna
  set pb := (f b).prev_index with hpb
  set nb := (f b).next_index with hnb
  set z1 := upd f pa (fun e => { e with next_index := b }) with hz1
  set z2 := upd z1 na (fun e => { e with prev_index := b }) with hz2
  set z3 := upd z2 pb (fun e => { e with next_index := a }) with hz3
  set e4 := upd z3 nb (fun e => { e with prev_index := a }) with he4
  set l2 : linked_list Int :=
    { l with elements := setSlot (setSlot e4 a (e4 b)) b (e4 a) } with hl2
  set g := l2.elements with hg
  refine ⟨l2, ?_, ?_⟩
  · rw [linked_list_swap, if_neg hab,
      if_neg (by rw [hchka]; exact fun h => Bool.noConfusion h),
      if_neg (by rw [hchkb]; exact fun h => Bool.noConfusion h)]
  have hamem : a ∈ (0 : Int) :: L := List.mem_cons_of_mem _ ha
  have hbmem : b ∈ (0 : Int) :: L := List.mem_cons_of_mem _ hb
  have hamem' : a ∈ L ++ [(0 : Int)] := List.mem_append.mpr (Or.inl ha)
  have hbmem' : b ∈ L ++ [(0 : Int)] := List.mem_append.mpr (Or.inl hb)
  have hpaw : pa ∈ L ∨ pa = 0 :=
    (links_prev_facts f L 0 0 hcore.chain a hamem').2
  have hpbw : pb ∈ L ∨ pb = 0 :=
    (links_prev_facts f L 0 0 hcore.chain b hbmem').2
  have hnaw : na ∈ L ∨ na = 0 :=
    (links_next_facts f L 0 0 hcore.chain a hamem).2
  have hnbw : nb ∈ L ∨ nb = 0 :=
    (links_next_facts f L 0 0 hcore.chain b hbmem).2
  have hpa_next : (f pa).next_index = a :=
    (links_prev_facts f L 0 0 hcore.chain a hamem').1
  have hpb_next : (f pb).next_index = b :=
    (links_prev_facts f L 0 0 hcore.chain b hbmem').1
  have hna_prev : (f na).prev_index = a :=
    (links_next_facts f L 0 0 hcore.chain a hamem).1
  have hnb_prev : (f nb).prev_index = b :=
    (links_next_facts f L 0 0 hcore.chain b hbmem).1
  have huniq_next_a : ∀ c ∈ (0 : Int) :: L, (f c).next_index = a → c = pa := by
    intro c hc h
    have h1 := (links_next_facts f L 0 0 hcore.chain c hc).1
    rw [h] at h1
    exact (hpa.trans h1).symm
  have huniq_next_b : ∀ c ∈ (0 : Int) :: L, (f c).next_index = b → c = pb := by
    intro c hc h
    have h1 := (links_next_facts f L 0 0 hcore.chain c hc).1
    rw [h] at h1
    exact (hpb.trans h1).symm
  have huniq_prev_a : ∀ c ∈ L ++ [(0 : Int)], (f c).prev_index = a → c = na := by
    intro c hc h
    have h1 := (links_prev_facts f L 0 0 hcore.chain c hc).1
    rw [h] at h1
    exact (hna.trans h1).symm
  have huniq_prev_b : ∀ c ∈ L ++ [(0 : Int)], (f c).prev_index = b → c = nb := by
    intro c hc h
    have h1 := (links_prev_facts f L 0 0 hcore.chain c hc).1
    rw [h] at h1
    exact (hnb.trans h1).symm
  have hσ0 : swapFn a b 0 = 0 := by
    rw [swapFn, if_neg (fun h => ha0 h.symm), if_neg (fun h => hb0 h.symm)]
  have hga : g a = e4 b := by
    show setSlot (setSlot e4 a (e4 b)) b (e4 a) a = _
    rw [setSlot_apply, if_neg hab, setSlot_apply, if_pos rfl]
  have hgb : g b = e4 a := by
    show setSlot (setSlot e4 a (e4 b)) b (e4 a) b = _
    rw [setSlot_apply, if_pos rfl]
  have hgo : ∀ j, j ≠ a → j ≠ b → g j = e4 j := by
    intro j h1 h2
    show setSlot (setSlot e4 a (e4 b)) b (e4 a) j = _
    rw [setSlot_apply, if_neg h2, setSlot_apply, if_neg h1]
  have hgs : ∀ c, g (swapFn a b c) = e4 c := by
    intro c
    rw [swapFn]
    split_ifs with h1 h2
    · rw [h1]
      exact hgb
    · rw [h2]
      exact hga
    · exact hgo c h1 h2
  have s4 : ∀ k, (e4 k).next_index = (z3 k).next_index := by
    intro k
    rw [he4, upd_apply]
    by_cases h : k = nb
    · rw [if_pos h, h]
    · rw [if_neg h]
  have s3 : ∀ k, (z3 k).next_index = if k = pb then a else (z2 k).next_index := by
    intro k
    rw [hz3, upd_apply]
    by_cases h : k = pb
    · rw [if_pos h, if_pos h]
    · rw [if_neg h, if_neg h]
  have s2 : ∀ k, (z2 k).next_index = (z1 k).next_index := by
    intro k
    rw [hz2, upd_apply]
    by_cases h : k = na
    · rw [if_pos h, h]
    · rw [if_neg h]
  have s1 : ∀ k, (z1 k).next_index = if k = pa then b else (f k).next_index := by
    intro k
    rw [hz1, upd_apply]
    by_cases h : k = pa
    · rw [if_pos h, if_pos h]
    · rw [if_neg h, if_neg h]
  have he4n : ∀ j, (e4 j).next_index =
      if j = pb then a else if j = pa then b else (f j).next_index := by
    intro j
    rw [s4, s3, s2, s1]
  have p4 : ∀ k, (e4 k).prev_index = if k = nb then a else (z3 k).prev_index := by
    intro k
    rw [he4, upd_apply]
    by_cases h : k = nb
    · rw [if_pos h, if_pos h]
    · rw [if_neg h, if_neg h]
  have p3 : ∀ k, (z3 k).prev_index = (z2 k).prev_index := by
    intro k
    rw [hz3, upd_apply]
    by_cases h : k = pb
    · rw [if_pos h, h]
    · rw [if_neg h]
  have p2 : ∀ k, (z2 k).prev_index = if k = na then b else (z1 k).prev_index := by
    intro k
    rw [hz2, upd_apply]
    by_cases h : k = na
    · rw [if_pos h, if_pos h]
    · rw [if_neg h, if_neg h]
  have p1 : ∀ k, (z1 k).prev_index = (f k).prev_index := by
    intro k
    rw [hz1, upd_apply]
    by_cases h : k = pa
    · rw [if_pos h, h]
    · rw [if_neg h]
  have he4p : ∀ j, (e4 j).prev_index =
      if j = nb then a else if j = na then b else (f j).prev_index := by
    intro j
    rw [p4, p3, p2, p1]
  have q4 : ∀ k, (e4 k).is_free = (z3 k).is_free := by
    intro k
    rw [he4, upd_apply]
    by_cases h : k = nb
    · rw [if_pos h, h]
    · rw [if_neg h]
  have q3 : ∀ k, (z3 k).is_free = (z2 k).is_free := by
    intro k
    rw [hz3, upd_apply]
    by_cases h : k = pb
    · rw [if_pos h, h]
    · rw [if_neg h]
  have q2 : ∀ k, (z2 k).is_free = (z1 k).is_free := by
    intro k
    rw [hz2, upd_apply]
    by_cases h : k = na
    · rw [if_pos h, h]
    · rw [if_neg h]
  have q1 : ∀ k, (z1 k).is_free = (f k).is_free := by
    intro k
    rw [hz1, upd_apply]
    by_cases h : k = pa
    · rw [if_pos h, h]
    · rw [if_neg h]
  have he4f : ∀ j, (e4 j).is_free = (f j).is_free := by
    intro j
    rw [q4, q3, q2, q1]
  have r4 : ∀ k, (e4 k).element = (z3 k).element := by
    intro k
    rw [he4, upd_apply]
    by_cases h : k = nb
    · rw [if_pos h, h]
    · rw [if_neg h]
  have r3 : ∀ k, (z3 k).element = (z2 k).element := by
    intro k
    rw [hz3, upd_apply]
    by_cases h : k = pb
    · rw [if_pos h, h]
    · rw [if_neg h]
  have r2 : ∀ k, (z2 k).element = (z1 k).element := by
    intro k
    rw [hz2, upd_apply]
    by_cases h : k = na
    · rw [if_pos h, h]
    · rw [if_neg h]
  have r1 : ∀ k, (z1 k).element = (f k).element := by
    intro k
    rw [hz1, upd_apply]
    by_cases h : k = pa
    · rw [if_pos h, h]
    · rw [if_neg h]
  have he4e : ∀ j, (e4 j).element = (f j).element := by
    intro j
    rw [r4, r3, r2, r1]
  have he4full : ∀ j, j ≠ pa → j ≠ na → j ≠ pb → j ≠ nb → e4 j = f j := by
    intro j h1 h2 h3 h4
    rw [he4, upd_apply, if_neg h4, hz3, upd_apply, if_neg h3, hz2, upd_apply,
      if_neg h2, hz1, upd_apply, if_neg h1]
  have hnextconj : ∀ c ∈ (0 : Int) :: L,
      (g (swapFn a b c)).next_index = swapFn a b ((f c).next_index) := by
    intro c hc
    rw [hgs, he4n]
    by_cases h1 : c = pb
    · rw [if_pos h1, show (f c).next_index = b from by rw [h1]; exact hpb_next,
        swapFn, if_neg (fun h => hab h.symm), if_pos rfl]
    · by_cases h2 : c = pa
      · rw [if_neg h1, if_pos h2,
          show (f c).next_index = a from by rw [h2]; exact hpa_next,
          swapFn, if_pos rfl]
      · rw [if_neg h1, if_neg h2, swapFn,
          if_neg (fun h => h2 (huniq_next_a c hc h)),
          if_neg (fun h => h1 (huniq_next_b c hc h))]
  have hprevconj : ∀ c ∈ L ++ [(0 : Int)],
      (g (swapFn a b c)).prev_index = swapFn a b ((f c).prev_index) := by
    intro c hc
    rw [hgs, he4p]
    by_cases h1 : c = nb
    · rw [if_pos h1, show (f c).prev_index = b from by rw [h1]; exact hnb_prev,
        swapFn, if_neg (fun h => hab h.symm), if_pos rfl]
    · by_cases h2 : c = na
      · rw [if_neg h1, if_pos h2,
          show (f c).prev_index = a from by rw [h2]; exact hna_prev,
          swapFn, if_pos rfl]
      · rw [if_neg h1, if_neg h2, swapFn,
          if_neg (fun h => h2 (huniq_prev_a c hc h)),
          if_neg (fun h => h1 (huniq_prev_b c hc h))]
  have hchain2 : links g 0 (L.map (swapFn a b)) 0 := by
    have h := links_relabel f g (swapFn a b) L 0 0 hcore.chain hnextconj
      hprevconj
    rw [hσ0] at h
    exact h
  have hmemσ : ∀ x, x ∈ L.map (swapFn a b) ↔ x ∈ L := by
    intro x
    constructor
    · intro hx
      obtain ⟨y, hy, rfl⟩ := List.mem_map.mp hx
      rw [swapFn]
      split_ifs with h1 h2
      · exact hb
      · exact ha
      · exact hy
    · intro hx
      refine List.mem_map.mpr ⟨swapFn a b x, ?_, swapFn_invol a b x⟩
      rw [swapFn]
      split_ifs with h1 h2
      · exact hb
      · exact ha
      · exact hx
  have hfree_read : ∀ j, j ∈ slotRange l.capacity → j ∉ L →
      g j = f j := by
    intro j hjr hjL
    have hj0 : j ≠ 0 := by
      have := mem_slotRange.mp hjr
      omega
    have hja : j ≠ a := fun h => hjL (h ▸ ha)
    have hjb : j ≠ b := fun h => hjL (h ▸ hb)
    rw [hgo j hja hjb]
    refine he4full j ?_ ?_ ?_ ?_
    · intro h
      rcases hpaw with h5 | h5
      · exact hjL (h ▸ h5)
      · exact hj0 (h.trans h5)
    · intro h
      rcases hnaw with h5 | h5
      · exact hjL (h ▸ h5)
      · exact hj0 (h.trans h5)
    · intro h
      rcases hpbw with h5 | h5
      · exact hjL (h ▸ h5)
      · exact hj0 (h.trans h5)
    · intro h
      rcases hnbw with h5 | h5
      · exact hjL (h ▸ h5)
      · exact hj0 (h.trans h5)
  refine ⟨⟨hchain2, ?_, ?_, ?_, ?_, ?_, ?_, ?_, ?_, ?_⟩,
    fun c => ⟨by show (g (swapFn a b c)).is_free = _; rw [hgs, he4f],
      by show (g (swapFn a b c)).element = _; rw [hgs, he4e]⟩, rfl, rfl⟩
  · rw [List.nodup_cons]
    refine ⟨fun h => h0L ((hmemσ 0).mp h), ?_⟩
    exact List.Nodup.map (swapFn_injective a b)
      (List.nodup_cons.mp hcore.nodup).2
  · intro x hx
    exact hcore.range x ((hmemσ x).mp hx)
  · intro x hx
    obtain ⟨c, hcL, rfl⟩ := List.mem_map.mp hx
    show (g (swapFn a b c)).is_free = false
    rw [hgs, he4f]
    exact hcore.live_busy c hcL
  · show (g 0).is_free = false
    rw [hgo 0 (fun h => ha0 h.symm) (fun h => hb0 h.symm), he4f]
    exact hcore.sentinel_busy
  · show l.used = _
    rw [hcore.used_eq, List.length_map]
  · intro x h1 h2
    show (g x).is_free = true
    have h2' : x ∉ L := fun h => h2 ((hmemσ x).mpr h)
    rw [hfree_read x h1 h2']
    exact hcore.free_flag x h1 h2'
  · intro x h1 h2
    have h2' : x ∉ L := fun h => h2 ((hmemσ x).mpr h)
    show (g x).next_index ∈ _ ∧ (g x).next_index ∉ _
    rw [hfree_read x h1 h2']
    have h := hcore.free_next x h1 h2'
    exact ⟨h.1, fun hc => h.2 ((hmemσ _).mp hc)⟩
  · intro x h1 h2
    have h2' : x ∉ L := fun h => h2 ((hmemσ x).mpr h)
    show (g x).prev_index ∈ _ ∧ (g x).prev_index ∉ _
    rw [hfree_read x h1 h2']
    have h := hcore.free_prev x h1 h2'
    exact ⟨h.1, fun hc => h.2 ((hmemσ _).mp hc)⟩
  · intro x h1 h2
    have h2' : x ∉ L := fun h => h2 ((hmemσ x).mpr h)
    show (g ((g x).next_index)).prev_index = x ∧
      (g ((g x).prev_index)).next_index = x
    rw [hfree_read x h1 h2']
    have hn := hcore.free_next x h1 h2'
    have hp := hcore.free_prev x h1 h2'
    rw [hfree_read _ hn.1 hn.2, hfree_read _ hp.1 hp.2]
    exact hcore.free_inv x h1 h2'

/-- C9: for every pair of live slots `a`, `b` of a well-formed arena
(including adjacent slots and `a = b`, which is a no-op), `linked_list_swap`
succeeds, the traversal — the head-to-tail sequence of values — is unchanged,
and the values held in physical slots `a` and `b` are exchanged. -/
theorem c9_swap_preserves_traversal {l : linked_list Int} {L : List Int}
    (hwf : WF l L) {a b : Int} (ha : a ∈ L) (hb : b ∈ L) :
    ∃ l2, linked_list_swap l a b = some l2 ∧
      linked_list_traverse l2 = linked_list_traverse l ∧
      (l2.elements a).element = (l.elements b).element ∧
      (l2.elements b).element = (l.elements a).element ∧
      l2.used = l.used := by
  by_cases hab : a = b
  · subst hab
    refine ⟨l, ?_, rfl, rfl, rfl, rfl⟩
    rw [linked_list_swap, if_pos rfl]
  · obtain ⟨l2, hs, hwfat, hcont, hused, hcap⟩ := swap_live_WF hwf ha hb hab
    refine ⟨l2, hs, ?_, ?_, ?_, hused⟩
    · rw [WFat_traverse hwfat, WFat_traverse hwf.core]
      congr 1
      rw [List.map_map]
      refine List.map_congr_left ?_
      intro c hc
      show (l2.elements (swapFn a b c)).element = _
      exact (hcont c).2
    · have h := (hcont b).2
      rw [show swapFn a b b = a from by
        rw [swapFn, if_neg (fun h => hab h.symm), if_pos rfl]] at h
      exact h
    · have h := (hcont a).2
      rw [show swapFn a b a = b from by rw [swapFn, if_pos rfl]] at h
      exact h

theorem swap_demo_isSome :
    (linked_list_push_back_all (linked_list_create Int 2)
      [10, 20]).isSome = true := by decide

theorem c9_swap_preserves_traversal_witness :
    ∃ lw : linked_list Int,
      linked_list_push_back_all (linked_list_create Int 2) [10, 20] =
        some lw ∧
      ∃ l2, linked_list_swap lw 1 2 = some l2 ∧
        linked_list_traverse l2 = linked_list_traverse lw ∧
        (l2.elements 1).element = (lw.elements 2).element ∧
        (l2.elements 2).element = (lw.elements 1).element ∧
        l2.used = lw.used := by
  refine ⟨_, (Option.some_get swap_demo_isSome).symm, ?_⟩
  exact c9_swap_preserves_traversal (L := [1, 2])
    ⟨⟨by decide, by decide, by decide, by decide, by decide, by decide,
      by decide, by decide, by decide, by decide⟩, by decide, by decide⟩
    (by decide) (by decide)

set_option maxHeartbeats 1000000 in
theorem swap_slot_WF {l : linked_list Int} {L : List Int}
    (hcore : WFat l l.capacity L) {a b : Int} (ha : a ∈ L)
    (hbr : b ∈ slotRange l.capacity) (hab : a ≠ b) :
    ∃ l2, linked_list_swap l a b = some l2 ∧
      WFat l2 l2.capacity (L.map (swapFn a b)) ∧
      (∀ c, (l2.elements (swapFn a b c)).is_free = (l.elements c).is_free ∧
        (l2.elements (swapFn a b c)).element = (l.elements c).element) ∧
      l2.used = l.used ∧ l2.capacity = l.capacity := by
  classical
  set f := l.elements with hf
  set σ := swapFn a b with hσdef
  have h0L : (0 : Int) ∉ L := (List.nodup_cons.mp hcore.nodup).1
  have ha0 : a ≠ 0 := fun h => h0L (h ▸ ha)
  have har : a ∈ slotRange l.capacity := hcore.range a ha
  have hb0 : b ≠ 0 := by
    have := mem_slotRange.mp hbr
    omega
  have hchka : check_index l a = true := by
    unfold check_index
    have := mem_slotRange.mp har
    split_ifs with h1 h2
    · omega
    · omega
    · rfl
  have hchkb : check_index l b = true := by
    unfold check_index
    have := mem_slotRange.mp hbr
    split_ifs with h1 h2
    · omega
    · omega
    · rfl
  set pa := (f a).prev_index with hpa
  set na := (f a).next_index with hna
  set pb := (f b).prev_index with hpb
  set nb := (f b).next_index with hnb
  set z1 := upd f pa (fun e => { e with next_index := b }) with hz1
  set z2 := upd z1 na (fun e => { e with prev_index := b }) with hz2
  set z3 := upd z2 pb (fun e => { e with next_index := a }) with hz3
  set e4 := upd z3 nb (fun e => { e with prev_index := a }) with he4
  set l2 : linked_list Int :=
    { l with elements := setSlot (setSlot e4 a (e4 b)) b (e4 a) } with hl2
  set g := l2.elements with hg
  refine ⟨l2, ?_, ?_⟩
  · rw [linked_list_swap, if_neg hab,
      if_neg (by rw [hchka]; exact fun h => Bool.noConfusion h),
      if_neg (by rw [hchkb]; exact fun h => Bool.noConfusion h)]
  -- the membership domain: live cycle (with sentinel) or free slots
  set D : Int → Prop :=
    fun c => c ∈ (0 : Int) :: L ∨ (c ∈ slotRange l.capacity ∧ c ∉ L) with hD
  have hDa : D a := Or.inl (List.mem_cons_of_mem _ ha)
  have hDb : D b := by
    by_cases h : b ∈ L
    · exact Or.inl (List.mem_cons_of_mem _ h)
    · exact Or.inr ⟨hbr, h⟩
  have hinv_next : ∀ c, D c → (f ((f c).next_index)).prev_index = c := by
    intro c hc
    rcases hc with hc | ⟨h1, h2⟩
    · exact (links_next_facts f L 0 0 hcore.chain c hc).1
    · exact (hcore.free_inv c h1 h2).1
  have hinv_prev : ∀ c, D c → (f ((f c).prev_index)).next_index = c := by
    intro c hc
    rcases hc with hc | ⟨h1, h2⟩
    · rcases List.mem_cons.mp hc with rfl | hc
      · exact (links_prev_facts f L 0 0 hcore.chain 0
          (List.mem_append.mpr (Or.inr (List.mem_singleton_self _)))).1
      · exact (links_prev_facts f L 0 0 hcore.chain c
          (List.mem_append.mpr (Or.inl hc))).1
    · exact (hcore.free_inv c h1 h2).2
  have hpa_next : (f pa).next_index = a := hinv_prev a hDa
  have hpb_next : (f pb).next_index = b := hinv_prev b hDb
  have hna_prev : (f na).prev_index = a := hinv_next a hDa
  have hnb_prev : (f nb).prev_index = b := hinv_next b hDb
  have hun_next_a : ∀ c, D c → (f c).next_index = a → c = pa := by
    intro c hc h
    have h1 := hinv_next c hc
    rw [h] at h1
    exact (hpa.trans h1).symm
  have hun_next_b : ∀ c, D c → (f c).next_index = b → c = pb := by
    intro c hc h
    have h1 := hinv_next c hc
    rw [h] at h1
    exact (hpb.trans h1).symm
  have hun_prev_a : ∀ c, D c → (f c).prev_index = a → c = na := by
    intro c hc h
    have h1 := hinv_prev c hc
    rw [h] at h1
    exact (hna.trans h1).symm
  have hun_prev_b : ∀ c, D c → (f c).prev_index = b → c = nb := by
    intro c hc h
    have h1 := hinv_prev c hc
    rw [h] at h1
    exact (hnb.trans h1).symm
  have hσ0 : σ 0 = 0 := by
    rw [hσdef, swapFn, if_neg (fun h => ha0 h.symm),
      if_neg (fun h => hb0 h.symm)]
  have hga : g a = e4 b := by
    show setSlot (setSlot e4 a (e4 b)) b (e4 a) a = _
    rw [setSlot_apply, if_neg hab, setSlot_apply, if_pos rfl]
  have hgb : g b = e4 a := by
    show setSlot (setSlot e4 a (e4 b)) b (e4 a) b = _
    rw [setSlot_apply, if_pos rfl]
  have hgo : ∀ j, j ≠ a → j ≠ b → g j = e4 j := by
    intro j h1 h2
    show setSlot (setSlot e4 a (e4 b)) b (e4 a) j = _
    rw [setSlot_apply, if_neg h2, setSlot_apply, if_neg h1]
  have hgs : ∀ c, g (σ c) = e4 c := by
    intro c
    rw [hσdef, swapFn]
    split_ifs with h1 h2
    · rw [h1]
      exact hgb
    · rw [h2]
      exact hga
    · exact hgo c h1 h2
  have s4 : ∀ k, (e4 k).next_index = (z3 k).next_index := by
    intro k
    rw [he4, upd_apply]
    by_cases h : k = nb
    · rw [if_pos h, h]
    · rw [if_neg h]
  have s3 : ∀ k, (z3 k).next_index = if k = pb then a else (z2 k).next_index := by
    intro k
    rw [hz3, upd_apply]
    by_cases h : k = pb
    · rw [if_pos h, if_pos h]
    · rw [if_neg h, if_neg h]
  have s2 : ∀ k, (z2 k).next_index = (z1 k).next_index := by
    intro k
    rw [hz2, upd_apply]
    by_cases h : k = na
    · rw [if_pos h, h]
    · rw [if_neg h]
  have s1 : ∀ k, (z1 k).next_index = if k = pa then b else (f k).next_index := by
    intro k
    rw [hz1, upd_apply]
    by_cases h : k = pa
    · rw [if_pos h, if_pos h]
    · rw [if_neg h, if_neg h]
  have he4n : ∀ j, (e4 j).next_index =
      if j = pb then a else if j = pa then b else (f j).next_index := by
    intro j
    rw [s4, s3, s2, s1]
  have p4 : ∀ k, (e4 k).prev_index = if k = nb then a else (z3 k).prev_index := by
    intro k
    rw [he4, upd_apply]
    by_cases h : k = nb
    · rw [if_pos h, if_pos h]
    · rw [if_neg h, if_neg h]
  have p3 : ∀ k, (z3 k).prev_index = (z2 k).prev_index := by
    intro k
    rw [hz3, upd_apply]
    by_cases h : k = pb
    · rw [if_pos h, h]
    · rw [if_neg h]
  have p2 : ∀ k, (z2 k).prev_index = if k = na then b else (z1 k).prev_index := by
    intro k
    rw [hz2, upd_apply]
    by_cases h : k = na
    · rw [if_pos h, if_pos h]
    · rw [if_neg h, if_neg h]
  have p1 : ∀ k, (z1 k).prev_index = (f k).prev_index := by
    intro k
    rw [hz1, upd_apply]
    by_cases h : k = pa
    · rw [if_pos h, h]
    · rw [if_neg h]
  have he4p : ∀ j, (e4 j).prev_index =
      if j = nb then a else if j = na then b else (f j).prev_index := by
    intro j
    rw [p4, p3, p2, p1]
  have q4 : ∀ k, (e4 k).is_free = (z3 k).is_free := by
    intro k
    rw [he4, upd_apply]
    by_cases h : k = nb
    · rw [if_pos h, h]
    · rw [if_neg h]
  have q3 : ∀ k, (z3 k).is_free = (z2 k).is_free := by
    intro k
    rw [hz3, upd_apply]
    by_cases h : k = pb
    · rw [if_pos h, h]
    · rw [if_neg h]
  have q2 : ∀ k, (z2 k).is_free = (z1 k).is_free := by
    intro k
    rw [hz2, upd_apply]
    by_cases h : k = na
    · rw [if_pos h, h]
    · rw [if_neg h]
  have q1 : ∀ k, (z1 k).is_free = (f k).is_free := by
    intro k
    rw [hz1, upd_apply]
    by_cases h : k = pa
    · rw [if_pos h, h]
    · rw [if_neg h]
  have he4f : ∀ j, (e4 j).is_free = (f j).is_free := by
    intro j
    rw [q4, q3, q2, q1]
  have r4 : ∀ k, (e4 k).element = (z3 k).element := by
    intro k
    rw [he4, upd_apply]
    by_cases h : k = nb
    · rw [if_pos h, h]
    · rw [if_neg h]
  have r3 : ∀ k, (z3 k).element = (z2 k).element := by
    intro k
    rw [hz3, upd_apply]
    by_cases h : k = pb
    · rw [if_pos h, h]
    · rw [if_neg h]
  have r2 : ∀ k, (z2 k).element = (z1 k).element := by
    intro k
    rw [hz2, upd_apply]
    by_cases h : k = na
    · rw [if_pos h, h]
    · rw [if_neg h]
  have r1 : ∀ k, (z1 k).element = (f k).element := by
    intro k
    rw [hz1, upd_apply]
    by_cases h : k = pa
    · rw [if_pos h, h]
    · rw [if_neg h]
  have he4e : ∀ j, (e4 j).element = (f j).element := by
    intro j
    rw [r4, r3, r2, r1]
  have hconj_next : ∀ c, D c →
      (g (σ c)).next_index = σ ((f c).next_index) := by
    intro c hc
    rw [hgs, he4n]
    by_cases h1 : c = pb
    · rw [if_pos h1, show (f c).next_index = b from by rw [h1]; exact hpb_next,
        hσdef, swapFn, if_neg (fun h => hab h.symm), if_pos rfl]
    · by_cases h2 : c = pa
      · rw [if_neg h1, if_pos h2,
          show (f c).next_index = a from by rw [h2]; exact hpa_next,
          hσdef, swapFn, if_pos rfl]
      · rw [if_neg h1, if_neg h2, hσdef, swapFn,
          if_neg (fun h => h2 (hun_next_a c hc h)),
          if_neg (fun h => h1 (hun_next_b c hc h))]
  have hconj_prev : ∀ c, D c →
      (g (σ c)).prev_index = σ ((f c).prev_index) := by
    intro c hc
    rw [hgs, he4p]
    by_cases h1 : c = nb
    · rw [if_pos h1, show (f c).prev_index = b from by rw [h1]; exact hnb_prev,
        hσdef, swapFn, if_neg (fun h => hab h.symm), if_pos rfl]
    · by_cases h2 : c = na
      · rw [if_neg h1, if_pos h2,
          show (f c).prev_index = a from by rw [h2]; exact hna_prev,
          hσdef, swapFn, if_pos rfl]
      · rw [if_neg h1, if_neg h2, hσdef, swapFn,
          if_neg (fun h => h2 (hun_prev_a c hc h)),
          if_neg (fun h => h1 (hun_prev_b c hc h))]
  have hchain2 : links g 0 (L.map σ) 0 := by
    have h := links_relabel f g σ L 0 0 hcore.chain
      (fun c hc => hconj_next c (Or.inl hc))
      (fun c hc => ?_)
    · rw [hσ0] at h
      exact h
    · refine hconj_prev c ?_
      rcases List.mem_append.mp hc with hc | hc
      · exact Or.inl (List.mem_cons_of_mem _ hc)
      · rcases List.mem_singleton.mp hc with rfl
        exact Or.inl (List.mem_cons_self _ _)
  have hmemσ : ∀ x, x ∈ L.map σ ↔ σ x ∈ L := by
    intro x
    constructor
    · intro hx
      obtain ⟨y, hy, hxy⟩ := List.mem_map.mp hx
      rw [← hxy, hσdef, swapFn_invol]
      exact hy
    · intro hx
      refine List.mem_map.mpr ⟨σ x, hx, ?_⟩
      rw [hσdef]
      exact swapFn_invol a b x
  have hσrange : ∀ x, x ∈ slotRange l.capacity → σ x ∈ slotRange l.capacity := by
    intro x hx
    rw [hσdef, swapFn]
    split_ifs with h1 h2
    · exact hbr
    · exact har
    · exact hx
  refine ⟨⟨hchain2, ?_, ?_, ?_, ?_, ?_, ?_, ?_, ?_, ?_⟩,
    fun c => ⟨by show (g (σ c)).is_free = _; rw [hgs, he4f],
      by show (g (σ c)).element = _; rw [hgs, he4e]⟩, rfl, rfl⟩
  · rw [List.nodup_cons]
    constructor
    · intro h
      rw [hmemσ 0, hσ0] at h
      exact h0L h
    · exact List.Nodup.map (hσdef ▸ swapFn_injective a b)
        (List.nodup_cons.mp hcore.nodup).2
  · intro x hx
    have h := hcore.range _ ((hmemσ x).mp hx)
    have := hσrange _ h
    rw [hσdef, swapFn_invol] at this
    exact this
  · intro x hx
    obtain ⟨c, hcL, rfl⟩ := List.mem_map.mp hx
    show (g (σ c)).is_free = false
    rw [hgs, he4f]
    exact hcore.live_busy c hcL
  · show (g 0).is_free = false
    rw [show (0 : Int) = σ 0 from hσ0.symm, hgs, he4f]
    exact hcore.sentinel_busy
  · show l.used = _
    rw [hcore.used_eq, List.length_map]
  · intro x h1 h2
    have hcr : σ x ∈ slotRange l.capacity := hσrange x h1
    have hcL : σ x ∉ L := fun h => h2 ((hmemσ x).mpr h)
    show (g x).is_free = true
    rw [show x = σ (σ x) from (hσdef ▸ swapFn_invol a b x).symm, hgs, he4f]
    exact hcore.free_flag _ hcr hcL
  · intro x h1 h2
    have hcr : σ x ∈ slotRange l.capacity := hσrange x h1
    have hcL : σ x ∉ L := fun h => h2 ((hmemσ x).mpr h)
    have hcj := hconj_next (σ x) (Or.inr ⟨hcr, hcL⟩)
    rw [show σ (σ x) = x from hσdef ▸ swapFn_invol a b x] at hcj
    show (g x).next_index ∈ _ ∧ (g x).next_index ∉ _
    rw [hcj]
    have hn := hcore.free_next _ hcr hcL
    constructor
    · exact hσrange _ hn.1
    · intro hmem
      have := (hmemσ _).mp hmem
      rw [hσdef, swapFn_invol] at this
      exact hn.2 this
  · intro x h1 h2
    have hcr : σ x ∈ slotRange l.capacity := hσrange x h1
    have hcL : σ x ∉ L := fun h => h2 ((hmemσ x).mpr h)
    have hcj := hconj_prev (σ x) (Or.inr ⟨hcr, hcL⟩)
    rw [show σ (σ x) = x from hσdef ▸ swapFn_invol a b x] at hcj
    show (g x).prev_index ∈ _ ∧ (g x).prev_index ∉ _
    rw [hcj]
    have hn := hcore.free_prev _ hcr hcL
    constructor
    · exact hσrange _ hn.1
    · intro hmem
      have := (hmemσ _).mp hmem
      rw [hσdef, swapFn_invol] at this
      exact hn.2 this
  · intro x h1 h2
    have hcr : σ x ∈ slotRange l.capacity := hσrange x h1
    have hcL : σ x ∉ L := fun h => h2 ((hmemσ x).mpr h)
    have hcjn := hconj_next (σ x) (Or.inr ⟨hcr, hcL⟩)
    have hcjp := hconj_prev (σ x) (Or.inr ⟨hcr, hcL⟩)
    rw [show σ (σ x) = x from hσdef ▸ swapFn_invol a b x] at hcjn hcjp
    have hn := hcore.free_next _ hcr hcL
    have hp := hcore.free_prev _ hcr hcL
    show (g ((g x).next_index)).prev_index = x ∧
      (g ((g x).prev_index)).next_index = x
    constructor
    · rw [hcjn]
      have h := hconj_prev ((f (σ x)).next_index) (Or.inr hn)
      rw [h, (hcore.free_inv _ hcr hcL).1, hσdef, swapFn_invol]
    · rw [hcjp]
      have h := hconj_next ((f (σ x)).prev_index) (Or.inr hp)
      rw [h, (hcore.free_inv _ hcr hcL).2, hσdef, swapFn_invol]

theorem linearize_loop_spec :
    ∀ (fuel : Nat) (R : List Int) (l : linked_list Int) (A : List Int)
      (k : Nat) (l' : linked_list Int),
    WFat l l.capacity (A ++ R) →
    A = (List.range' 1 k).map (fun m : Nat => (m : Int)) →
    linearize_loop l R.headI ((k : Int) + 1) fuel = some l' →
    WFat l' l'.capacity
      ((List.range' 1 (k + R.length)).map (fun m : Nat => (m : Int))) ∧
    l'.capacity = l.capacity ∧ l'.used = l.used ∧
    (((List.range' 1 (k + R.length)).map (fun m : Nat => (m : Int))).map
        fun i => (l'.elements i).element) =
      (A ++ R).map fun i => (l.elements i).element := by
  intro fuel
  induction fuel with
  | zero =>
    intro R l A k l' hcore hA hs
    exact Option.noConfusion hs
  | succ fuel ih =>
    intro R l A k l' hcore hA hs
    match R, hcore, hs with
    | [], hcore, hs =>
      rw [linearize_loop,
        if_pos (show ([] : List Int).headI = linked_list_end_index from rfl)]
        at hs
      have hl : l = l' := by injection hs
      subst hl
      rw [List.append_nil] at hcore
      refine ⟨?_, rfl, rfl, ?_⟩
      · rw [show k + ([] : List Int).length = k from rfl, ← hA]
        exact hcore
      · rw [show k + ([] : List Int).length = k from rfl, ← hA,
          List.append_nil]
    | r :: R', hcore, hs =>
      have hr_mem : r ∈ A ++ r :: R' :=
        List.mem_append.mpr (Or.inr (List.mem_cons_self _ _))
      have h0L : (0 : Int) ∉ A ++ r :: R' := (List.nodup_cons.mp hcore.nodup).1
      have hr0 : r ≠ 0 := fun h => h0L (h ▸ hr_mem)
      rw [show (r :: R').headI = r from rfl, linearize_loop,
        if_neg (show ¬(r = linked_list_end_index) from hr0)] at hs
      have hlen : (A ++ r :: R').length ≤ l.capacity + 1 :=
        nodup_range_length (List.nodup_cons.mp hcore.nodup).2 hcore.range
      have hAlen : A.length = k := by
        rw [hA, List.length_map, List.length_range']
      have hklen : k + 1 + R'.length ≤ l.capacity + 1 := by
        rw [List.length_append, List.length_cons, hAlen] at hlen
        omega
      have hbr : (k : Int) + 1 ∈ slotRange l.capacity := by
        rw [mem_slotRange]
        omega
      have hArange : ∀ x ∈ A, 1 ≤ x ∧ x ≤ (k : Int) := by
        intro x hx
        rw [hA] at hx
        obtain ⟨m, hm, rfl⟩ := List.mem_map.mp hx
        rw [List.mem_range'_1] at hm
        omega
      have hnd := (List.nodup_cons.mp hcore.nodup).2
      have hrA : r ∉ A := by
        intro h
        exact (List.nodup_cons.mp (List.nodup_middle.mp hnd)).1
          (List.mem_append.mpr (Or.inl h))
      have hA' : A ++ [(k : Int) + 1] =
          (List.range' 1 (k + 1)).map (fun m : Nat => (m : Int)) := by
        rw [List.range'_concat, List.map_append, ← hA]
        congr 1
        simp only [List.map_cons, List.map_nil, List.cons.injEq, and_true]
        push_cast
        ring
      have hidx : ((k : Int) + 1 + 1) = (((k + 1 : Nat) : Int) + 1) := by
        push_cast
        ring
      cases hsw : linked_list_swap l r ((k : Int) + 1) with
      | none =>
        rw [hsw] at hs
        exact Option.noConfusion hs
      | some l2 =>
        rw [hsw] at hs
        by_cases hrk : r = (k : Int) + 1
        · -- the visited slot is already in place: the swap is a no-op
          have hsw2 : linked_list_swap l r ((k : Int) + 1) = some l := by
            rw [linked_list_swap, if_pos hrk]
          rw [hsw2] at hsw
          have heq : l = l2 := by injection hsw
          rw [← heq] at hs
          replace hs : linearize_loop l
              ((l.elements ((k : Int) + 1)).next_index)
              ((k : Int) + 1 + 1) fuel = some l' := hs
          obtain ⟨-, hBR⟩ :=
            (links_append l.elements A 0 r 0 R').mp hcore.chain
          have hnext : (l.elements ((k : Int) + 1)).next_index = R'.headI := by
            rw [← hrk]
            cases R' with
            | nil => exact hBR.1
            | cons r' rest => exact hBR.1
          rw [hnext, hidx] at hs
          have hlist : (A ++ [(k : Int) + 1]) ++ R' = A ++ r :: R' := by
            rw [← hrk, List.append_assoc]
            rfl
          have hcore2 : WFat l l.capacity ((A ++ [(k : Int) + 1]) ++ R') := by
            rw [hlist]
            exact hcore
          obtain ⟨hW, hc, hu, hv⟩ := ih R' l (A ++ [(k : Int) + 1]) (k + 1) l'
            hcore2 hA' hs
          have hn : k + (r :: R').length = (k + 1) + R'.length := by
            rw [List.length_cons]
            omega
          rw [hn]
          refine ⟨hW, hc, hu, ?_⟩
          rw [hv, hlist]
        · -- genuine swap of the visited slot into position k+1
          obtain ⟨l2', hsw', hwfat2, hcont2, hused2, hcap2⟩ :=
            swap_slot_WF hcore hr_mem hbr hrk
          rw [hsw'] at hsw
          have heq : l2' = l2 := by injection hsw
          rw [heq] at hwfat2 hcont2 hused2 hcap2
          replace hs : linearize_loop l2
              ((l2.elements ((k : Int) + 1)).next_index)
              ((k : Int) + 1 + 1) fuel = some l' := hs
          have hσr : swapFn r ((k : Int) + 1) r = (k : Int) + 1 := by
            rw [swapFn, if_pos rfl]
          have hσA : ∀ x ∈ A, swapFn r ((k : Int) + 1) x = x := by
            intro x hx
            have hb := hArange x hx
            rw [swapFn, if_neg (fun h => hrA (by rw [← h]; exact hx)),
              if_neg (by omega)]
          have hmapA : A.map (swapFn r ((k : Int) + 1)) = A := by
            have h1 : A.map (swapFn r ((k : Int) + 1)) = A.map id :=
              List.map_congr_left (fun x hx => hσA x hx)
            rw [h1, List.map_id]
          have hmapL : (A ++ r :: R').map (swapFn r ((k : Int) + 1)) =
              A ++ ((k : Int) + 1) :: R'.map (swapFn r ((k : Int) + 1)) := by
            rw [List.map_append, List.map_cons, hmapA, hσr]
          rw [hmapL] at hwfat2
          obtain ⟨-, hBR2⟩ := (links_append l2.elements A 0 ((k : Int) + 1) 0
            (R'.map (swapFn r ((k : Int) + 1)))).mp hwfat2.chain
          have hnext : (l2.elements ((k : Int) + 1)).next_index =
              (R'.map (swapFn r ((k : Int) + 1))).headI := by
            cases hR : R'.map (swapFn r ((k : Int) + 1)) with
            | nil =>
              rw [hR] at hBR2
              exact hBR2.1
            | cons r' rest =>
              rw [hR] at hBR2
              exact hBR2.1
          rw [hnext, hidx] at hs
          have hcore2 : WFat l2 l2.capacity
              ((A ++ [(k : Int) + 1]) ++
                R'.map (swapFn r ((k : Int) + 1))) := by
            rw [List.append_assoc]
            exact hwfat2
          obtain ⟨hW, hc, hu, hv⟩ := ih (R'.map (swapFn r ((k : Int) + 1)))
            l2 (A ++ [(k : Int) + 1]) (k + 1) l' hcore2 hA' hs
          have hn : k + (r :: R').length =
              (k + 1) + (R'.map (swapFn r ((k : Int) + 1))).length := by
            rw [List.length_cons, List.length_map]
            omega
          rw [hn]
          refine ⟨hW, hc.trans hcap2, hu.trans hused2, ?_⟩
          rw [hv, List.append_assoc,
            show ([(k : Int) + 1] ++ R'.map (swapFn r ((k : Int) + 1))) =
              ((k : Int) + 1) :: R'.map (swapFn r ((k : Int) + 1)) from rfl,
            List.map_append, List.map_append, List.map_cons, List.map_cons,
            List.map_map]
          congr 1
          · refine List.map_congr_left ?_
            intro x hx
            have h := (hcont2 x).2
            rw [hσA x hx] at h
            exact h
          · congr 1
            · have h := (hcont2 r).2
              rw [hσr] at h
              exact h
            · refine List.map_congr_left ?_
              intro x hx
              exact (hcont2 x).2

/-- C6: on a well-formed arena with `used = n`, after a successful
`linked_list_linearize` the element at logical position `k` (1-indexed) is
stored exactly at physical slot `k` for all `k` in `1..n` — the traversal
index sequence is exactly `[1, ..., n]` — and the logical value sequence is
unchanged by the call. -/
theorem c6_linearize_positions {l l' : linked_list Int} {L : List Int}
    (hwf : WF l L) (hs : linked_list_linearize l = some l') :
    linked_list_traverse_indices l' =
      some ((List.range' 1 l.used).map (fun m : Nat => (m : Int))) ∧
    linked_list_traverse l' = linked_list_traverse l ∧
    l'.used = l.used := by
  have hhead : linked_list_head_index l = L.headI := by
    show (l.elements 0).next_index = _
    cases hL : L with
    | nil =>
      rw [hL] at hwf
      exact hwf.core.chain.1
    | cons x xs =>
      rw [hL] at hwf
      exact hwf.core.chain.1
  rw [linked_list_linearize, hhead] at hs
  replace hs : linearize_loop l L.headI (((0 : Nat) : Int) + 1)
      (l.used + 1) = some l' := hs
  obtain ⟨hW, hc, hu, hv⟩ := linearize_loop_spec (l.used + 1) L l [] 0 l'
    (by rw [List.nil_append]; exact hwf.core) rfl hs
  have hlen : 0 + L.length = l.used := by
    rw [hwf.core.used_eq]
    omega
  rw [hlen] at hW hv
  refine ⟨WFat_traverse_indices hW, ?_, hu⟩
  rw [WFat_traverse hW, WFat_traverse hwf.core, hv, List.nil_append]

theorem linearize_demo_isSome :
    (linked_list_linearize ((linked_list_push_back_all
      (linked_list_create Int 2) [10, 20]).get swap_demo_isSome)).isSome
      = true := by decide

theorem c6_linearize_positions_witness :
    ∃ lw l2 : linked_list Int,
      linked_list_push_back_all (linked_list_create Int 2) [10, 20] =
        some lw ∧
      linked_list_linearize lw = some l2 ∧
      linked_list_traverse_indices l2 =
        some ((List.range' 1 lw.used).map (fun m : Nat => (m : Int))) ∧
      linked_list_traverse l2 = linked_list_traverse lw ∧
      l2.used = lw.used := by
  refine ⟨_, _, (Option.some_get swap_demo_isSome).symm,
    (Option.some_get linearize_demo_isSome).symm, ?_⟩
  exact c6_linearize_positions (L := [1, 2])
    ⟨⟨by decide, by decide, by decide, by decide, by decide, by decide,
      by decide, by decide, by decide, by decide⟩, by decide, by decide⟩
    (Option.some_get linearize_demo_isSome).symm

theorem HTWF_create (K V : Type) [Inhabited K] [Inhabited V]
    (key_hash : K → Nat) (bucket_capacity value_list_size : Nat)
    (key_equals : K → K → Bool) :
    HTWF (hash_table_create K V key_hash bucket_capacity value_list_size
      key_equals) [] [] := by
  refine ⟨create_WF _ _, rfl, List.nodup_nil, ?_, ?_, ?_, ?_, rfl, List.Pairwise.nil⟩
  · intro pb hpb
    exact absurd hpb (List.not_mem_nil _)
  · intro pb hpb
    exact absurd hpb (List.not_mem_nil _)
  · intro pb hpb
    exact absurd hpb (List.not_mem_nil _)
  · intro p hp
    rfl

theorem block_decomp {K V : Type} {t : hash_table K V} {L : List Int}
    {blocks : List (Nat × List Int)} (h : HTWF t L blocks)
    {pb : Nat × List Int} (hpb : pb ∈ blocks) :
    ∃ P S, L = P ++ (pb.2 ++ S) := by
  obtain ⟨Bl, Br, hb⟩ := List.append_of_mem hpb
  refine ⟨((Bl.map Prod.snd).flatten), ((Br.map Prod.snd).flatten), ?_⟩
  rw [h.cover, hb, List.map_append, List.map_cons, List.flatten_append,
    List.flatten_cons]

theorem mem_block_of_mem {K V : Type} {t : hash_table K V} {L : List Int}
    {blocks : List (Nat × List Int)} (h : HTWF t L blocks)
    {i : Int} (hi : i ∈ L) : ∃ pb ∈ blocks, i ∈ pb.2 := by
  rw [h.cover] at hi
  obtain ⟨s, hs, his⟩ := List.mem_flatten.mp hi
  obtain ⟨pb, hpb, hspb⟩ := List.mem_map.mp hs
  exact ⟨pb, hpb, hspb ▸ his⟩

theorem block_unique {K V : Type} {t : hash_table K V} {L : List Int}
    {blocks : List (Nat × List Int)} (h : HTWF t L blocks)
    {pb pb' : Nat × List Int} (h1 : pb ∈ blocks) (h2 : pb' ∈ blocks)
    (heq : pb.1 = pb'.1) : pb = pb' :=
  List.inj_on_of_nodup_map h.pos_nodup h1 h2 heq

theorem bucket_walk_spec {K V : Type} (t : hash_table K V) :
    ∀ (seg' S : List Int) (s0 : Int),
    links t.values.elements s0 (seg' ++ S) 0 →
    __hash_table_bucket_walk t s0 (seg'.length + 1) =
      (s0 :: seg').map (fun i => (t.values.elements i).element) := by
  intro seg'
  induction seg' with
  | nil =>
    intro S s0 h
    rfl
  | cons s1 seg'' ih =>
    intro S s0 h
    obtain ⟨h1, h2, h3⟩ := h
    show (t.values.elements s0).element ::
      __hash_table_bucket_walk t (t.values.elements s0).next_index
        (seg''.length + 1) = _
    rw [h1, ih S s1 h3]
    rfl

theorem lookup_walk_miss {K V : Type} (t : hash_table K V) (key : K) :
    ∀ (seg' S : List Int) (s0 : Int),
    links t.values.elements s0 (seg' ++ S) 0 →
    (∀ i ∈ s0 :: seg',
      t.key_equals_function (t.values.elements i).element.key key = false) →
    __hash_table_lookup_walk t key s0 (seg'.length + 1) = 0 := by
  intro seg'
  induction seg' with
  | nil =>
    intro S s0 h hne
    show (if t.key_equals_function (t.values.elements s0).element.key key
      then s0 else __hash_table_lookup_walk t key _ 0) = 0
    rw [hne s0 (List.mem_cons_self _ _)]
    rfl
  | cons s1 seg'' ih =>
    intro S s0 h hne
    obtain ⟨h1, h2, h3⟩ := h
    show (if t.key_equals_function (t.values.elements s0).element.key key
      then s0 else __hash_table_lookup_walk t key
        (t.values.elements s0).next_index (seg''.length + 1)) = 0
    rw [hne s0 (List.mem_cons_self _ _), h1]
    show __hash_table_lookup_walk t key s1 (seg''.length + 1) = 0
    exact ih S s1 h3 (fun i hi => hne i (List.mem_cons_of_mem _ hi))

theorem lookup_walk_ne {K V : Type} (t : hash_table K V) (key : K) :
    ∀ (seg' S : List Int) (s0 : Int),
    links t.values.elements s0 (seg' ++ S) 0 →
    (0 : Int) ∉ s0 :: seg' →
    (∃ i ∈ s0 :: seg',
      t.key_equals_function (t.values.elements i).element.key key = true) →
    __hash_table_lookup_walk t key s0 (seg'.length + 1) ≠ 0 := by
  intro seg'
  induction seg' with
  | nil =>
    intro S s0 h h0 hex
    obtain ⟨i, hi, heq⟩ := hex
    rcases List.mem_singleton.mp hi with rfl
    show (if t.key_equals_function (t.values.elements i).element.key key
      then i else __hash_table_lookup_walk t key _ 0) ≠ 0
    rw [heq]
    simp only [if_true]
    exact fun hc => h0 (hc ▸ List.mem_cons_self _ _)
  | cons s1 seg'' ih =>
    intro S s0 h h0 hex
    obtain ⟨h1, h2, h3⟩ := h
    show (if t.key_equals_function (t.values.elements s0).element.key key
      then s0 else __hash_table_lookup_walk t key
        (t.values.elements s0).next_index (seg''.length + 1)) ≠ 0
    by_cases hm : t.key_equals_function (t.values.elements s0).element.key key
      = true
    · rw [hm]
      simp only [if_true]
      exact fun hc => h0 (hc ▸ List.mem_cons_self _ _)
    · rw [Bool.not_eq_true] at hm
      rw [hm]
      simp only [Bool.false_eq_true, if_false]
      rw [h1]
      refine ih S s1 h3 (fun hc => h0 (List.mem_cons_of_mem _ hc)) ?_
      obtain ⟨i, hi, heq⟩ := hex
      rcases List.mem_cons.mp hi with rfl | hi
      · rw [heq] at hm
        exact Bool.noConfusion hm
      · exact ⟨i, hi, heq⟩

theorem lookup_eq_zero_iff {K V : Type} {t : hash_table K V} {L : List Int}
    {blocks : List (Nat × List Int)}
    (hwf : HTWF t L blocks) (hok : HashFnsOK t) (key : K) :
    (__hash_table_lookup_index t key).1 = 0 ↔
      ∀ i ∈ L,
        t.key_equals_function (t.values.elements i).element.key key = false := by
  have hunf : __hash_table_lookup_index t key =
      (if (t.hash_table (__hash_table_get_position t key)).size ≠ 0
       then (__hash_table_lookup_walk t key
          (t.hash_table (__hash_table_get_position t key)).value_index
          (t.hash_table (__hash_table_get_position t key)).size,
          __hash_table_get_position t key)
       else (linked_list_end_index, __hash_table_get_position t key)) := rfl
  have h0L : (0 : Int) ∉ L :=
    (List.nodup_cons.mp hwf.values_wf.core.nodup).1
  set pos := __hash_table_get_position t key with hpos
  have hforce : ∀ i ∈ L,
      t.key_equals_function (t.values.elements i).element.key key = true →
      ∃ pb ∈ blocks, pb.1 = pos ∧ i ∈ pb.2 := by
    intro i hi heq
    obtain ⟨pb, hpb, hib⟩ := mem_block_of_mem hwf hi
    refine ⟨pb, hpb, ?_, hib⟩
    have h1 := hwf.seg_pos pb hpb i hib
    have h2 := hok.hash_congr _ _ heq
    rw [← h1, hpos]
    show Nat.land (t.key_hash_function ((t.values.elements i).element.key))
        (t.buckets_capacity - 1) =
      Nat.land (t.key_hash_function key) (t.buckets_capacity - 1)
    rw [h2]
  by_cases hocc : ∃ pb ∈ blocks, pb.1 = pos
  · obtain ⟨pb, hpb, hpbpos⟩ := hocc
    have hbe := hwf.bucket_eq pb hpb
    obtain ⟨P, S, hLPS⟩ := block_decomp hwf hpb
    cases hseg : pb.2 with
    | nil => exact absurd hseg (hwf.blocks_ne pb hpb)
    | cons s0 seg' =>
      have hchain := hwf.values_wf.core.chain
      rw [hLPS, hseg] at hchain
      have hchain' : links t.values.elements s0 (seg' ++ S) 0 :=
        ((links_append t.values.elements P 0 s0 0 (seg' ++ S)).mp hchain).2
      have hbpos : t.hash_table pos =
          { value_index := s0, size := seg'.length + 1 } := by
        rw [← hpbpos, hbe, hseg]
        rfl
      have hsz : (t.hash_table pos).size ≠ 0 := by
        rw [hbpos]
        exact Nat.succ_ne_zero _
      have hsub : ∀ i ∈ s0 :: seg', i ∈ L := by
        intro i hi
        rw [hLPS, hseg]
        exact List.mem_append.mpr (Or.inr (List.mem_append.mpr (Or.inl hi)))
      have h0seg : (0 : Int) ∉ s0 :: seg' := fun h => h0L (hsub 0 h)
      have hfst : (__hash_table_lookup_index t key).1 =
          __hash_table_lookup_walk t key s0 (seg'.length + 1) := by
        rw [hunf, if_pos hsz, hbpos]
      rw [hfst]
      constructor
      · intro hz i hi
        by_contra hne
        rw [Bool.not_eq_false] at hne
        obtain ⟨pb', hpb', hpos', hib'⟩ := hforce i hi hne
        have : pb' = pb := block_unique hwf hpb' hpb (hpos'.trans hpbpos.symm)
        rw [this, hseg] at hib'
        exact lookup_walk_ne t key seg' S s0 hchain' h0seg ⟨i, hib', hne⟩ hz
      · intro hall
        exact lookup_walk_miss t key seg' S s0 hchain'
          (fun i hi => hall i (hsub i hi))
  · have hsz : (t.hash_table pos).size = 0 := by
      refine hwf.empty_size pos (fun hmem => ?_)
      obtain ⟨pb, hpb, hfst⟩ := List.mem_map.mp hmem
      exact hocc ⟨pb, hpb, hfst⟩
    constructor
    · intro _ i hi
      by_contra hne
      rw [Bool.not_eq_false] at hne
      obtain ⟨pb, hpb, hpos', hib⟩ := hforce i hi hne
      have h1 := hwf.bucket_eq pb hpb
      rw [hpos'] at h1
      rw [h1] at hsz
      cases hc : pb.2 with
      | nil => exact hwf.blocks_ne pb hpb hc
      | cons x xs =>
        rw [hc] at hsz
        exact Nat.succ_ne_zero _ hsz
    · intro _
      rw [hunf, if_neg (show ¬(t.hash_table pos).size ≠ 0 from
        fun h => h hsz)]
      rfl

theorem lookup_index_snd {K V : Type} (t : hash_table K V) (key : K) :
    (__hash_table_lookup_index t key).2 = __hash_table_get_position t key := by
  have hunf : __hash_table_lookup_index t key =
      (if (t.hash_table (__hash_table_get_position t key)).size ≠ 0
       then (__hash_table_lookup_walk t key
          (t.hash_table (__hash_table_get_position t key)).value_index
          (t.hash_table (__hash_table_get_position t key)).size,
          __hash_table_get_position t key)
       else (linked_list_end_index, __hash_table_get_position t key)) := rfl
  rw [hunf]
  split_ifs <;> rfl

theorem push_back_spec {E : Type} [Inhabited E] {l : linked_list E}
    {L : List Int} (hwf : WF l L) {v : E} {l' : linked_list E} {q : Int}
    (hs : linked_list_push_back l v = some (l', q)) :
    WF l' (L ++ [q]) ∧ q ∉ L ∧ q ≠ 0 ∧ l'.used = l.used + 1 ∧
    (∀ j ∈ (0 : Int) :: L, (l'.elements j).element = (l.elements j).element) ∧
    (l'.elements q).element = v := by
  have htail : linked_list_tail_index l =
      ((0 : Int) :: L).getLast (List.cons_ne_nil 0 L) := by
    show (l.elements linked_list_end_index).prev_index = _
    exact links_last_prev l.elements L 0 0 hwf.core.chain
  have hp : linked_list_tail_index l ∈ (0 : Int) :: L := by
    rw [htail]
    exact List.getLast_mem (List.cons_ne_nil 0 L)
  obtain ⟨hwf1, hqL, hq0, hused1, hpres1, helem1⟩ := insert_after_WF hwf hp hs
  have hsplice : spliceAfterL L (linked_list_tail_index l) q = L ++ [q] := by
    rw [htail]
    exact spliceAfterL_getLast q L hwf.core.nodup
  rw [hsplice] at hwf1
  exact ⟨hwf1, hqL, hq0, hused1, hpres1, helem1⟩


theorem HTWF_pairs {K V : Type} {t : hash_table K V} {L : List Int}
    {blocks : List (Nat × List Int)} (hwf : HTWF t L blocks) :
    hash_table_pairs t =
      some (L.map fun i => (t.values.elements i).element) := by
  rw [hash_table_pairs]
  exact WFat_traverse hwf.values_wf.core

set_option maxHeartbeats 2000000 in
theorem insert_body_spec {K V : Type} [Inhabited K] [Inhabited V]
    (reh : hash_table K V → Nat → Nat → Option (hash_table K V))
    {t : hash_table K V} {L : List Int} {blocks : List (Nat × List Int)}
    (hwf : HTWF t L blocks) (hok : HashFnsOK t)
    {k : K} {v : V} {r : hash_table K V × Bool}
    (hs : hash_table_insert_body reh t k v = some r) :
    (r = (t, false) ∧
      (__hash_table_lookup_index t k).1 ≠ linked_list_end_index) ∨
    (r.2 = true ∧ ∃ (t1 : hash_table K V) (L1 : List Int)
        (blocks1 : List (Nat × List Int)) (q : Int),
      HTWF t1 L1 blocks1 ∧
      t1.key_hash_function = t.key_hash_function ∧
      t1.key_equals_function = t.key_equals_function ∧
      t1.buckets_capacity = t.buckets_capacity ∧
      q ∉ L ∧ q ≠ 0 ∧
      (t1.values.elements q).element = hash_table_pair_create k v ∧
      (∀ j ∈ (0 : Int) :: L,
        (t1.values.elements j).element = (t.values.elements j).element) ∧
      List.Perm L1 (q :: L) ∧
      ((∃ Bl Br s0 rest,
          blocks = Bl ++ (__hash_table_get_position t k, s0 :: rest) :: Br ∧
          blocks1 = Bl ++ (__hash_table_get_position t k, s0 :: q :: rest)
            :: Br ∧
          t1.buckets_used = t.buckets_used) ∨
        (blocks1 = blocks ++ [(__hash_table_get_position t k, [q])] ∧
          t1.buckets_used = t.buckets_used + 1)) ∧
      (r.1 = t1 ∨
        reh t1 (t1.buckets_capacity * 2) (t1.values.capacity * 2)
          = some r.1)) := by
  classical
  simp only [hash_table_insert_body] at hs
  rw [lookup_index_snd t k] at hs
  by_cases hfound : (__hash_table_lookup_index t k).1 ≠ linked_list_end_index
  · rw [if_pos hfound] at hs
    left
    injection hs with h
    exact ⟨h.symm, hfound⟩
  · rw [if_neg hfound] at hs
    right
    have hfound0 : (__hash_table_lookup_index t k).1 = 0 := not_ne_iff.mp hfound
    have hallne := (lookup_eq_zero_iff hwf hok k).mp hfound0
    set pos := __hash_table_get_position t k with hposdef
    have h0L : (0 : Int) ∉ L :=
      (List.nodup_cons.mp hwf.values_wf.core.nodup).1
    have hLnodup : L.Nodup :=
      (List.nodup_cons.mp hwf.values_wf.core.nodup).2
    have hkeysq : ∀ j ∈ L,
        t.key_equals_function k
          ((t.values.elements j).element.key) = false := by
      intro j hj
      rw [hok.equals_symm]
      exact hallne j hj
    by_cases hocc : (t.hash_table pos).size > 0
    · -- the bucket already has a chain: splice right after its head
      rw [if_pos hocc] at hs
      have hblock : ∃ pb ∈ blocks, pb.1 = pos := by
        by_contra hc
        push_neg at hc
        have : (t.hash_table pos).size = 0 := by
          refine hwf.empty_size pos (fun hmem => ?_)
          obtain ⟨pb, hpb, hfst⟩ := List.mem_map.mp hmem
          exact hc pb hpb hfst
        omega
      obtain ⟨pb, hpb, hpb1⟩ := hblock
      cases hseg : pb.2 with
      | nil => exact absurd hseg (hwf.blocks_ne pb hpb)
      | cons s0 rest =>
      have hpbeq : pb = (pos, s0 :: rest) := by
        rw [← hpb1, ← hseg]
      have hbpos : t.hash_table pos =
          { value_index := s0, size := rest.length + 1 } := by
        rw [← hpb1, hwf.bucket_eq pb hpb, hseg]
        rfl
      rw [show (t.hash_table pos).value_index = s0 from by rw [hbpos]] at hs
      cases hins : linked_list_insert_after t.values
          (hash_table_pair_create k v) s0 with
      | none =>
        rw [hins] at hs
        exact Option.noConfusion hs
      | some pr =>
      rw [hins] at hs
      obtain ⟨values', q⟩ := pr
      obtain ⟨Bl, Br, hb⟩ := List.append_of_mem hpb
      rw [hpbeq] at hb
      have hmemBl : ∀ pb' : Nat × List Int, pb' ∈ Bl → pb' ∈ blocks := by
        intro pb' h
        rw [hb]
        exact List.mem_append.mpr (Or.inl h)
      have hmemBr : ∀ pb' : Nat × List Int, pb' ∈ Br → pb' ∈ blocks := by
        intro pb' h
        rw [hb]
        exact List.mem_append.mpr (Or.inr (List.mem_cons_of_mem _ h))
      set P : List Int := (Bl.map Prod.snd).flatten with hP
      set S : List Int := (Br.map Prod.snd).flatten with hS
      have hL : L = P ++ ((s0 :: rest) ++ S) := by
        rw [hwf.cover, hb, List.map_append, List.map_cons,
          List.flatten_append, List.flatten_cons]
      have hL' : L = P ++ s0 :: (rest ++ S) := by
        rw [hL]
        simp
      have hs0L : s0 ∈ L := by
        rw [hL']
        exact List.mem_append.mpr (Or.inr (List.mem_cons_self _ _))
      have hs0mem : s0 ∈ (0 : Int) :: L := List.mem_cons_of_mem _ hs0L
      obtain ⟨hwf1, hqL, hq0, hused1, hpres1, helem1⟩ :=
        insert_after_WF hwf.values_wf hs0mem hins
      have hs00 : s0 ≠ 0 := fun h => h0L (h ▸ hs0L)
      have hs0P : s0 ∉ P := by
        have h1 : (P ++ s0 :: (rest ++ S)).Nodup := by
          rw [← hL']
          exact hLnodup
        exact fun h => (List.nodup_cons.mp
          (List.nodup_middle.mp h1)).1 (List.mem_append.mpr (Or.inl h))
      have hsplice : spliceAfterL L s0 q = P ++ s0 :: q :: (rest ++ S) := by
        rw [spliceAfterL, if_neg hs00, hL',
          spliceAfter_of_not_mem P s0 q (rest ++ S) hs0P]
      set t1 : hash_table K V :=
        { t with
          values := values',
          hash_table := fun p => if p = pos
            then { value_index := s0, size := (t.hash_table pos).size + 1 }
            else t.hash_table p } with ht1
      replace hs : (if 2 * t1.buckets_used ≥ t1.buckets_capacity then
          match reh t1 (t1.buckets_capacity * 2) (t1.values.capacity * 2) with
          | none => none
          | some t2 => some (t2, true)
        else some (t1, true)) = some r := hs
      set blocks1 : List (Nat × List Int) :=
        Bl ++ (pos, s0 :: q :: rest) :: Br with hblocks1
      have hfst_eq : blocks1.map Prod.fst = blocks.map Prod.fst := by
        rw [hblocks1, hb, List.map_append, List.map_append, List.map_cons,
          List.map_cons]
      have hother_pos : ∀ pb' : Nat × List Int,
          pb' ∈ Bl ++ Br → pb'.1 ≠ pos := by
        intro pb' hmem h
        have h1 : (blocks.map Prod.fst).Nodup := hwf.pos_nodup
        rw [hb, List.map_append, List.map_cons] at h1
        have h2 := (List.nodup_cons.mp (List.nodup_middle.mp h1)).1
        refine h2 ?_
        rw [← List.map_append]
        exact List.mem_map.mpr ⟨pb', hmem, h⟩
      have hmemL_of_block : ∀ pb' ∈ blocks, ∀ i ∈ pb'.2, i ∈ L := by
        intro pb' hpb' i hi
        rw [hwf.cover]
        exact List.mem_flatten.mpr ⟨pb'.2,
          List.mem_map.mpr ⟨pb', hpb', rfl⟩, hi⟩
      have hseg_pb : ∀ i ∈ s0 :: rest,
          __hash_table_get_position t
            ((t.values.elements i).element.key) = pos := by
        have h1 := hwf.seg_pos pb hpb
        rw [hseg, hpb1] at h1
        exact h1
      have hperm : List.Perm (spliceAfterL L s0 q) (q :: L) :=
        spliceAfterL_perm q hs0mem hwf.values_wf.core.nodup
      have hwf_new : HTWF t1 (spliceAfterL L s0 q) blocks1 := by
        refine ⟨hwf1, ?_, ?_, ?_, ?_, ?_, ?_, ?_, ?_⟩
        · -- cover
          rw [hblocks1, List.map_append, List.map_cons,
            List.flatten_append, List.flatten_cons, hsplice]
          simp
        · rw [hfst_eq]
          exact hwf.pos_nodup
        · -- blocks nonempty
          intro pb' hpb'
          rw [hblocks1] at hpb'
          rcases List.mem_append.mp hpb' with h | h
          · exact hwf.blocks_ne pb' (hmemBl pb' h)
          · rcases List.mem_cons.mp h with rfl | h
            · exact List.cons_ne_nil _ _
            · exact hwf.blocks_ne pb' (hmemBr pb' h)
        · -- bucket_eq
          intro pb' hpb'
          rw [hblocks1] at hpb'
          rcases List.mem_append.mp hpb' with h | h
          · have hne : pb'.1 ≠ pos :=
              hother_pos pb' (List.mem_append.mpr (Or.inl h))
            show (if pb'.1 = pos then _ else t.hash_table pb'.1) = _
            rw [if_neg hne]
            exact hwf.bucket_eq pb' (hmemBl pb' h)
          · rcases List.mem_cons.mp h with rfl | h
            · show (if pos = pos
                then { value_index := s0,
                       size := (t.hash_table pos).size + 1 }
                else t.hash_table pos) = _
              rw [if_pos rfl, hbpos]
              rfl
            · have hne : pb'.1 ≠ pos :=
                hother_pos pb' (List.mem_append.mpr (Or.inr h))
              show (if pb'.1 = pos then _ else t.hash_table pb'.1) = _
              rw [if_neg hne]
              exact hwf.bucket_eq pb' (hmemBr pb' h)
        · -- seg_pos
          intro pb' hpb' i hi
          have hposfn : ∀ x, __hash_table_get_position t1 x =
              __hash_table_get_position t x := fun x => rfl
          rw [hposfn]
          rw [hblocks1] at hpb'
          rcases List.mem_append.mp hpb' with h | h
          · have hiL : i ∈ L := hmemL_of_block pb' (hmemBl pb' h) i hi
            rw [show (t1.values.elements i).element =
              (t.values.elements i).element from
              hpres1 i (List.mem_cons_of_mem _ hiL)]
            exact hwf.seg_pos pb' (hmemBl pb' h) i hi
          · rcases List.mem_cons.mp h with rfl | h
            · rcases List.mem_cons.mp hi with hieq | hi'
              · rw [hieq, show (t1.values.elements s0).element =
                  (t.values.elements s0).element from
                  hpres1 s0 (List.mem_cons_of_mem _ hs0L)]
                exact hseg_pb s0 (List.mem_cons_self _ _)
              · rcases List.mem_cons.mp hi' with hieq | hi2
                · rw [hieq, show (t1.values.elements q).element =
                    hash_table_pair_create k v from helem1]
                  exact hposdef.symm
                · have hiL : i ∈ L := by
                    rw [hL']
                    exact List.mem_append.mpr (Or.inr
                      (List.mem_cons_of_mem _ (List.mem_append.mpr
                        (Or.inl hi2))))
                  rw [show (t1.values.elements i).element =
                    (t.values.elements i).element from
                    hpres1 i (List.mem_cons_of_mem _ hiL)]
                  exact hseg_pb i (List.mem_cons_of_mem _ hi2)
            · have hiL : i ∈ L := hmemL_of_block pb' (hmemBr pb' h) i hi
              rw [show (t1.values.elements i).element =
                (t.values.elements i).element from
                hpres1 i (List.mem_cons_of_mem _ hiL)]
              exact hwf.seg_pos pb' (hmemBr pb' h) i hi
        · -- empty_size
          intro p hp
          rw [hfst_eq] at hp
          have hne : p ≠ pos := by
            intro h
            refine hp ?_
            rw [h, ← hpb1]
            exact List.mem_map.mpr ⟨pb, hpb, rfl⟩
          show (if p = pos then _ else t.hash_table p).size = 0
          rw [if_neg hne]
          exact hwf.empty_size p hp
        · -- used_blocks
          show t.buckets_used = blocks1.length
          rw [hwf.used_blocks, hb, hblocks1]
          simp
        · -- keys pairwise unequal
          have hsymm1 : Symmetric (fun i j : Int =>
              t1.key_equals_function
                ((t1.values.elements i).element.key)
                ((t1.values.elements j).element.key) = false) := by
            intro a b h
            show t.key_equals_function _ _ = false
            rw [hok.equals_symm]
            exact h
          refine (hperm.pairwise_iff (fun h => hsymm1 h)).mpr ?_
          refine List.pairwise_cons.mpr ⟨?_, ?_⟩
          · intro j hj
            show t.key_equals_function
              ((t1.values.elements q).element.key)
              ((t1.values.elements j).element.key) = false
            rw [show (t1.values.elements q).element =
                hash_table_pair_create k v from helem1,
              show (t1.values.elements j).element =
                (t.values.elements j).element from
                hpres1 j (List.mem_cons_of_mem _ hj)]
            exact hkeysq j hj
          · refine List.Pairwise.imp_of_mem ?_ hwf.keys_ne
            intro a b ha hb' h
            show t.key_equals_function
              ((t1.values.elements a).element.key)
              ((t1.values.elements b).element.key) = false
            rw [show (t1.values.elements a).element =
                (t.values.elements a).element from
                hpres1 a (List.mem_cons_of_mem _ ha),
              show (t1.values.elements b).element =
                (t.values.elements b).element from
                hpres1 b (List.mem_cons_of_mem _ hb')]
            exact h
      by_cases hload : 2 * t1.buckets_used ≥ t1.buckets_capacity
      · rw [if_pos hload] at hs
        cases hreh : reh t1 (t1.buckets_capacity * 2)
            (t1.values.capacity * 2) with
        | none =>
          rw [hreh] at hs
          exact Option.noConfusion hs
        | some t2 =>
          rw [hreh] at hs
          replace hs : some (t2, true) = some r := hs
          injection hs with hs
          have hr1 : reh t1 (t1.buckets_capacity * 2)
              (t1.values.capacity * 2) = some r.1 := by
            rw [hreh]
            exact congrArg some (congrArg Prod.fst hs)
          exact ⟨(congrArg Prod.snd hs).symm, t1, spliceAfterL L s0 q,
            blocks1, q, hwf_new, rfl, rfl, rfl, hqL, hq0, helem1, hpres1,
            hperm, Or.inl ⟨Bl, Br, s0, rest, hb, hblocks1, rfl⟩,
            Or.inr hr1⟩
      · rw [if_neg hload] at hs
        injection hs with hs
        exact ⟨(congrArg Prod.snd hs).symm, t1, spliceAfterL L s0 q,
          blocks1, q, hwf_new, rfl, rfl, rfl, hqL, hq0, helem1, hpres1,
          hperm, Or.inl ⟨Bl, Br, s0, rest, hb, hblocks1, rfl⟩,
          Or.inl (congrArg Prod.fst hs).symm⟩
    · -- fresh bucket: push to the arena's back, record the new chain head
      rw [if_neg hocc] at hs
      have hsz0 : (t.hash_table pos).size = 0 := by omega
      cases hpb : linked_list_push_back t.values
          (hash_table_pair_create k v) with
      | none =>
        rw [hpb] at hs
        exact Option.noConfusion hs
      | some pr =>
      rw [hpb] at hs
      obtain ⟨values', q⟩ := pr
      obtain ⟨hwf1, hqL, hq0, hused1, hpres1, helem1⟩ :=
        push_back_spec hwf.values_wf hpb
      have hposnew : pos ∉ blocks.map Prod.fst := by
        intro hmem
        obtain ⟨pb, hpb2, hfst⟩ := List.mem_map.mp hmem
        have hbe := hwf.bucket_eq pb hpb2
        have hne := hwf.blocks_ne pb hpb2
        rw [hfst] at hbe
        rw [hbe] at hsz0
        exact hne (List.length_eq_zero.mp hsz0)
      set t1 : hash_table K V :=
        { t with
          values := values',
          buckets_used := t.buckets_used + 1,
          hash_table := fun p => if p = pos
            then { value_index := q, size := (t.hash_table pos).size + 1 }
            else t.hash_table p } with ht1
      replace hs : (if 2 * t1.buckets_used ≥ t1.buckets_capacity then
          match reh t1 (t1.buckets_capacity * 2) (t1.values.capacity * 2) with
          | none => none
          | some t2 => some (t2, true)
        else some (t1, true)) = some r := hs
      set blocks1 : List (Nat × List Int) := blocks ++ [(pos, [q])]
        with hblocks1
      have hwf_new : HTWF t1 (L ++ [q]) blocks1 := by
        refine ⟨hwf1, ?_, ?_, ?_, ?_, ?_, ?_, ?_, ?_⟩
        · -- cover
          rw [hblocks1, List.map_append, List.flatten_append, ← hwf.cover]
          rfl
        · -- bucket positions still distinct
          rw [hblocks1, List.map_append]
          refine List.Nodup.append hwf.pos_nodup (List.nodup_singleton _) ?_
          intro a ha hb2
          have haeq : a = pos := by
            rcases List.mem_map.mp hb2 with ⟨pb', hpb', rfl⟩
            rcases List.mem_singleton.mp hpb' with rfl
            rfl
          rw [haeq] at ha
          exact hposnew ha
        · -- blocks nonempty
          intro pb' hpb'
          rw [hblocks1] at hpb'
          rcases List.mem_append.mp hpb' with h | h
          · exact hwf.blocks_ne pb' h
          · rcases List.mem_singleton.mp h with rfl
            exact List.cons_ne_nil _ _
        · -- bucket_eq
          intro pb' hpb'
          rw [hblocks1] at hpb'
          rcases List.mem_append.mp hpb' with h | h
          · have hne : pb'.1 ≠ pos := by
              intro heqp
              refine hposnew ?_
              rw [← heqp]
              exact List.mem_map.mpr ⟨pb', h, rfl⟩
            show (if pb'.1 = pos then _ else t.hash_table pb'.1) = _
            rw [if_neg hne]
            exact hwf.bucket_eq pb' h
          · rcases List.mem_singleton.mp h with rfl
            show (if pos = pos
              then { value_index := q,
                     size := (t.hash_table pos).size + 1 }
              else t.hash_table pos) = _
            rw [if_pos rfl, hsz0]
            rfl
        · -- seg_pos
          intro pb' hpb' i hi
          have hposfn : ∀ x, __hash_table_get_position t1 x =
              __hash_table_get_position t x := fun x => rfl
          rw [hposfn]
          rw [hblocks1] at hpb'
          rcases List.mem_append.mp hpb' with h | h
          · have hiL : i ∈ L := by
              rw [hwf.cover]
              exact List.mem_flatten.mpr ⟨pb'.2,
                List.mem_map.mpr ⟨pb', h, rfl⟩, hi⟩
            rw [show (t1.values.elements i).element =
              (t.values.elements i).element from
              hpres1 i (List.mem_cons_of_mem _ hiL)]
            exact hwf.seg_pos pb' h i hi
          · rcases List.mem_singleton.mp h with rfl
            have hieq : i = q := List.mem_singleton.mp hi
            rw [hieq, show (t1.values.elements q).element =
              hash_table_pair_create k v from helem1]
            exact hposdef.symm
        · -- empty_size
          intro p hp
          rw [hblocks1, List.map_append] at hp
          have hp1 : p ∉ blocks.map Prod.fst :=
            fun h => hp (List.mem_append.mpr (Or.inl h))
          have hp2 : p ≠ pos := by
            intro h
            refine hp (List.mem_append.mpr (Or.inr ?_))
            rw [h]
            exact List.mem_map.mpr ⟨(pos, [q]),
              List.mem_singleton.mpr rfl, rfl⟩
          show (if p = pos then _ else t.hash_table p).size = 0
          rw [if_neg hp2]
          exact hwf.empty_size p hp1
        · -- used_blocks
          show t.buckets_used + 1 = blocks1.length
          rw [hwf.used_blocks, hblocks1]
          simp
        · -- keys pairwise unequal
          have hsymm1 : Symmetric (fun i j : Int =>
              t1.key_equals_function
                ((t1.values.elements i).element.key)
                ((t1.values.elements j).element.key) = false) := by
            intro a b h
            show t.key_equals_function _ _ = false
            rw [hok.equals_symm]
            exact h
          refine ((List.perm_append_singleton q L).pairwise_iff
            (fun h => hsymm1 h)).mpr ?_
          refine List.pairwise_cons.mpr ⟨?_, ?_⟩
          · intro j hj
            show t.key_equals_function
              ((t1.values.elements q).element.key)
              ((t1.values.elements j).element.key) = false
            rw [show (t1.values.elements q).element =
                hash_table_pair_create k v from helem1,
              show (t1.values.elements j).element =
                (t.values.elements j).element from
                hpres1 j (List.mem_cons_of_mem _ hj)]
            exact hkeysq j hj
          · refine List.Pairwise.imp_of_mem ?_ hwf.keys_ne
            intro a b ha hb' h
            show t.key_equals_function
              ((t1.values.elements a).element.key)
              ((t1.values.elements b).element.key) = false
            rw [show (t1.values.elements a).element =
                (t.values.elements a).element from
                hpres1 a (List.mem_cons_of_mem _ ha),
              show (t1.values.elements b).element =
                (t.values.elements b).element from
                hpres1 b (List.mem_cons_of_mem _ hb')]
            exact h
      by_cases hload : 2 * t1.buckets_used ≥ t1.buckets_capacity
      · rw [if_pos hload] at hs
        cases hreh : reh t1 (t1.buckets_capacity * 2)
            (t1.values.capacity * 2) with
        | none =>
          rw [hreh] at hs
          exact Option.noConfusion hs
        | some t2 =>
          rw [hreh] at hs
          replace hs : some (t2, true) = some r := hs
          injection hs with hs
          have hr1 : reh t1 (t1.buckets_capacity * 2)
              (t1.values.capacity * 2) = some r.1 := by
            rw [hreh]
            exact congrArg some (congrArg Prod.fst hs)
          exact ⟨(congrArg Prod.snd hs).symm, t1, L ++ [q],
            blocks1, q, hwf_new, rfl, rfl, rfl, hqL, hq0, helem1, hpres1,
            List.perm_append_singleton q L, Or.inr ⟨hblocks1, rfl⟩,
            Or.inr hr1⟩
      · rw [if_neg hload] at hs
        injection hs with hs
        exact ⟨(congrArg Prod.snd hs).symm, t1, L ++ [q],
          blocks1, q, hwf_new, rfl, rfl, rfl, hqL, hq0, helem1, hpres1,
          List.perm_append_singleton q L, Or.inr ⟨hblocks1, rfl⟩,
          Or.inl (congrArg Prod.fst hs).symm⟩

theorem HashFnsOK_transfer {K V : Type} {t t' : hash_table K V}
    (hok : HashFnsOK t)
    (hh : t'.key_hash_function = t.key_hash_function)
    (he : t'.key_equals_function = t.key_equals_function) : HashFnsOK t' := by
  constructor
  · intro a b
    rw [he]
    exact hok.equals_symm a b
  · intro a b hab
    rw [he] at hab
    rw [hh]
    exact hok.hash_congr a b hab

theorem reinsert_go_spec {K V : Type} [Inhabited K] [Inhabited V]
    {ins : hash_table K V → K → V → Option (hash_table K V × Bool)}
    (hins : InsOK ins) :
    ∀ (ps : List (hash_table_pair K V)) (t0 : hash_table K V)
      (L0 : List Int) (blocks0 : List (Nat × List Int))
      (t2 : hash_table K V),
      HTWF t0 L0 blocks0 → HashFnsOK t0 →
      (∀ p ∈ ps, ∀ i ∈ L0,
        t0.key_equals_function
          (t0.values.elements i).element.key p.key = false) →
      ps.Pairwise
        (fun p1 p2 => t0.key_equals_function p1.key p2.key = false) →
      hash_table_reinsert_go ins t0 ps = some t2 →
      ∃ (L2 : List Int) (blocks2 : List (Nat × List Int)),
        HTWF t2 L2 blocks2 ∧
        t2.key_hash_function = t0.key_hash_function ∧
        t2.key_equals_function = t0.key_equals_function ∧
        List.Perm (L2.map fun i => (t2.values.elements i).element)
          (ps ++ L0.map fun i => (t0.values.elements i).element) := by
  intro ps
  induction ps with
  | nil =>
    intro t0 L0 blocks0 t2 hwf0 hok0 hsep hpw hs
    replace hs : some t0 = some t2 := hs
    injection hs with hs
    rw [← hs]
    refine ⟨L0, blocks0, hwf0, rfl, rfl, ?_⟩
    simp only [List.nil_append]
    exact List.Perm.refl _
  | cons p rest ih =>
    intro t0 L0 blocks0 t2 hwf0 hok0 hsep hpw hs
    replace hs : (match ins t0 p.key p.value with
      | none => none
      | some (t', _) => hash_table_reinsert_go ins t' rest) = some t2 := hs
    cases hstep : ins t0 p.key p.value with
    | none =>
      rw [hstep] at hs
      exact Option.noConfusion hs
    | some pr =>
      rw [hstep] at hs
      obtain ⟨t', b⟩ := pr
      replace hs : hash_table_reinsert_go ins t' rest = some t2 := hs
      rcases hins t0 L0 blocks0 p.key p.value (t', b) hwf0 hok0 hstep with
        ⟨heq, i, hiL, hieq⟩ | ⟨hb, L1, blocks1, hwf1, hh1, he1, hperm1⟩
      · rw [hsep p (List.mem_cons_self _ _) i hiL] at hieq
        exact Bool.noConfusion hieq
      · replace hwf1 : HTWF t' L1 blocks1 := hwf1
        replace hh1 : t'.key_hash_function = t0.key_hash_function := hh1
        replace he1 : t'.key_equals_function = t0.key_equals_function := he1
        replace hperm1 : List.Perm
            (L1.map fun i => (t'.values.elements i).element)
            (p :: L0.map fun i => (t0.values.elements i).element) := hperm1
        have hok1 : HashFnsOK t' := HashFnsOK_transfer hok0 hh1 he1
        have hpwhead : ∀ p' ∈ rest,
            t0.key_equals_function p.key p'.key = false :=
          (List.pairwise_cons.mp hpw).1
        have hpw' : rest.Pairwise
            (fun p1 p2 => t0.key_equals_function p1.key p2.key = false) :=
          (List.pairwise_cons.mp hpw).2
        have hsep' : ∀ p' ∈ rest, ∀ i ∈ L1,
            t'.key_equals_function
              (t'.values.elements i).element.key p'.key = false := by
          intro p' hp' i hi
          rw [he1]
          have hmem : (t'.values.elements i).element ∈
              L1.map fun j => (t'.values.elements j).element :=
            List.mem_map.mpr ⟨i, hi, rfl⟩
          have hmem2 := hperm1.mem_iff.mp hmem
          rcases List.mem_cons.mp hmem2 with hep | hold
          · rw [hep]
            exact hpwhead p' hp'
          · obtain ⟨j, hjL, hje⟩ := List.mem_map.mp hold
            rw [← hje]
            exact hsep p' (List.mem_cons_of_mem _ hp') j hjL
        have hpw1 : rest.Pairwise
            (fun p1 p2 => t'.key_equals_function p1.key p2.key = false) := by
          refine List.Pairwise.imp ?_ hpw'
          intro a b hab
          rw [he1]
          exact hab
        obtain ⟨L2, blocks2, hwf2, hh2, he2, hperm2⟩ :=
          ih t' L1 blocks1 t2 hwf1 hok1 hsep' hpw1 hs
        refine ⟨L2, blocks2, hwf2, hh2.trans hh1, he2.trans he1, ?_⟩
        have h3 : List.Perm
            (rest ++ L1.map fun i => (t'.values.elements i).element)
            (rest ++ (p :: L0.map fun i => (t0.values.elements i).element)) :=
          List.Perm.append_left rest hperm1
        have h4 : List.Perm
            (rest ++ (p :: L0.map fun i => (t0.values.elements i).element))
            (p :: (rest ++ L0.map fun i => (t0.values.elements i).element)) :=
          List.perm_middle
        exact hperm2.trans (h3.trans h4)

theorem rehash_go_spec {K V : Type} [Inhabited K] [Inhabited V]
    {ins : hash_table K V → K → V → Option (hash_table K V × Bool)}
    (hins : InsOK ins) : RehOK (hash_table_rehash_go ins) := by
  intro t L blocks nb nv t2 hwf hok hs
  replace hs : (match hash_table_pairs t with
    | none => none
    | some pairs => hash_table_reinsert_go ins
        (hash_table_create K V t.key_hash_function nb nv
          t.key_equals_function) pairs) = some t2 := hs
  rw [HTWF_pairs hwf] at hs
  replace hs : hash_table_reinsert_go ins
      (hash_table_create K V t.key_hash_function nb nv
        t.key_equals_function)
      (L.map fun i => (t.values.elements i).element) = some t2 := hs
  have hwfc := HTWF_create K V t.key_hash_function nb nv
    t.key_equals_function
  have hokc : HashFnsOK (hash_table_create K V t.key_hash_function nb nv
      t.key_equals_function) := ⟨hok.equals_symm, hok.hash_congr⟩
  have hsep : ∀ p ∈ L.map fun i => (t.values.elements i).element,
      ∀ i ∈ ([] : List Int),
      (hash_table_create K V t.key_hash_function nb nv
        t.key_equals_function).key_equals_function
        (((hash_table_create K V t.key_hash_function nb nv
          t.key_equals_function).values.elements i).element.key)
        p.key = false :=
    fun p _ i hi => absurd hi (List.not_mem_nil _)
  have hpw : (L.map fun i => (t.values.elements i).element).Pairwise
      (fun p1 p2 => (hash_table_create K V t.key_hash_function nb nv
        t.key_equals_function).key_equals_function p1.key p2.key
        = false) := by
    refine List.pairwise_map.mpr ?_
    refine List.Pairwise.imp ?_ hwf.keys_ne
    intro a b hab
    exact hab
  obtain ⟨L2, blocks2, hwf2, hh2, he2, hperm2⟩ :=
    reinsert_go_spec hins (L.map fun i => (t.values.elements i).element)
      (hash_table_create K V t.key_hash_function nb nv
        t.key_equals_function) [] [] t2 hwfc hokc hsep hpw hs
  refine ⟨L2, blocks2, hwf2, hh2, he2, ?_⟩
  have hnil : ((L.map fun i => (t.values.elements i).element) ++
      (([] : List Int).map fun i =>
        (((hash_table_create K V t.key_hash_function nb nv
          t.key_equals_function).values.elements i)).element)) =
      L.map fun i => (t.values.elements i).element := by
    simp
  rw [hnil] at hperm2
  exact hperm2

theorem insert_fuel_InsOK {K V : Type} [Inhabited K] [Inhabited V] :
    ∀ fuel : Nat, InsOK (@hash_table_insert_fuel K V _ _ fuel) := by
  intro fuel
  induction fuel with
  | zero =>
    intro t L blocks k v r _ _ hs
    exact Option.noConfusion hs
  | succ fuel ih =>
    intro t L blocks k v r hwf hok hs
    replace hs : hash_table_insert_body
        (hash_table_rehash_go (@hash_table_insert_fuel K V _ _ fuel))
        t k v = some r := hs
    rcases insert_body_spec _ hwf hok hs with
      ⟨heq, hfound⟩ |
      ⟨hr2, t1, L1, blocks1, q, hwf1, hh, he, hcap, hqL, hq0, helem,
        hpres, hperm, hblocks, hfinal⟩
    · left
      refine ⟨heq, ?_⟩
      by_contra hc
      push_neg at hc
      have hall : ∀ i ∈ L,
          t.key_equals_function (t.values.elements i).element.key k
            = false := by
        intro i hi
        cases hbe : t.key_equals_function
            (t.values.elements i).element.key k with
        | false => rfl
        | true => exact absurd hbe (hc i hi)
      exact hfound ((lookup_eq_zero_iff hwf hok k).mpr hall)
    · right
      refine ⟨hr2, ?_⟩
      have hok1 : HashFnsOK t1 := HashFnsOK_transfer hok hh he
      have hperm_pairs : List.Perm
          (L1.map fun i => (t1.values.elements i).element)
          (hash_table_pair_create k v ::
            L.map fun i => (t.values.elements i).element) := by
        have h1 := hperm.map fun i => (t1.values.elements i).element
        have h2 : ((q :: L).map fun i => (t1.values.elements i).element) =
            hash_table_pair_create k v ::
              L.map fun i => (t.values.elements i).element := by
          rw [List.map_cons, helem]
          congr 1
          exact List.map_congr_left
            (fun i hi => hpres i (List.mem_cons_of_mem _ hi))
        rw [h2] at h1
        exact h1
      rcases hfinal with hr1 | hreh
      · refine ⟨L1, blocks1, ?_, ?_, ?_, ?_⟩
        · rw [hr1]
          exact hwf1
        · rw [hr1]
          exact hh
        · rw [hr1]
          exact he
        · rw [hr1]
          exact hperm_pairs
      · obtain ⟨L2, blocks2, hwf2, hh2, he2, hperm2⟩ :=
          rehash_go_spec ih t1 L1 blocks1
            (t1.buckets_capacity * 2) (t1.values.capacity * 2) r.1
            hwf1 hok1 hreh
        exact ⟨L2, blocks2, hwf2, hh2.trans hh, he2.trans he,
          hperm2.trans hperm_pairs⟩

theorem HTReached_HTWF {K V : Type} [Inhabited K] [Inhabited V]
    {t : hash_table K V} (h : HTReached t) :
    ∃ (L : List Int) (blocks : List (Nat × List Int)),
      HTWF t L blocks ∧ HashFnsOK t := by
  induction h with
  | created key_hash key_equals bucket_capacity value_list_size
      hsymm hcongr =>
    exact ⟨[], [], HTWF_create K V key_hash bucket_capacity
      value_list_size key_equals, ⟨hsymm, hcongr⟩⟩
  | inserted ta tb k v fuel b hre heq ih =>
    obtain ⟨L, blocks, hwf, hok⟩ := ih
    rcases insert_fuel_InsOK fuel ta L blocks k v (tb, b) hwf hok heq with
      ⟨hpair, _⟩ | ⟨_, L1, blocks1, hwf1, hh, he, _⟩
    · have htb : tb = ta := congrArg Prod.fst hpair
      rw [htb]
      exact ⟨L, blocks, hwf, hok⟩
    · exact ⟨L1, blocks1, hwf1, HashFnsOK_transfer hok hh he⟩

theorem simple_eq_symm_int (a b : Int) :
    hash_table_simple_key_equality a b
      = hash_table_simple_key_equality b a := by
  by_cases h : a = b
  · rw [h]
  · show decide (a = b) = decide (b = a)
    rw [decide_eq_false h, decide_eq_false fun hh => h hh.symm]

theorem const_zero_hash_congr (a b : Int) :
    hash_table_simple_key_equality a b = true →
    const_zero_hash a = const_zero_hash b :=
  fun _ => rfl

theorem collision_table_reached : HTReached collision_table :=
  HTReached.created const_zero_hash hash_table_simple_key_equality 8 4
    simple_eq_symm_int const_zero_hash_congr

theorem demo_ins_isSome :
    (hash_table_insert_fuel 5 collision_table 1 10).isSome = true := by
  decide

theorem demo_table_reached :
    HTReached ((hash_table_insert_fuel 5 collision_table 1 10).get
      demo_ins_isSome).1 :=
  HTReached.inserted collision_table
    ((hash_table_insert_fuel 5 collision_table 1 10).get demo_ins_isSome).1
    1 10 5
    ((hash_table_insert_fuel 5 collision_table 1 10).get demo_ins_isSome).2
    collision_table_reached
    (Option.some_get demo_ins_isSome).symm

theorem demo_reh_isSome :
    (hash_table_rehash_fuel 5
      ((hash_table_insert_fuel 5 collision_table 1 10).get
        demo_ins_isSome).1 16 8).isSome = true := by
  decide

/-- Claim C7.  `hash_table_rehash` preserves every key/value pair exactly
once: on any table reached from `hash_table_create` by successful inserts, a
successful rehash (to any new capacities) yields a table whose full pair
enumeration is a permutation of the old one — the same key/value pairs with
the same multiplicities, every value unchanged. -/
theorem c7_rehash_preserves_pairs {K V : Type} [Inhabited K] [Inhabited V]
    {t : hash_table K V} (h : HTReached t) (fuel nb nv : Nat)
    {t2 : hash_table K V}
    (hs : hash_table_rehash_fuel fuel t nb nv = some t2) :
    ∃ ps ps2 : List (hash_table_pair K V),
      hash_table_pairs t = some ps ∧ hash_table_pairs t2 = some ps2 ∧
      List.Perm ps2 ps := by
  obtain ⟨L, blocks, hwf, hok⟩ := HTReached_HTWF h
  cases fuel with
  | zero => exact Option.noConfusion hs
  | succ fuel =>
    replace hs : hash_table_rehash_go
        (@hash_table_insert_fuel K V _ _ fuel) t nb nv = some t2 := hs
    obtain ⟨L2, blocks2, hwf2, hh2, he2, hperm2⟩ :=
      rehash_go_spec (insert_fuel_InsOK fuel) t L blocks nb nv t2 hwf hok hs
    exact ⟨_, _, HTWF_pairs hwf, HTWF_pairs hwf2, hperm2⟩

/-- Witness for C7: a table holding the single pair (1, 10) is rehashed from
bucket capacity 8 to 16; the enumerations before and after are permutations
of each other. -/
theorem c7_rehash_preserves_pairs_witness :
    ∃ ps ps2 : List (hash_table_pair Int Int),
      hash_table_pairs
        ((hash_table_insert_fuel 5 collision_table 1 10).get
          demo_ins_isSome).1 = some ps ∧
      hash_table_pairs
        ((hash_table_rehash_fuel 5
          ((hash_table_insert_fuel 5 collision_table 1 10).get
            demo_ins_isSome).1 16 8).get demo_reh_isSome) = some ps2 ∧
      List.Perm ps2 ps :=
  c7_rehash_preserves_pairs demo_table_reached 5 16 8
    (Option.some_get demo_reh_isSome).symm

/-- Claim C3 (corrected).  On every table reached from `hash_table_create`
by successful `hash_table_insert` calls — deletes excluded — each occupied
bucket's `size`-bounded chain walk from `value_index` visits exactly the
live pairs whose key hashes to that bucket (each exactly once: the walk is
the bucket's chain segment, a sublist of the live ring) — but not in
within-bucket insertion order: `hash_table_insert` splices every later pair
immediately after the chain head, so the first scenario conjunct walks keys
inserted as 1, 2, 3 in the order 1, 3, 2.  Deletes cannot be admitted: the
second scenario conjunct shows that after a successful `hash_table_delete`
of a bucket's chain head the stale `value_index` makes the walk miss the
bucket's surviving pair (2, 20) entirely. -/
theorem c3_bucket_walk_visits_exactly {K V : Type} [Inhabited K]
    [Inhabited V] :
    (∀ t : hash_table K V, HTReached t →
      ∃ (L : List Int) (blocks : List (Nat × List Int)), HTWF t L blocks ∧
        (∀ pos : Nat, (t.hash_table pos).size ≠ 0 →
          ∃ pb ∈ blocks, pb.1 = pos) ∧
        (∀ pb ∈ blocks,
          (t.hash_table pb.1).size = pb.2.length ∧ pb.2 ≠ [] ∧
          __hash_table_bucket_walk t (t.hash_table pb.1).value_index
              (t.hash_table pb.1).size =
            pb.2.map (fun i => (t.values.elements i).element) ∧
          ∀ p : hash_table_pair K V,
            p ∈ __hash_table_bucket_walk t
                (t.hash_table pb.1).value_index
                (t.hash_table pb.1).size ↔
              p ∈ (L.map fun i => (t.values.elements i).element) ∧
                __hash_table_get_position t p.key = pb.1)) ∧
    ((do
      let (t1a, _) ← hash_table_insert_fuel 5 collision_table 1 10
      let (t2a, _) ← hash_table_insert_fuel 5 t1a 2 20
      let (t3a, _) ← hash_table_insert_fuel 5 t2a 3 30
      pure (__hash_table_bucket_walk t3a (t3a.hash_table 0).value_index
              (t3a.hash_table 0).size))
    = some [⟨1, 10⟩, ⟨3, 30⟩, ⟨2, 20⟩]) ∧
    ((do
      let (t1b, _) ← hash_table_insert_fuel 5 collision_table 1 10
      let (t2b, _) ← hash_table_insert_fuel 5 t1b 2 20
      let (t3b, _) ← hash_table_delete t2b 1
      pure (hash_table_pairs t3b,
        (__hash_table_bucket_walk t3b (t3b.hash_table 0).value_index
          (t3b.hash_table 0).size).contains ⟨2, 20⟩))
    = some (some [⟨2, 20⟩], false)) := by
  constructor
  · intro t hre
    obtain ⟨L, blocks, hwf, hok⟩ := HTReached_HTWF hre
    refine ⟨L, blocks, hwf, ?_, ?_⟩
    · intro pos hsz
      by_contra hc
      push_neg at hc
      refine hsz (hwf.empty_size pos ?_)
      intro hmem
      obtain ⟨pb, hpb, hfst⟩ := List.mem_map.mp hmem
      exact hc pb hpb hfst
    · intro pb hpb
      have hbe := hwf.bucket_eq pb hpb
      obtain ⟨P, S, hLPS⟩ := block_decomp hwf hpb
      cases hseg : pb.2 with
      | nil => exact absurd hseg (hwf.blocks_ne pb hpb)
      | cons s0 seg' =>
      have hchain := hwf.values_wf.core.chain
      rw [hLPS, hseg] at hchain
      have hchain' : links t.values.elements s0 (seg' ++ S) 0 :=
        ((links_append t.values.elements P 0 s0 0 (seg' ++ S)).mp hchain).2
      have hwalk : __hash_table_bucket_walk t s0 (seg'.length + 1) =
          (s0 :: seg').map (fun i => (t.values.elements i).element) :=
        bucket_walk_spec t seg' S s0 hchain'
      have hbe2 : t.hash_table pb.1 =
          { value_index := s0, size := seg'.length + 1 } := by
        rw [hbe, hseg]
        rfl
      have hwalk2 : __hash_table_bucket_walk t
          (t.hash_table pb.1).value_index (t.hash_table pb.1).size =
          (s0 :: seg').map (fun i => (t.values.elements i).element) := by
        rw [hbe2]
        exact hwalk
      refine ⟨congrArg hash_table_bucket.size hbe2, ?_, hwalk2, ?_⟩
      · exact List.cons_ne_nil _ _
      · intro p
        rw [hwalk2]
        constructor
        · intro hp
          obtain ⟨i, hib, hfi⟩ := List.mem_map.mp hp
          have hib2 : i ∈ pb.2 := by
            rw [hseg]
            exact hib
          have hiL : i ∈ L := by
            rw [hLPS, hseg]
            exact List.mem_append.mpr (Or.inr
              (List.mem_append.mpr (Or.inl hib)))
          refine ⟨List.mem_map.mpr ⟨i, hiL, hfi⟩, ?_⟩
          rw [← hfi]
          exact hwf.seg_pos pb hpb i hib2
        · rintro ⟨hpL, hpos⟩
          obtain ⟨i, hiL, hfi⟩ := List.mem_map.mp hpL
          obtain ⟨pb', hpb', hib'⟩ := mem_block_of_mem hwf hiL
          have hfst : pb'.1 = pb.1 := by
            have h1 := hwf.seg_pos pb' hpb' i hib'
            rw [hfi] at h1
            rw [← h1, hpos]
          have hpbeq : pb' = pb := block_unique hwf hpb' hpb hfst
          rw [hpbeq] at hib'
          refine List.mem_map.mpr ⟨i, ?_, hfi⟩
          rw [← hseg]
          exact hib'
  · exact ⟨by decide, by decide⟩

/-- Witness for C3: the corrected statement instantiated at a reached table
holding the single pair (1, 10), together with the concrete three-key
collision scenario exhibiting the walk order 1, 3, 2 and the delete
scenario in which the stale chain head makes the walk miss the surviving
pair. -/
theorem c3_bucket_walk_visits_exactly_witness :
    (∃ (L : List Int) (blocks : List (Nat × List Int)),
      HTWF ((hash_table_insert_fuel 5 collision_table 1 10).get
        demo_ins_isSome).1 L blocks ∧
      (∀ pos : Nat,
        (((hash_table_insert_fuel 5 collision_table 1 10).get
          demo_ins_isSome).1.hash_table pos).size ≠ 0 →
        ∃ pb ∈ blocks, pb.1 = pos) ∧
      (∀ pb ∈ blocks,
        (((hash_table_insert_fuel 5 collision_table 1 10).get
          demo_ins_isSome).1.hash_table pb.1).size = pb.2.length ∧
        pb.2 ≠ [] ∧
        __hash_table_bucket_walk
            ((hash_table_insert_fuel 5 collision_table 1 10).get
              demo_ins_isSome).1
            ((((hash_table_insert_fuel 5 collision_table 1 10).get
              demo_ins_isSome).1.hash_table pb.1)).value_index
            ((((hash_table_insert_fuel 5 collision_table 1 10).get
              demo_ins_isSome).1.hash_table pb.1)).size =
          pb.2.map (fun i =>
            (((hash_table_insert_fuel 5 collision_table 1 10).get
              demo_ins_isSome).1.values.elements i).element) ∧
        ∀ p : hash_table_pair Int Int,
          p ∈ __hash_table_bucket_walk
              ((hash_table_insert_fuel 5 collision_table 1 10).get
                demo_ins_isSome).1
              ((((hash_table_insert_fuel 5 collision_table 1 10).get
                demo_ins_isSome).1.hash_table pb.1)).value_index
              ((((hash_table_insert_fuel 5 collision_table 1 10).get
                demo_ins_isSome).1.hash_table pb.1)).size ↔
            p ∈ (L.map fun i =>
              (((hash_table_insert_fuel 5 collision_table 1 10).get
                demo_ins_isSome).1.values.elements i).element) ∧
            __hash_table_get_position
              ((hash_table_insert_fuel 5 collision_table 1 10).get
                demo_ins_isSome).1 p.key = pb.1)) ∧
    ((do
      let (t1a, _) ← hash_table_insert_fuel 5 collision_table 1 10
      let (t2a, _) ← hash_table_insert_fuel 5 t1a 2 20
      let (t3a, _) ← hash_table_insert_fuel 5 t2a 3 30
      pure (__hash_table_bucket_walk t3a (t3a.hash_table 0).value_index
              (t3a.hash_table 0).size))
    = some [⟨1, 10⟩, ⟨3, 30⟩, ⟨2, 20⟩]) ∧
    ((do
      let (t1b, _) ← hash_table_insert_fuel 5 collision_table 1 10
      let (t2b, _) ← hash_table_insert_fuel 5 t1b 2 20
      let (t3b, _) ← hash_table_delete t2b 1
      pure (hash_table_pairs t3b,
        (__hash_table_bucket_walk t3b (t3b.hash_table 0).value_index
          (t3b.hash_table 0).size).contains ⟨2, 20⟩))
    = some (some [⟨2, 20⟩], false)) :=
  ⟨(@c3_bucket_walk_visits_exactly Int Int _ _).1
      ((hash_table_insert_fuel 5 collision_table 1 10).get
        demo_ins_isSome).1 demo_table_reached,
    (@c3_bucket_walk_visits_exactly Int Int _ _).2⟩
